import Mathlib

/-!
# req: parser front end and JSON decoding

A shallow embedding of `syntax/parser.go` and `value/json.go`.

The scanner, the `token` package and the AST declarations are not part of the
sources at hand; what the parser needs of them is modelled below and marked as
such.  Loops and recursion of the Go code take a fuel argument: a function
returns `none` exactly when the fuel ran out before the Go code returned.
-/

namespace Req

/-! ## Tokens and the scanner -/

/-- Modelled from the spec: the token categories of package `token`
(name, literal, reference marker, `. , : ; = ->`, `{ } [ ]`, `match`, `yield`,
end-of-input). -/
inductive Token where
  | EOF | Name | Literal | Ref
  | Dot | Comma | Colon | Semi | Assign | Arrow
  | Lbrace | Rbrace | Lbrack | Rbrack
  | Match | Yield
  deriving DecidableEq, Repr

/-- Modelled from the spec: a source position (file, line, column). -/
structure Pos where
  file : String
  line : Nat
  col : Nat
  deriving DecidableEq, Repr

/-- Modelled from the spec: the sub-kind of a literal token, as a tag. -/
abbrev LitType := Nat

/-- One scanned token: the fields `tok`, `typ`, `lit`, `pos` the parser reads
off its scanner. -/
structure Item where
  tok : Token
  typ : LitType
  lit : String
  pos : Pos
  deriving DecidableEq, Repr

/-- The text of a diagnostic.  `tok.String()` is not part of the sources, so a
message keeps the token it names instead of its spelling. -/
inductive Msg where
  | expected (tok : Token)
  | unexpected (tok : Token)
  | expectedOr (sep fin : Token)
  | text (s : String)
  deriving DecidableEq, Repr

/-- The `parser` struct: the scanner (the tokens not yet consumed, the current
one first), the error count `errc`, and the calls made to the sink `errh`,
oldest first. -/
structure parser where
  toks : List Item
  errc : Nat
  sink : List (Pos × Msg)
  deriving DecidableEq, Repr

/-- What the scanner shows once the input is used up. -/
def eofItem : Item := ⟨Token.EOF, 0, "", ⟨"", 0, 0⟩⟩

def parser.cur (p : parser) : Item := p.toks.headD eofItem

def parser.tok (p : parser) : Token := p.cur.tok

def parser.lit (p : parser) : String := p.cur.lit

def parser.typ (p : parser) : LitType := p.cur.typ

def parser.pos (p : parser) : Pos := p.cur.pos

/-- Modelled from the spec: `scanner.next`.  The stream ends with
end-of-input, and advancing there leaves the scanner there. -/
def parser.next (p : parser) : parser :=
  if p.tok = Token.EOF then p else { p with toks := p.toks.tail }

/-- The parser as `ParseFile` sets it up over a token stream. -/
def parser.init (ts : List Item) : parser := ⟨ts, 0, []⟩

/-! ## AST -/

/-- The AST nodes the parser builds (`Ident`, `Lit`, `Ref`, `DotExpr`,
`IndExpr`, `Object`, `KeyExpr`, `Array`, `BlockStmt`, `YieldStmt`, `MatchStmt`,
`ChainStmt`, `CommandStmt`, `VarDecl`), with `nil` for a nil result.  The
`Jmptab` of a match statement is a map from `uint32` to nodes, kept as a list
of entries with distinct keys. -/
inductive Node where
  | nil
  | Ident (pos : Pos) (Name : String)
  | Lit (pos : Pos) (Typ : LitType) (Value : String)
  | Ref (Left : Node)
  | DotExpr (pos : Pos) (Left Right : Node)
  | IndExpr (pos : Pos) (Left Right : Node)
  | Object (pos : Pos) (Pairs : List Node)
  | KeyExpr (pos : Pos) (Key Value : Node)
  | Array (pos : Pos) (Items : List Node)
  | BlockStmt (pos : Pos) (Nodes : List Node)
  | YieldStmt (pos : Pos) (Value : Node)
  | MatchStmt (pos : Pos) (Cond : Node) (Jmptab : List (Nat × Node))
  | ChainStmt (Commands : List Node)
  | CommandStmt (pos : Pos) (Name : String) (Args : List Node)
  | VarDecl (pos : Pos) (Ident : Node) (Value : Node)

/-- Assignment `m[k] = v` on a Go map kept as a list of entries: an entry
with key `k` is replaced in place, otherwise one is added. -/
def mapSet {α β : Type} [DecidableEq α] : List (α × β) → α → β → List (α × β)
  | [], k, v => [(k, v)]
  | (k', v') :: m, k, v => if k' = k then (k, v) :: m else (k', v') :: mapSet m k v

/-- Lookup `m[k]` on a Go map kept as a list of entries. -/
def mapGet {α β : Type} [DecidableEq α] : List (α × β) → α → Option β
  | [], _ => none
  | (k', v') :: m, k => if k' = k then some v' else mapGet m k

/-- The hash `hash/fnv.New32` computes over the bytes written to it (FNV-1):
for each byte, multiply by the 32-bit prime, then xor the byte in. -/
def fnv32Bytes (bs : List Nat) : Nat :=
  bs.foldl (fun h c => Nat.xor ((h * 16777619) % 2 ^ 32) c) 2166136261

/-- The sum `h.Sum32()` after `h.Write([]byte(lit))`. -/
def hash32 (lit : String) : Nat :=
  fnv32Bytes ((lit.data.flatMap String.utf8EncodeChar).map UInt8.toNat)

/-! ## The parser -/

def parser.got (p : parser) (tok : Token) : Bool × parser :=
  if p.tok = tok then (true, p.next) else (false, p)

def parser.errAt (p : parser) (pos : Pos) (msg : Msg) : parser :=
  { p with errc := p.errc + 1, sink := p.sink ++ [(pos, msg)] }

def parser.err (p : parser) (msg : Msg) : parser := p.errAt p.pos msg

def parser.expected (p : parser) (tok : Token) : parser := p.err (Msg.expected tok)

def parser.unexpected (p : parser) (tok : Token) : parser := p.err (Msg.unexpected tok)

def parser.want (p : parser) (tok : Token) : parser :=
  if (p.got tok).1 then (p.got tok).2 else p.expected tok

def parser.ident (p : parser) : Node × parser :=
  if p.tok ≠ Token.Name then (Node.nil, p)
  else (Node.Ident p.pos p.lit, p.next)

def parser.literal (p : parser) : Node × parser :=
  if p.tok ≠ Token.Literal then (Node.nil, p)
  else (Node.Lit p.pos p.typ p.lit, p.next)

/-- The loop of `parser.list`: `parse` is the closure run once per item, the
accumulator is the slice the closure appends to. -/
def parser.list {α : Type} (sep fin : Token) (parse : α → parser → Option (α × parser)) :
    Nat → α → parser → Option (α × parser)
  | 0, _, _ => none
  | fuel + 1, acc, p =>
    if p.tok ≠ Token.EOF ∧ p.tok ≠ fin then
      match parse acc p with
      | none => none
      | some (acc, p) =>
        if ¬ (p.got sep).1 = true ∧ (p.got sep).2.tok ≠ fin then
          parser.list sep fin parse fuel acc ((p.got sep).2.err (Msg.expectedOr sep fin)).next
        else parser.list sep fin parse fuel acc (p.got sep).2
    else some (acc, p.want fin)

/-- The closure `arr` hands to `list`. -/
def parser.arrItem (items : List Node) (p : parser) : Option (List Node × parser) :=
  if p.tok ≠ Token.Literal then some (items, (p.expected Token.Literal).next)
  else some (items ++ [p.literal.1], p.literal.2)

def parser.arr (fuel : Nat) (p : parser) : Option (Node × parser) :=
  match parser.list Token.Comma Token.Rbrack parser.arrItem fuel [] (p.want Token.Lbrack) with
  | none => none
  | some (items, q) => some (Node.Array (p.want Token.Lbrack).pos items, q)

mutual

def parser.ref : Nat → parser → Option (Node × parser)
  | 0, _ => none
  | fuel + 1, p =>
    if p.tok ≠ Token.Ref then some (Node.nil, p)
    else parser.refLoop fuel (p.got Token.Ref).2.ident.1 (p.got Token.Ref).2.ident.2

/-- The `loop:` of `ref`; `left` is `ref.Left`. -/
def parser.refLoop : Nat → Node → parser → Option (Node × parser)
  | 0, _, _ => none
  | fuel + 1, left, p =>
    match p.tok with
    | Token.Dot =>
      if p.next.tok ≠ Token.Name then some (Node.nil, (p.next.expected Token.Name).next)
      else parser.refLoop fuel (Node.DotExpr p.pos left p.next.ident.1) p.next.ident.2
    | Token.Lbrack =>
      if p.next.tok = Token.Rbrack then
        parser.refLoop fuel left (p.next.err (Msg.text "expected string, int, or variable")).next
      else
        match p.next.tok with
        | Token.Literal =>
          parser.refLoop fuel (Node.IndExpr p.pos left p.next.literal.1) p.next.literal.2
        | Token.Ref =>
          match parser.ref fuel p.next with
          | none => none
          | some (r, q) => parser.refLoop fuel (Node.IndExpr p.pos left r) q
        | _ =>
          parser.refLoop fuel (Node.IndExpr p.pos left Node.nil)
            (p.next.unexpected p.next.tok).next
    | _ => some (Node.Ref left, p)

end

mutual

/-- The closure `obj` hands to `list`. -/
def parser.objItem : Nat → List Node → parser → Option (List Node × parser)
  | 0, _, _ => none
  | fuel + 1, pairs, p =>
    if p.tok ≠ Token.Name then some (pairs, (p.expected Token.Name).next)
    else
      match parser.operand fuel (p.ident.2.want Token.Colon) with
      | none => none
      | some (val, q) => some (pairs ++ [Node.KeyExpr q.pos p.ident.1 val], q)

def parser.obj : Nat → parser → Option (Node × parser)
  | 0, _ => none
  | fuel + 1, p =>
    match parser.list Token.Comma Token.Rbrace (fun acc q => parser.objItem fuel acc q)
        fuel [] (p.want Token.Lbrace) with
    | none => none
    | some (pairs, q) => some (Node.Object (p.want Token.Lbrace).pos pairs, q)

def parser.blockstmt : Nat → parser → Option (Node × parser)
  | 0, _ => none
  | fuel + 1, p =>
    match parser.blockLoop fuel [] (p.want Token.Lbrace) with
    | none => none
    | some (nodes, q) =>
      some (Node.BlockStmt (p.want Token.Lbrace).pos nodes, q.want Token.Rbrace)

/-- The `for` loop of `blockstmt`; `nodes` is `n.Nodes`. -/
def parser.blockLoop : Nat → List Node → parser → Option (List Node × parser)
  | 0, _, _ => none
  | fuel + 1, nodes, p =>
    if p.tok ≠ Token.Rbrace ∧ p.tok ≠ Token.EOF then
      match parser.stmt fuel p with
      | none => none
      | some (n, q) => parser.blockLoop fuel (nodes ++ [n]) q
    else some (nodes, p)

def parser.yield : Nat → parser → Option (Node × parser)
  | 0, _ => none
  | fuel + 1, p =>
    if ¬ (p.got Token.Yield).1 = true then some (Node.nil, (p.got Token.Yield).2)
    else
      match parser.operand fuel (p.got Token.Yield).2 with
      | none => none
      | some (val, q) => some (Node.YieldStmt (p.got Token.Yield).2.pos val, q)

/-- The part of `casestmt` from the label `right:` on; `lit` is the text of
the case label. -/
def parser.casestmtRight : Nat → String → List (Nat × Node) → parser →
    Option (List (Nat × Node) × parser)
  | 0, _, _, _ => none
  | fuel + 1, lit, jmptab, p =>
    match (p.want Token.Arrow).tok with
    | Token.Lbrace =>
      match parser.blockstmt fuel (p.want Token.Arrow) with
      | none => none
      | some (n, q) => some (mapSet jmptab (hash32 lit) n, q)
    | Token.Yield =>
      match parser.yield fuel (p.want Token.Arrow) with
      | none => none
      | some (n, q) => some (mapSet jmptab (hash32 lit) n, q)
    | _ => some (jmptab, (p.want Token.Arrow).unexpected (p.want Token.Arrow).tok)

def parser.casestmt : Nat → List (Nat × Node) → parser →
    Option (List (Nat × Node) × parser)
  | 0, _, _ => none
  | fuel + 1, jmptab, p =>
    if p.tok = Token.Name then
      if p.lit ≠ "_" then some (jmptab, p.unexpected p.tok)
      else parser.casestmtRight fuel p.lit jmptab p.next
    else if p.tok ≠ Token.Literal then some (jmptab, p.unexpected p.tok)
    else parser.casestmtRight fuel p.lit jmptab p.next

def parser.matchstmt : Nat → parser → Option (Node × parser)
  | 0, _ => none
  | fuel + 1, p =>
    if p.tok ≠ Token.Match then some (Node.nil, p)
    else
      match (match p.next.tok with
        | Token.Literal => some p.next.literal
        | Token.Ref => parser.ref fuel p.next
        | _ => some (Node.nil, (p.next.unexpected p.next.tok).next)) with
      | none => none
      | some (cond, q) =>
        match parser.matchLoop fuel [] (q.want Token.Lbrace) with
        | none => none
        | some (jmptab, r) => some (Node.MatchStmt p.pos cond jmptab, (r.got Token.Rbrace).2)

/-- The `for` loop of `matchstmt`; `jmptab` is `n.Jmptab`. -/
def parser.matchLoop : Nat → List (Nat × Node) → parser →
    Option (List (Nat × Node) × parser)
  | 0, _, _ => none
  | fuel + 1, jmptab, p =>
    if p.tok ≠ Token.Rbrace then
      match parser.casestmt fuel jmptab p with
      | none => none
      | some (jmptab, q) =>
        if q.tok ≠ Token.Comma ∧ q.tok ≠ Token.Rbrace then
          parser.matchLoop fuel jmptab (q.err (Msg.text "expected comma or \x7d")).next
        else parser.matchLoop fuel jmptab (q.got Token.Comma).2
    else some (jmptab, p)

def parser.chain : Nat → Node → parser → Option (Node × parser)
  | 0, _, _ => none
  | fuel + 1, cmd, p =>
    match parser.chainLoop fuel [cmd] p with
    | none => none
    | some (cmds, q) => some (Node.ChainStmt cmds, q)

/-- The `for` loop of `chain`; `cmds` is `n.Commands`. -/
def parser.chainLoop : Nat → List Node → parser → Option (List Node × parser)
  | 0, _, _ => none
  | fuel + 1, cmds, p =>
    if p.tok ≠ Token.Semi ∧ p.tok ≠ Token.EOF then
      if p.tok ≠ Token.Name then parser.chainLoop fuel cmds (p.expected Token.Name).next
      else
        match parser.command fuel p.lit p.ident.2 with
        | none => none
        | some (c, q) =>
          if ¬ (q.got Token.Arrow).1 = true ∧ (q.got Token.Arrow).2.tok ≠ Token.Semi
              ∧ (q.got Token.Arrow).2.tok ≠ Token.EOF then
            parser.chainLoop fuel (cmds ++ [c])
              ((q.got Token.Arrow).2.err (Msg.expectedOr Token.Arrow Token.Semi)).next
          else parser.chainLoop fuel (cmds ++ [c]) (q.got Token.Arrow).2
    else some (cmds, p)

def parser.operand : Nat → parser → Option (Node × parser)
  | 0, _ => none
  | fuel + 1, p =>
    match p.tok with
    | Token.Literal => some p.literal
    | Token.Ref => parser.ref fuel p
    | Token.Lbrace => parser.obj fuel p
    | Token.Lbrack => parser.arr fuel p
    | _ => some (Node.nil, (p.unexpected p.tok).next)

def parser.expr : Nat → parser → Option (Node × parser)
  | 0, _ => none
  | fuel + 1, p =>
    match p.tok with
    | Token.Name =>
      match parser.command fuel p.lit p.ident.2 with
      | none => none
      | some (n, q) =>
        if (q.got Token.Arrow).1 = true then parser.chain fuel n (q.got Token.Arrow).2
        else some (n, (q.got Token.Arrow).2)
    | Token.Match => parser.matchstmt fuel p
    | _ => parser.operand fuel p

def parser.command : Nat → String → parser → Option (Node × parser)
  | 0, _, _ => none
  | fuel + 1, name, p =>
    match parser.commandLoop fuel [] p with
    | none => none
    | some (args, q) => some (Node.CommandStmt p.pos name args, q)

/-- The `for` loop of `command`; `args` is `n.Args`. -/
def parser.commandLoop : Nat → List Node → parser → Option (List Node × parser)
  | 0, _, _ => none
  | fuel + 1, args, p =>
    if p.tok ≠ Token.Arrow ∧ p.tok ≠ Token.Semi ∧ p.tok ≠ Token.EOF then
      match parser.expr fuel p with
      | none => none
      | some (n, q) => parser.commandLoop fuel (args ++ [n]) q
    else some (args, p)

def parser.vardecl : Nat → Node → parser → Option (Node × parser)
  | 0, _, _ => none
  | fuel + 1, ident, p =>
    if ¬ (p.got Token.Assign).1 = true then some (Node.nil, (p.got Token.Assign).2)
    else
      match parser.expr fuel (p.got Token.Assign).2 with
      | none => none
      | some (val, q) => some (Node.VarDecl p.pos ident val, q)

/-- The `switch` of `stmt`: the statement itself, before its terminator. -/
def parser.stmtBody : Nat → parser → Option (Node × parser)
  | 0, _ => none
  | fuel + 1, p =>
    match p.tok with
    | Token.Name =>
      if p.ident.2.tok = Token.Assign then parser.vardecl fuel p.ident.1 p.ident.2
      else
        match parser.command fuel p.lit p.ident.2 with
        | none => none
        | some (cmd, q) =>
          if (q.got Token.Arrow).1 = true then parser.chain fuel cmd (q.got Token.Arrow).2
          else some (cmd, (q.got Token.Arrow).2)
    | Token.Match => parser.matchstmt fuel p
    | Token.Yield => parser.yield fuel p
    | _ => some (Node.nil, (p.unexpected p.tok).next)

def parser.stmt : Nat → parser → Option (Node × parser)
  | 0, _ => none
  | fuel + 1, p =>
    match parser.stmtBody fuel p with
    | none => none
    | some (n, q) =>
      if q.tok ≠ Token.EOF then
        if ¬ (q.got Token.Semi).1 = true then some (n, (q.got Token.Semi).2.expected Token.Semi)
        else some (n, (q.got Token.Semi).2)
      else some (n, q)

end

/-- The `for` loop of `parse`; `nn` is the slice of nodes built so far. -/
def parser.parseLoop : Nat → List Node → parser → Option (List Node × parser)
  | 0, _, _ => none
  | fuel + 1, nn, p =>
    if p.tok ≠ Token.EOF then
      match parser.stmt fuel p with
      | none => none
      | some (n, q) => parser.parseLoop fuel (nn ++ [n]) q
    else some (nn, p)

def parser.parse (fuel : Nat) (p : parser) : Option (List Node × parser) :=
  parser.parseLoop fuel [] p

/-! ## Token streams for examples -/

def pos0 : Pos := ⟨"", 0, 0⟩

def tName (s : String) : Item := ⟨Token.Name, 0, s, pos0⟩

def tLit (s : String) : Item := ⟨Token.Literal, 0, s, pos0⟩

def tk (t : Token) : Item := ⟨t, 0, "", pos0⟩

/-! ## Values and JSON decoding -/

/-- A reader over a byte sequence (`io.ReadCloser` over a buffer): the bytes
and the position of the next read. -/
structure Reader where
  data : List Nat
  pos : Nat
  deriving DecidableEq, Repr

/-- Modelled from the spec: the handle a `Response` value wraps
(`http.Response`), as far as `response.go` reads it.  `Header` is a Go map:
its entries have distinct names and stand in the order in which `range`
visits them.  `Body` is `none` for a nil body. -/
structure HttpResponse where
  Proto : String
  Status : String
  StatusCode : Int
  Header : List (String × List String)
  Body : Option Reader
  deriving DecidableEq, Repr

/-- A finite `float64`, the number `(-1)^neg * mant * 2^exp`.  `encoding/json`
yields no other `float64`. -/
structure Float64 where
  neg : Bool
  mant : Nat
  exp : Int
  deriving DecidableEq, Repr

/-- Modelled from the spec: the closed set of runtime values.  An `int64` is
an integer, a Go map a list of entries with distinct keys, the hash set of an
array a list.  A `Response` holds a pointer to its handle, `none` when nil. -/
inductive Value where
  | Zero
  | Bool (Value : Bool)
  | Int (Value : Int)
  | Float (Value : Float64)
  | String (Value : String)
  | Array (set : List Nat) (Items : List Value)
  | Object (Order : List String) (Pairs : List (String × Value))
  | Stream (data : List Nat)
  | Response (r : Option HttpResponse)

/-- The value `encoding/json` decodes a document into when the target is an
`interface{}`: `nil`, `string`, `float64`, `bool`, `[]interface{}` or
`map[string]interface{}`.  The entries of a map have distinct keys and stand
in the order in which `range` visits them, which Go leaves unspecified. -/
inductive GoVal where
  | nil
  | string (v : String)
  | float64 (v : Float64)
  | bool (v : Bool)
  | slice (v : List GoVal)
  | map (v : List (String × GoVal))

/-- The mantissa of a `float64` has 53 bits. -/
def Float64.valid (v : Float64) : Prop := v.mant < 2 ^ 53

/-- The number `v` stands for is an integer. -/
def Float64.isInt (v : Float64) : Prop := 0 ≤ v.exp ∨ v.mant % 2 ^ (-v.exp).toNat = 0

/-- The magnitude of `v` without its fraction. -/
def Float64.truncNat (v : Float64) : Nat :=
  if 0 ≤ v.exp then v.mant * 2 ^ v.exp.toNat else v.mant / 2 ^ (-v.exp).toNat

/-- The integer `v` stands for once its fraction is dropped. -/
def Float64.trunc (v : Float64) : Int :=
  if v.neg = true then -(v.truncNat : Int) else (v.truncNat : Int)

/-- The comparison `v == w` of two `float64`: they stand for the same number. -/
def Float64.eq (v w : Float64) : Bool :=
  decide ((v.mant = 0 ∧ w.mant = 0) ∨
    (v.neg = w.neg ∧
      v.mant * 2 ^ (v.exp - min v.exp w.exp).toNat = w.mant * 2 ^ (w.exp - min v.exp w.exp).toNat))

/-- The conversion `int64(v)` of a `float64`: the fraction is dropped; when
the result does not fit, Go leaves the value to the implementation, here
`oor v`. -/
def toInt64 (oor : Float64 → Int) (v : Float64) : Int :=
  if -(2 : Int) ^ 63 ≤ v.trunc ∧ v.trunc < (2 : Int) ^ 63 then v.trunc else oor v

/-- The number of binary digits of `n`, counted with `fuel` halvings. -/
def bitLenAux : Nat → Nat → Nat
  | 0, _ => 0
  | fuel + 1, n => if n = 0 then 0 else bitLenAux fuel (n / 2) + 1

/-- The number of binary digits of `n`. -/
def bitLen (n : Nat) : Nat := bitLenAux n n

/-- The mantissa of the `float64` nearest to `a`, for the exponent
`bitLen a - 53`: ties go to the even mantissa. -/
def roundMant (a : Nat) : Nat :=
  if 2 ^ (bitLen a - 53) < 2 * (a % 2 ^ (bitLen a - 53)) ∨
      (2 * (a % 2 ^ (bitLen a - 53)) = 2 ^ (bitLen a - 53) ∧
        a / 2 ^ (bitLen a - 53) % 2 = 1)
    then a / 2 ^ (bitLen a - 53) + 1 else a / 2 ^ (bitLen a - 53)

/-- The conversion `float64(i)` of an integer, also what `encoding/json` reads
an integer number of a document as: the nearest `float64`. -/
def toFloat64 (i : Int) : Float64 :=
  if roundMant i.natAbs = 2 ^ 53 then ⟨decide (i < 0), 2 ^ 52, ((bitLen i.natAbs - 53 + 1 : Nat) : Int)⟩
  else ⟨decide (i < 0), roundMant i.natAbs, ((bitLen i.natAbs - 53 : Nat) : Int)⟩

mutual

/-- The function `decodeJson`.  `hashItems` (of `array.go`, not at hand)
gives the hash set of a list of items; `oor` is the implementation's result
for an `int64` conversion out of range. -/
def decodeJson (hashItems : List Value → List Nat) (oor : Float64 → Int) : GoVal → Value
  | GoVal.nil => Value.Zero
  | GoVal.string v => Value.String v
  | GoVal.float64 v =>
    if v.eq (toFloat64 (toInt64 oor v)) = true then Value.Int (toInt64 oor v)
    else Value.Float v
  | GoVal.bool v => Value.Bool v
  | GoVal.slice v =>
    Value.Array (hashItems (decodeItems hashItems oor v [])) (decodeItems hashItems oor v [])
  | GoVal.map v =>
    Value.Object (decodePairs hashItems oor v [] []).1 (decodePairs hashItems oor v [] []).2

/-- The loop over a slice in `decodeJson`; `items` is `arr.Items`. -/
def decodeItems (hashItems : List Value → List Nat) (oor : Float64 → Int) :
    List GoVal → List Value → List Value
  | [], items => items
  | a :: v, items => decodeItems hashItems oor v (items ++ [decodeJson hashItems oor a])

/-- The loop over a map in `decodeJson`; `order` is `obj.Order`, `pairs` is
`obj.Pairs`. -/
def decodePairs (hashItems : List Value → List Nat) (oor : Float64 → Int) :
    List (String × GoVal) → List String → List (String × Value) →
      List String × List (String × Value)
  | [], order, pairs => (order, pairs)
  | (k, a) :: v, order, pairs =>
    decodePairs hashItems oor v (order ++ [k]) (mapSet pairs k (decodeJson hashItems oor a))

end


/-- Fuel never changes a result: what the functions of the statement grammar
return with `n` units of fuel they return with `n + 1`. -/
structure MonoAt (n : Nat) : Prop where
  objItem : ∀ a p r, parser.objItem n a p = some r → parser.objItem (n + 1) a p = some r
  obj : ∀ p r, parser.obj n p = some r → parser.obj (n + 1) p = some r
  blockstmt : ∀ p r, parser.blockstmt n p = some r → parser.blockstmt (n + 1) p = some r
  blockLoop : ∀ a p r, parser.blockLoop n a p = some r → parser.blockLoop (n + 1) a p = some r
  yield : ∀ p r, parser.yield n p = some r → parser.yield (n + 1) p = some r
  casestmtRight : ∀ l a p r,
    parser.casestmtRight n l a p = some r → parser.casestmtRight (n + 1) l a p = some r
  casestmt : ∀ a p r, parser.casestmt n a p = some r → parser.casestmt (n + 1) a p = some r
  matchstmt : ∀ p r, parser.matchstmt n p = some r → parser.matchstmt (n + 1) p = some r
  matchLoop : ∀ a p r, parser.matchLoop n a p = some r → parser.matchLoop (n + 1) a p = some r
  chain : ∀ c p r, parser.chain n c p = some r → parser.chain (n + 1) c p = some r
  chainLoop : ∀ a p r, parser.chainLoop n a p = some r → parser.chainLoop (n + 1) a p = some r
  operand : ∀ p r, parser.operand n p = some r → parser.operand (n + 1) p = some r
  expr : ∀ p r, parser.expr n p = some r → parser.expr (n + 1) p = some r
  command : ∀ s p r, parser.command n s p = some r → parser.command (n + 1) s p = some r
  commandLoop : ∀ a p r,
    parser.commandLoop n a p = some r → parser.commandLoop (n + 1) a p = some r
  vardecl : ∀ i p r, parser.vardecl n i p = some r → parser.vardecl (n + 1) i p = some r
  stmtBody : ∀ p r, parser.stmtBody n p = some r → parser.stmtBody (n + 1) p = some r
  stmt : ∀ p r, parser.stmt n p = some r → parser.stmt (n + 1) p = some r

/-! ## Phrases of the grammar, for stating what the parser does -/

/-- The current token of a scanner over `ts`. -/
def tokOf (ts : List Item) : Token := (ts.headD eofItem).tok

/-- The function `f`, run with enough fuel, returns `r`. -/
def Ret {β : Type} (f : Nat → Option β) (r : β) : Prop := ∃ n, f n = some r

/-- One case of a match statement as written: the label, the arrow, the
tokens of the body, the comma that separates it from the next case, and the
node the body is parsed to. -/
structure CaseSrc where
  label : Item
  arrow : Item
  body : List Item
  comma : Item
  node : Node

/-- The tokens of a case: label, arrow, body. -/
def CaseSrc.toks (c : CaseSrc) : List Item := c.label :: c.arrow :: c.body

/-- The tokens of the cases of a match statement, separated by commas. -/
def casesToks : List CaseSrc → List Item
  | [] => []
  | c :: cs => match cs with
    | [] => c.toks
    | _ :: _ => c.toks ++ c.comma :: casesToks cs

/-- The tokens `b` are a block or a yield statement which the parser reads as
the node `n`, without a diagnostic, whenever a `,` or a `}` follows. -/
def BodyOK (b : List Item) (n : Node) : Prop :=
  (tokOf b = Token.Lbrace ∧
    ∀ rest c s, tokOf rest = Token.Comma ∨ tokOf rest = Token.Rbrace →
      Ret (fun k => parser.blockstmt k ⟨b ++ rest, c, s⟩) (n, ⟨rest, c, s⟩)) ∨
  (tokOf b = Token.Yield ∧
    ∀ rest c s, tokOf rest = Token.Comma ∨ tokOf rest = Token.Rbrace →
      Ret (fun k => parser.yield k ⟨b ++ rest, c, s⟩) (n, ⟨rest, c, s⟩))

/-- A well-formed case: the label is a literal or the wildcard `_`, then
`->`, then a block or a yield statement. -/
def CaseSrc.WF (c : CaseSrc) : Prop :=
  (c.label.tok = Token.Literal ∨ (c.label.tok = Token.Name ∧ c.label.lit = "_")) ∧
  c.arrow.tok = Token.Arrow ∧ c.comma.tok = Token.Comma ∧ BodyOK c.body c.node

/-- The condition of a match statement: a literal, or a reference which the
parser reads as the node `n` whenever a `{` follows. -/
def CondOK (x : List Item) (n : Node) : Prop :=
  (∃ i, x = [i] ∧ i.tok = Token.Literal ∧ n = Node.Lit i.pos i.typ i.lit) ∨
  (tokOf x = Token.Ref ∧
    ∀ rest c s, tokOf rest = Token.Lbrace →
      Ret (fun k => parser.ref k ⟨x ++ rest, c, s⟩) (n, ⟨rest, c, s⟩))

/-- The body of the last case among `cs` whose label hashes to `h`. -/
def lastNode (cs : List CaseSrc) (h : Nat) : Option Node :=
  ((cs.filter (fun c => hash32 c.label.lit = h)).getLast?).map (fun c => c.node)

/-- The position of the current token of a scanner over `ts`. -/
def posOf (ts : List Item) : Pos := (ts.headD eofItem).pos

/-- The node `n` is what `expr` reads the tokens `x` as: `x` starts like an
operand or a match statement, and in front of any further token `expr` reads
exactly `x`, returns `n` and reports nothing; a reference is read so when
neither `.` nor `[` follows. -/
def ArgOK (x : List Item) (n : Node) : Prop :=
  (tokOf x = Token.Literal ∨ tokOf x = Token.Ref ∨ tokOf x = Token.Lbrace ∨
    tokOf x = Token.Lbrack ∨ tokOf x = Token.Match) ∧
  ∀ rest c s, rest ≠ [] →
    (tokOf x = Token.Ref → tokOf rest ≠ Token.Dot ∧ tokOf rest ≠ Token.Lbrack) →
    Ret (fun k => parser.expr k ⟨x ++ rest, c, s⟩) (n, ⟨rest, c, s⟩)

/-- The tokens of a list of arguments. -/
def argsToks : List (List Item × Node) → List Item
  | [] => []
  | a :: as => a.1 ++ argsToks as

/-- Each node is what `expr` reads the tokens of its argument as, and a
reference is not followed by an argument that starts with `[`. -/
def ArgsOK : List (List Item × Node) → Prop
  | [] => True
  | a :: as => ArgOK a.1 a.2 ∧ (tokOf a.1 = Token.Ref → tokOf (argsToks as) ≠ Token.Lbrack) ∧
      ArgsOK as

/-- One command of a chain as written: its name, its arguments (the tokens of
each and the node it is parsed to), and the chain operator after it. -/
structure CmdSrc where
  name : Item
  args : List (List Item × Node)
  arrow : Item

/-- A command of a chain together with the nodes of its arguments. -/
def CmdSrc.WF (x : CmdSrc) : Prop :=
  x.name.tok = Token.Name ∧ x.arrow.tok = Token.Arrow ∧ ArgsOK x.args

/-- The tokens of the commands `xs`, chain operators in between, followed by
the tokens `R`. -/
def chainToks : List CmdSrc → List Item → List Item
  | [], R => R
  | x :: xs, R => match xs with
    | [] => x.name :: (argsToks x.args ++ R)
    | _ :: _ => x.name :: (argsToks x.args ++ x.arrow :: chainToks xs R)

/-- The `CommandStmt` nodes of the commands `xs` written before `R`: each has
the position of the token after its name, its name, and the nodes of its
arguments in order. -/
def cmdNodes : List CmdSrc → List Item → List Node
  | [], _ => []
  | x :: xs, R => match xs with
    | [] => [Node.CommandStmt (posOf (argsToks x.args ++ R)) x.name.lit (x.args.map Prod.snd)]
    | _ :: _ =>
      Node.CommandStmt (posOf (argsToks x.args ++ x.arrow :: chainToks xs R)) x.name.lit
        (x.args.map Prod.snd) :: cmdNodes xs R

/-- The case `l -> yield v`, both literals. -/
def exCase (l v : String) : CaseSrc :=
  ⟨tLit l, tk Token.Arrow, [tk Token.Yield, tLit v], tk Token.Comma,
    Node.YieldStmt pos0 (Node.Lit pos0 0 v)⟩

/-- The cases `"a" -> yield "1", "b" -> yield "2", "a" -> yield "3"`. -/
def exCases : List CaseSrc := [exCase "a" "1", exCase "b" "2", exCase "a" "3"]

/-! ## JSON documents -/

/-- A JSON document as written.  A number stands as the `float64` that
`encoding/json` reads it as; the members of an object stand in source order,
a key may occur more than once. -/
inductive JDoc where
  | null
  | str (v : String)
  | num (v : Float64)
  | bool (v : Bool)
  | arr (v : List JDoc)
  | obj (v : List (String × JDoc))

mutual

/-- What `encoding/json` decodes a document to for an `interface{}` target.
The members of an object are assigned to a Go map in source order, so a later
occurrence of a key replaces the earlier value.  The entries of the map are
listed here in first-seen order; `range` may visit them in any other order. -/
def unmarshal : JDoc → GoVal
  | JDoc.null => GoVal.nil
  | JDoc.str v => GoVal.string v
  | JDoc.num v => GoVal.float64 v
  | JDoc.bool v => GoVal.bool v
  | JDoc.arr v => GoVal.slice (unmarshalItems v)
  | JDoc.obj v => GoVal.map (unmarshalPairs v [])

/-- The elements of a JSON array, decoded in order. -/
def unmarshalItems : List JDoc → List GoVal
  | [] => []
  | d :: v => unmarshal d :: unmarshalItems v

/-- The members of a JSON object, assigned in order to the map `m`. -/
def unmarshalPairs : List (String × JDoc) → List (String × GoVal) → List (String × GoVal)
  | [], m => m
  | (k, d) :: v, m => unmarshalPairs v (mapSet m k (unmarshal d))

end

/-- The value of the last member of `ps` with key `k`. -/
def lastValue (ps : List (String × JDoc)) (k : String) : Option JDoc :=
  ((ps.filter (fun e => e.1 = k)).getLast?).map (fun e => e.2)

/-- The `Order` of a decoded object. -/
def orderOf : Value → List String
  | Value.Object o _ => o
  | _ => []

/-- The `Pairs` of a decoded object. -/
def pairsOf : Value → List (String × Value)
  | Value.Object _ p => p
  | _ => []

/-- The document `{"a":1,"b":[1,2,3],"c":null,"d":2.5}`. -/
def exDoc : List (String × JDoc) :=
  [("a", JDoc.num ⟨false, 1, 0⟩),
   ("b", JDoc.arr [JDoc.num ⟨false, 1, 0⟩, JDoc.num ⟨false, 2, 0⟩, JDoc.num ⟨false, 3, 0⟩]),
   ("c", JDoc.null),
   ("d", JDoc.num ⟨false, 5, -1⟩)]

/-- The Go map decoded from `exDoc`, its entries in the order `b, a, c, d`. -/
def exMap : List (String × GoVal) :=
  [("b", GoVal.slice [GoVal.float64 ⟨false, 1, 0⟩, GoVal.float64 ⟨false, 2, 0⟩,
      GoVal.float64 ⟨false, 3, 0⟩]),
   ("a", GoVal.float64 ⟨false, 1, 0⟩),
   ("c", GoVal.nil),
   ("d", GoVal.float64 ⟨false, 5, -1⟩)]

/-! ## The grammar, as the parser implements it without a diagnostic -/

/-- The phrase kinds of the grammar.  `tail chains` is what follows the name
of a command up to the end of its statement: `Expr*` when `chains` is false,
`Expr* ('->' Name Expr*)*` when it is true. -/
inductive Cat where
  | dots | ref | lits | array | pairs | object | operand | yieldS
  | tail (chains : Bool) | expr | stmtBody | stmts | block | case | cases | matchS | program

/-- The grammar of the spec, restricted to what the parser reads without a
diagnostic:

```
Program   := (Stmt ';')* Stmt?
Stmt      := VarDecl | MatchStmt | YieldStmt | CommandOrChain
VarDecl   := Name '=' Expr
CommandOrChain := Command ('->' Command)*
Command   := Name Expr*
Expr      := Command | MatchStmt | Operand
Operand   := Literal | Reference | Object | Array
Reference := 'ref' Name ('.' Name)*
Object    := '{' (Name ':' Operand (',' Name ':' Operand)*)? '}'
Array     := '[' (Literal (',' Literal)*)? ']'
Block     := '{' (Stmt ';')* '}'
YieldStmt := 'yield' Operand
MatchStmt := 'match' (Literal | Reference) '{' Case (',' Case)* '}'
Case      := (Literal | '_') '->' (Block | YieldStmt)
```

Since an `Expr` may itself be a `Command`, the tokens after the name of a
command are a sequence of names, match statements and operands (and, in a
chain, of `'->' Name`): that sequence is the phrase `tail`.  A reference is
not directly followed by an argument that starts with `[`. -/
inductive Strict : Cat → List Item → Prop where
  | dotsNil : Strict Cat.dots []
  | dotsCons (d n : Item) (ts : List Item) : d.tok = Token.Dot → n.tok = Token.Name →
      Strict Cat.dots ts → Strict Cat.dots (d :: n :: ts)
  | ref (r n : Item) (ts : List Item) : r.tok = Token.Ref → n.tok = Token.Name →
      Strict Cat.dots ts → Strict Cat.ref (r :: n :: ts)
  | litsOne (l : Item) : l.tok = Token.Literal → Strict Cat.lits [l]
  | litsCons (l c : Item) (ts : List Item) : l.tok = Token.Literal → c.tok = Token.Comma →
      Strict Cat.lits ts → Strict Cat.lits (l :: c :: ts)
  | arrayEmpty (lb rb : Item) : lb.tok = Token.Lbrack → rb.tok = Token.Rbrack →
      Strict Cat.array [lb, rb]
  | array (lb rb : Item) (ts : List Item) : lb.tok = Token.Lbrack → rb.tok = Token.Rbrack →
      Strict Cat.lits ts → Strict Cat.array (lb :: (ts ++ [rb]))
  | pairsOne (k c : Item) (x : List Item) : k.tok = Token.Name → c.tok = Token.Colon →
      Strict Cat.operand x → Strict Cat.pairs (k :: c :: x)
  | pairsCons (k c cm : Item) (x ts : List Item) : k.tok = Token.Name → c.tok = Token.Colon →
      Strict Cat.operand x → cm.tok = Token.Comma → Strict Cat.pairs ts →
      Strict Cat.pairs (k :: c :: (x ++ cm :: ts))
  | objectEmpty (lb rb : Item) : lb.tok = Token.Lbrace → rb.tok = Token.Rbrace →
      Strict Cat.object [lb, rb]
  | object (lb rb : Item) (ts : List Item) : lb.tok = Token.Lbrace → rb.tok = Token.Rbrace →
      Strict Cat.pairs ts → Strict Cat.object (lb :: (ts ++ [rb]))
  | opLit (l : Item) : l.tok = Token.Literal → Strict Cat.operand [l]
  | opRef (ts : List Item) : Strict Cat.ref ts → Strict Cat.operand ts
  | opObj (ts : List Item) : Strict Cat.object ts → Strict Cat.operand ts
  | opArr (ts : List Item) : Strict Cat.array ts → Strict Cat.operand ts
  | yieldS (y : Item) (x : List Item) : y.tok = Token.Yield → Strict Cat.operand x →
      Strict Cat.yieldS (y :: x)
  | tailNil (b : Bool) : Strict (Cat.tail b) []
  | tailName (b : Bool) (i : Item) (ts : List Item) : i.tok = Token.Name →
      Strict (Cat.tail b) ts → Strict (Cat.tail b) (i :: ts)
  | tailArrow (a i : Item) (ts : List Item) : a.tok = Token.Arrow → i.tok = Token.Name →
      Strict (Cat.tail true) ts → Strict (Cat.tail true) (a :: i :: ts)
  | tailMatch (b : Bool) (m ts : List Item) : Strict Cat.matchS m →
      Strict (Cat.tail b) ts → Strict (Cat.tail b) (m ++ ts)
  | tailOperand (b : Bool) (x ts : List Item) : Strict Cat.operand x →
      (tokOf x = Token.Ref → tokOf ts ≠ Token.Lbrack) →
      Strict (Cat.tail b) ts → Strict (Cat.tail b) (x ++ ts)
  | exprCmd (n : Item) (ts : List Item) : n.tok = Token.Name → Strict (Cat.tail false) ts →
      Strict Cat.expr (n :: ts)
  | exprMatch (ts : List Item) : Strict Cat.matchS ts → Strict Cat.expr ts
  | exprOperand (ts : List Item) : Strict Cat.operand ts → Strict Cat.expr ts
  | stmtVar (n e : Item) (x : List Item) : n.tok = Token.Name → e.tok = Token.Assign →
      Strict Cat.expr x → Strict Cat.stmtBody (n :: e :: x)
  | stmtCmd (n : Item) (ts : List Item) : n.tok = Token.Name → Strict (Cat.tail true) ts →
      Strict Cat.stmtBody (n :: ts)
  | stmtMatch (ts : List Item) : Strict Cat.matchS ts → Strict Cat.stmtBody ts
  | stmtYield (ts : List Item) : Strict Cat.yieldS ts → Strict Cat.stmtBody ts
  | stmtsNil : Strict Cat.stmts []
  | stmtsCons (sm : Item) (x ts : List Item) : Strict Cat.stmtBody x → sm.tok = Token.Semi →
      Strict Cat.stmts ts → Strict Cat.stmts (x ++ sm :: ts)
  | block (lb rb : Item) (ts : List Item) : lb.tok = Token.Lbrace → rb.tok = Token.Rbrace →
      Strict Cat.stmts ts → Strict Cat.block (lb :: (ts ++ [rb]))
  | caseBlock (l a : Item) (b : List Item) :
      (l.tok = Token.Literal ∨ (l.tok = Token.Name ∧ l.lit = "_")) → a.tok = Token.Arrow →
      Strict Cat.block b → Strict Cat.case (l :: a :: b)
  | caseYield (l a : Item) (y : List Item) :
      (l.tok = Token.Literal ∨ (l.tok = Token.Name ∧ l.lit = "_")) → a.tok = Token.Arrow →
      Strict Cat.yieldS y → Strict Cat.case (l :: a :: y)
  | casesOne (x : List Item) : Strict Cat.case x → Strict Cat.cases x
  | casesCons (cm : Item) (x ts : List Item) : Strict Cat.case x → cm.tok = Token.Comma →
      Strict Cat.cases ts → Strict Cat.cases (x ++ cm :: ts)
  | matchLit (m l lb rb : Item) (cs : List Item) : m.tok = Token.Match →
      l.tok = Token.Literal → lb.tok = Token.Lbrace → rb.tok = Token.Rbrace →
      Strict Cat.cases cs → Strict Cat.matchS (m :: l :: lb :: (cs ++ [rb]))
  | matchRef (m lb rb : Item) (r cs : List Item) : m.tok = Token.Match →
      Strict Cat.ref r → lb.tok = Token.Lbrace → rb.tok = Token.Rbrace →
      Strict Cat.cases cs → Strict Cat.matchS (m :: (r ++ lb :: (cs ++ [rb])))
  | progNil : Strict Cat.program []
  | progLast (x : List Item) : Strict Cat.stmtBody x → Strict Cat.program x
  | progCons (sm : Item) (x ts : List Item) : Strict Cat.stmtBody x → sm.tok = Token.Semi →
      Strict Cat.program ts → Strict Cat.program (x ++ sm :: ts)

/-- The token `i` ends a statement. -/
def Term (i : Item) : Prop := i.tok = Token.Semi ∨ i.tok = Token.EOF

/-- The token `i` does not continue a reference. -/
def NoAcc (i : Item) : Prop := i.tok ≠ Token.Dot ∧ i.tok ≠ Token.Lbrack

/-- The loop of `chain` reads `j ys` up to the terminator `i` without a
diagnostic. -/
def ChainC (j : Item) (ys : List Item) (i : Item) : Prop :=
  ∀ acc, ∃ acc', ∀ R c s,
    Ret (fun k => parser.chainLoop k acc ⟨j :: (ys ++ i :: R), c, s⟩) (acc', ⟨i :: R, c, s⟩)

/-- The loop of `command` reads `ts` without a diagnostic: either up to the
terminator `i`, or up to a chain operator from which the loop of `chain`
reads on up to `i`. -/
def TailC (ts : List Item) (i : Item) : Prop :=
  ∀ acc, ∃ acc',
    (∀ R c s, Ret (fun k => parser.commandLoop k acc ⟨ts ++ i :: R, c, s⟩)
      (acc', ⟨i :: R, c, s⟩)) ∨
    (∃ a j ys, a.tok = Token.Arrow ∧ j.tok = Token.Name ∧ ChainC j ys i ∧
      ∀ R c s, Ret (fun k => parser.commandLoop k acc ⟨ts ++ i :: R, c, s⟩)
        (acc', ⟨a :: j :: (ys ++ i :: R), c, s⟩))

/-- The tokens `ts` are empty or start an argument, a command or a chain
link. -/
def StartOK (ts : List Item) : Prop :=
  ts = [] ∨ tokOf ts = Token.Name ∨ tokOf ts = Token.Arrow ∨ tokOf ts = Token.Match ∨
    tokOf ts = Token.Literal ∨ tokOf ts = Token.Ref ∨ tokOf ts = Token.Lbrace ∨
    tokOf ts = Token.Lbrack

/-- What the parser does on a phrase of each kind: the function for that
kind reads exactly the phrase, reports nothing, and returns a node. -/
def Contract : Cat → List Item → Prop
  | Cat.dots, ts => (ts = [] ∨ tokOf ts = Token.Dot) ∧ ∀ left, ∃ n, ∀ i R c s, NoAcc i →
      Ret (fun k => parser.refLoop k left ⟨ts ++ i :: R, c, s⟩) (n, ⟨i :: R, c, s⟩)
  | Cat.ref, ts => tokOf ts = Token.Ref ∧ ∃ n, ∀ i R c s, NoAcc i →
      Ret (fun k => parser.ref k ⟨ts ++ i :: R, c, s⟩) (n, ⟨i :: R, c, s⟩)
  | Cat.lits, ts => tokOf ts = Token.Literal ∧ ∀ acc, ∃ acc', ∀ rb R c s,
      rb.tok = Token.Rbrack →
      Ret (fun k => parser.list Token.Comma Token.Rbrack parser.arrItem k acc
        ⟨ts ++ rb :: R, c, s⟩) (acc', ⟨R, c, s⟩)
  | Cat.array, ts => tokOf ts = Token.Lbrack ∧ ∃ n, ∀ R c s,
      Ret (fun k => parser.arr k ⟨ts ++ R, c, s⟩) (n, ⟨R, c, s⟩)
  | Cat.pairs, ts => tokOf ts = Token.Name ∧ ∀ acc rb, rb.tok = Token.Rbrace →
      ∃ acc', ∀ R c s,
      Ret (fun k => parser.list Token.Comma Token.Rbrace (fun a q => parser.objItem k a q) k acc
        ⟨ts ++ rb :: R, c, s⟩) (acc', ⟨R, c, s⟩)
  | Cat.object, ts => tokOf ts = Token.Lbrace ∧ ∃ n, ∀ R c s,
      Ret (fun k => parser.obj k ⟨ts ++ R, c, s⟩) (n, ⟨R, c, s⟩)
  | Cat.operand, ts =>
      (tokOf ts = Token.Literal ∨ tokOf ts = Token.Ref ∨ tokOf ts = Token.Lbrace ∨
        tokOf ts = Token.Lbrack) ∧
      ∃ n, ∀ i R c s, (tokOf ts = Token.Ref → NoAcc i) →
        Ret (fun k => parser.operand k ⟨ts ++ i :: R, c, s⟩) (n, ⟨i :: R, c, s⟩)
  | Cat.yieldS, ts => tokOf ts = Token.Yield ∧ ∃ n, ∀ i R c s, NoAcc i →
      Ret (fun k => parser.yield k ⟨ts ++ i :: R, c, s⟩) (n, ⟨i :: R, c, s⟩)
  | Cat.tail _, ts => StartOK ts ∧ ∀ i, Term i → TailC ts i
  | Cat.expr, ts =>
      (tokOf ts = Token.Name ∨ tokOf ts = Token.Match ∨ tokOf ts = Token.Literal ∨
        tokOf ts = Token.Ref ∨ tokOf ts = Token.Lbrace ∨ tokOf ts = Token.Lbrack) ∧
      ∀ i, Term i → ∃ n, ∀ R c s,
        Ret (fun k => parser.expr k ⟨ts ++ i :: R, c, s⟩) (n, ⟨i :: R, c, s⟩)
  | Cat.stmtBody, ts =>
      (tokOf ts = Token.Name ∨ tokOf ts = Token.Match ∨ tokOf ts = Token.Yield) ∧
      ∀ i, Term i → ∃ n, ∀ R c s,
        Ret (fun k => parser.stmtBody k ⟨ts ++ i :: R, c, s⟩) (n, ⟨i :: R, c, s⟩)
  | Cat.stmts, ts => ∀ acc, ∃ acc', ∀ rb R c s, rb.tok = Token.Rbrace →
      Ret (fun k => parser.blockLoop k acc ⟨ts ++ rb :: R, c, s⟩) (acc', ⟨rb :: R, c, s⟩)
  | Cat.block, ts => tokOf ts = Token.Lbrace ∧ ∃ n, ∀ R c s,
      Ret (fun k => parser.blockstmt k ⟨ts ++ R, c, s⟩) (n, ⟨R, c, s⟩)
  | Cat.case, ts => ∀ cm : Item, cm.tok = Token.Comma →
      ∃ x : CaseSrc, x.toks = ts ∧ x.comma = cm ∧ x.WF
  | Cat.cases, ts => ∃ cs : List CaseSrc, cs ≠ [] ∧ ts = casesToks cs ∧ ∀ x ∈ cs, x.WF
  | Cat.matchS, ts => tokOf ts = Token.Match ∧ ∃ n, ∀ R c s,
      Ret (fun k => parser.matchstmt k ⟨ts ++ R, c, s⟩) (n, ⟨R, c, s⟩)
  | Cat.program, ts => ∀ acc (e : Item), e.tok = Token.EOF → ∃ acc', ∀ R c s,
      Ret (fun k => parser.parseLoop k acc ⟨ts ++ e :: R, c, s⟩) (acc', ⟨e :: R, c, s⟩)

/-! ## The grammar of the streams the parser reads without a diagnostic -/

/-- The phrase kinds of the grammar `Lenient`. -/
inductive LCat where
  | accs | ref | lits | array | pair | pairs | object | operand | yieldS | args | rest
  | expr | stmtBody | stmts | block | case | cases | matchS | program

/-- The grammar the parser enforces: a stream outside it gets a diagnostic.

```
Program   := (Stmt ';')* Stmt?
Stmt      := VarDecl | MatchStmt | YieldStmt | Chain
VarDecl   := Name '=' Expr
Chain     := Command ('->' Rest)?
Rest      := (Command ('->' Rest)?)?
Command   := Name Expr*
Expr      := Chain | MatchStmt | Operand
Operand   := Literal | Reference | Object | Array
Reference := 'ref' Name? ('.' Name | '[' Literal | '[' Reference)*
Object    := '{' (Pair ',')* Pair? '}'
Pair      := Name ':' Operand
Array     := '[' (Literal ',')* Literal? ']'
Block     := '{' (Stmt ';')* '}'
YieldStmt := 'yield' Operand
MatchStmt := 'match' (Literal | Reference) '{' (Case ',')* Case? '}'
Case      := (Literal | '_') '->' (Block | YieldStmt)
```
-/
inductive Lenient : LCat → List Item → Prop where
  | accsNil : Lenient LCat.accs []
  | accsDot (d n : Item) (ts : List Item) : d.tok = Token.Dot → n.tok = Token.Name →
      Lenient LCat.accs ts → Lenient LCat.accs (d :: n :: ts)
  | accsLit (b l : Item) (ts : List Item) : b.tok = Token.Lbrack → l.tok = Token.Literal →
      Lenient LCat.accs ts → Lenient LCat.accs (b :: l :: ts)
  | accsRef (b : Item) (r ts : List Item) : b.tok = Token.Lbrack → Lenient LCat.ref r →
      Lenient LCat.accs ts → Lenient LCat.accs (b :: (r ++ ts))
  | refName (r n : Item) (ts : List Item) : r.tok = Token.Ref → n.tok = Token.Name →
      Lenient LCat.accs ts → Lenient LCat.ref (r :: n :: ts)
  | refBare (r : Item) (ts : List Item) : r.tok = Token.Ref → Lenient LCat.accs ts →
      Lenient LCat.ref (r :: ts)
  | litsNil : Lenient LCat.lits []
  | litsOne (l : Item) : l.tok = Token.Literal → Lenient LCat.lits [l]
  | litsCons (l c : Item) (ts : List Item) : l.tok = Token.Literal → c.tok = Token.Comma →
      Lenient LCat.lits ts → Lenient LCat.lits (l :: c :: ts)
  | array (lb rb : Item) (ts : List Item) : lb.tok = Token.Lbrack → rb.tok = Token.Rbrack →
      Lenient LCat.lits ts → Lenient LCat.array (lb :: (ts ++ [rb]))
  | pair (k c : Item) (x : List Item) : k.tok = Token.Name → c.tok = Token.Colon →
      Lenient LCat.operand x → Lenient LCat.pair (k :: c :: x)
  | pairsNil : Lenient LCat.pairs []
  | pairsOne (x : List Item) : Lenient LCat.pair x → Lenient LCat.pairs x
  | pairsCons (x : List Item) (cm : Item) (ts : List Item) : Lenient LCat.pair x →
      cm.tok = Token.Comma → Lenient LCat.pairs ts → Lenient LCat.pairs (x ++ cm :: ts)
  | object (lb rb : Item) (ts : List Item) : lb.tok = Token.Lbrace → rb.tok = Token.Rbrace →
      Lenient LCat.pairs ts → Lenient LCat.object (lb :: (ts ++ [rb]))
  | opLit (l : Item) : l.tok = Token.Literal → Lenient LCat.operand [l]
  | opRef (ts : List Item) : Lenient LCat.ref ts → Lenient LCat.operand ts
  | opObj (ts : List Item) : Lenient LCat.object ts → Lenient LCat.operand ts
  | opArr (ts : List Item) : Lenient LCat.array ts → Lenient LCat.operand ts
  | yieldS (y : Item) (x : List Item) : y.tok = Token.Yield → Lenient LCat.operand x →
      Lenient LCat.yieldS (y :: x)
  | argsNil : Lenient LCat.args []
  | argsCons (x ts : List Item) : Lenient LCat.expr x → Lenient LCat.args ts →
      Lenient LCat.args (x ++ ts)
  | restNil : Lenient LCat.rest []
  | restOne (n : Item) (a : List Item) : n.tok = Token.Name → Lenient LCat.args a →
      Lenient LCat.rest (n :: a)
  | restCons (n : Item) (a : List Item) (ar : Item) (ts : List Item) : n.tok = Token.Name →
      Lenient LCat.args a → ar.tok = Token.Arrow → Lenient LCat.rest ts →
      Lenient LCat.rest (n :: (a ++ ar :: ts))
  | exprCmd (n : Item) (a : List Item) : n.tok = Token.Name → Lenient LCat.args a →
      Lenient LCat.expr (n :: a)
  | exprChain (n : Item) (a : List Item) (ar : Item) (r : List Item) : n.tok = Token.Name →
      Lenient LCat.args a → ar.tok = Token.Arrow → Lenient LCat.rest r →
      Lenient LCat.expr (n :: (a ++ ar :: r))
  | exprMatch (ts : List Item) : Lenient LCat.matchS ts → Lenient LCat.expr ts
  | exprOperand (ts : List Item) : Lenient LCat.operand ts → Lenient LCat.expr ts
  | stmtVar (n e : Item) (x : List Item) : n.tok = Token.Name → e.tok = Token.Assign →
      Lenient LCat.expr x → Lenient LCat.stmtBody (n :: e :: x)
  | stmtCmd (n : Item) (a : List Item) : n.tok = Token.Name → Lenient LCat.args a →
      Lenient LCat.stmtBody (n :: a)
  | stmtChain (n : Item) (a : List Item) (ar : Item) (r : List Item) : n.tok = Token.Name →
      Lenient LCat.args a → ar.tok = Token.Arrow → Lenient LCat.rest r →
      Lenient LCat.stmtBody (n :: (a ++ ar :: r))
  | stmtMatch (ts : List Item) : Lenient LCat.matchS ts → Lenient LCat.stmtBody ts
  | stmtYield (ts : List Item) : Lenient LCat.yieldS ts → Lenient LCat.stmtBody ts
  | stmtsNil : Lenient LCat.stmts []
  | stmtsCons (x : List Item) (sm : Item) (ts : List Item) : Lenient LCat.stmtBody x →
      sm.tok = Token.Semi → Lenient LCat.stmts ts → Lenient LCat.stmts (x ++ sm :: ts)
  | block (lb rb : Item) (ts : List Item) : lb.tok = Token.Lbrace → rb.tok = Token.Rbrace →
      Lenient LCat.stmts ts → Lenient LCat.block (lb :: (ts ++ [rb]))
  | caseBlock (l a : Item) (b : List Item) :
      (l.tok = Token.Literal ∨ (l.tok = Token.Name ∧ l.lit = "_")) → a.tok = Token.Arrow →
      Lenient LCat.block b → Lenient LCat.case (l :: a :: b)
  | caseYield (l a : Item) (y : List Item) :
      (l.tok = Token.Literal ∨ (l.tok = Token.Name ∧ l.lit = "_")) → a.tok = Token.Arrow →
      Lenient LCat.yieldS y → Lenient LCat.case (l :: a :: y)
  | casesNil : Lenient LCat.cases []
  | casesOne (x : List Item) : Lenient LCat.case x → Lenient LCat.cases x
  | casesCons (x : List Item) (cm : Item) (ts : List Item) : Lenient LCat.case x →
      cm.tok = Token.Comma → Lenient LCat.cases ts → Lenient LCat.cases (x ++ cm :: ts)
  | matchLit (m l lb rb : Item) (cs : List Item) : m.tok = Token.Match →
      l.tok = Token.Literal → lb.tok = Token.Lbrace → rb.tok = Token.Rbrace →
      Lenient LCat.cases cs → Lenient LCat.matchS (m :: l :: lb :: (cs ++ [rb]))
  | matchRef (m lb rb : Item) (r cs : List Item) : m.tok = Token.Match →
      Lenient LCat.ref r → lb.tok = Token.Lbrace → rb.tok = Token.Rbrace →
      Lenient LCat.cases cs → Lenient LCat.matchS (m :: (r ++ lb :: (cs ++ [rb])))
  | progNil : Lenient LCat.program []
  | progLast (x : List Item) : Lenient LCat.stmtBody x → Lenient LCat.program x
  | progCons (x : List Item) (sm : Item) (ts : List Item) : Lenient LCat.stmtBody x →
      sm.tok = Token.Semi → Lenient LCat.program ts → Lenient LCat.program (x ++ sm :: ts)

/-- The one token `x` is of kind `t`. -/
def TokIs (t : Token) (x : List Item) : Prop := ∃ i, x = [i] ∧ i.tok = t

/-- A phrase of `A` followed by a phrase of `B`. -/
def Seq (A B : List Item → Prop) (z : List Item) : Prop := ∃ x y, z = x ++ y ∧ A x ∧ B y

/-- Phrases of `A` separated by `sep`, the last one followed by `sep` or not. -/
inductive SepList (A : List Item → Prop) (sep : Token) : List Item → Prop where
  | nil : SepList A sep []
  | one (x : List Item) : A x → SepList A sep x
  | cons (x : List Item) (s : Item) (ts : List Item) : A x → s.tok = sep →
      SepList A sep ts → SepList A sep (x ++ s :: ts)

/-- From state `p` to state `q` the error count does not go down, and if it
stays the same then the tokens consumed in between are a phrase of `A`. -/
def Rd (A : List Item → Prop) (p q : parser) : Prop :=
  p.errc ≤ q.errc ∧ (q.errc = p.errc → ∃ pre, p.toks = pre ++ q.toks ∧ A pre)

/-- What `stmt` has read when it reports nothing: a statement and its `;`, or
a statement that ends at end-of-input. -/
def StmtRead (q : parser) (x : List Item) : Prop :=
  (∃ b sm, x = b ++ [sm] ∧ sm.tok = Token.Semi ∧ Lenient LCat.stmtBody b) ∨
  (q.tok = Token.EOF ∧ Lenient LCat.stmtBody x)

/-- What `casestmt` has read after the label when it reports nothing. -/
def CaseRight (x : List Item) : Prop :=
  ∃ a b, x = a :: b ∧ a.tok = Token.Arrow ∧ (Lenient LCat.block b ∨ Lenient LCat.yieldS b)

/-- What `vardecl` has read when it reports nothing. -/
def VarRight (x : List Item) : Prop :=
  ∃ e y, x = e :: y ∧ e.tok = Token.Assign ∧ Lenient LCat.expr y

/-- At fuel `n`, each parser function that returns without a new diagnostic
has consumed a phrase of its kind. -/
structure SoundAt (n : Nat) : Prop where
  objItem : ∀ a p a' q, parser.objItem n a p = some (a', q) → Rd (Lenient LCat.pair) p q
  obj : ∀ p r q, parser.obj n p = some (r, q) → Rd (Lenient LCat.object) p q
  blockstmt : ∀ p r q, parser.blockstmt n p = some (r, q) → Rd (Lenient LCat.block) p q
  blockLoop : ∀ a p a' q, parser.blockLoop n a p = some (a', q) →
    Rd (fun x => q.tok ≠ Token.EOF → Lenient LCat.stmts x) p q
  yield : ∀ p r q, parser.yield n p = some (r, q) → p.tok = Token.Yield →
    Rd (Lenient LCat.yieldS) p q
  casestmtRight : ∀ l a p a' q, parser.casestmtRight n l a p = some (a', q) → Rd CaseRight p q
  casestmt : ∀ a p a' q, parser.casestmt n a p = some (a', q) → Rd (Lenient LCat.case) p q
  matchstmt : ∀ p r q, parser.matchstmt n p = some (r, q) → p.tok = Token.Match →
    Rd (Lenient LCat.matchS) p q
  matchLoop : ∀ a p a' q, parser.matchLoop n a p = some (a', q) →
    q.tok = Token.Rbrace ∧ Rd (Lenient LCat.cases) p q
  chain : ∀ c p r q, parser.chain n c p = some (r, q) → Rd (Lenient LCat.rest) p q
  chainLoop : ∀ a p a' q, parser.chainLoop n a p = some (a', q) → Rd (Lenient LCat.rest) p q
  operand : ∀ p r q, parser.operand n p = some (r, q) → Rd (Lenient LCat.operand) p q
  expr : ∀ p r q, parser.expr n p = some (r, q) → Rd (Lenient LCat.expr) p q
  command : ∀ name p r q, parser.command n name p = some (r, q) → Rd (Lenient LCat.args) p q
  commandLoop : ∀ a p a' q, parser.commandLoop n a p = some (a', q) →
    Rd (Lenient LCat.args) p q
  vardecl : ∀ i p r q, parser.vardecl n i p = some (r, q) → p.tok = Token.Assign →
    Rd VarRight p q
  stmtBody : ∀ p r q, parser.stmtBody n p = some (r, q) → Rd (Lenient LCat.stmtBody) p q
  stmt : ∀ p r q, parser.stmt n p = some (r, q) → Rd (StmtRead q) p q
/-! ## Termination on streams without a match statement -/

/-- No token of `ts` is the keyword `match`. -/
def MatchFree (ts : List Item) : Prop := ∀ x ∈ ts, x.tok ≠ Token.Match

/-- The tokens left in state `q` are a suffix of those left in state `p`. -/
def Adv (q p : parser) : Prop := List.IsSuffix q.toks p.toks

/-- Run from state `p` with enough fuel, `f` returns, in a state further on in
the stream: strictly further on if `strict` holds. -/
def Halts {β : Type} (p : parser) (f : Nat → Option (β × parser)) (strict : Prop) : Prop :=
  ∃ r, Ret f r ∧ Adv r.2 p ∧ (strict → r.2.toks.length < p.toks.length)

/-- From state `p`, every function of the parser that a stream without `match`
reaches returns. -/
structure TermAt (p : parser) : Prop where
  ref : Halts p (fun k => parser.ref k p) (p.tok = Token.Ref)
  refLoop : ∀ l, Halts p (fun k => parser.refLoop k l p) False
  arr : p.tok = Token.Lbrack → Halts p (fun k => parser.arr k p) True
  objItem : ∀ a, Halts p (fun k => parser.objItem k a p) (p.tok ≠ Token.EOF)
  obj : p.tok = Token.Lbrace → Halts p (fun k => parser.obj k p) True
  operand : Halts p (fun k => parser.operand k p) (p.tok ≠ Token.EOF)
  yield : p.tok = Token.Yield → Halts p (fun k => parser.yield k p) True
  expr : Halts p (fun k => parser.expr k p) (p.tok ≠ Token.EOF)
  commandLoop : ∀ a, Halts p (fun k => parser.commandLoop k a p) False
  command : ∀ name, Halts p (fun k => parser.command k name p) False
  chainLoop : ∀ a, Halts p (fun k => parser.chainLoop k a p) False
  chain : ∀ c, Halts p (fun k => parser.chain k c p) False
  vardecl : ∀ i, p.tok = Token.Assign → Halts p (fun k => parser.vardecl k i p) True
  stmtBody : Halts p (fun k => parser.stmtBody k p) (p.tok ≠ Token.EOF)
  stmt : Halts p (fun k => parser.stmt k p) (p.tok ≠ Token.EOF)
  parseLoop : ∀ a, Halts p (fun k => parser.parseLoop k a p) False

/-! ## Comparison, selection and display of values -/

/-- Modelled from the spec: a comparison operator (`syntax.Op`, not at hand).
No function here looks inside it. -/
structure Op where
  code : Nat
  deriving DecidableEq, Repr

/-- Modelled from the spec: the type tags of the value model (the constants
`zeroType` .. `responseType` of type `valueType`, not at hand), one for each
variant. -/
inductive valueType where
  | zeroType | boolType | intType | floatType | stringType
  | arrayType | objectType | streamType | responseType
  deriving DecidableEq, Repr

/-- Modelled from the spec: the text of a type tag (`valueType.String`, not at
hand), one of zero, bool, int, float, string, array, object, stream,
response. -/
def valueType.String : valueType → String
  | valueType.zeroType => "zero"
  | valueType.boolType => "bool"
  | valueType.intType => "int"
  | valueType.floatType => "float"
  | valueType.stringType => "string"
  | valueType.arrayType => "array"
  | valueType.objectType => "object"
  | valueType.streamType => "stream"
  | valueType.responseType => "response"

/-- The method `valueType` of the interface `Value`: `Zero` returns `zeroType`,
`Response` returns `responseType`; for the other variants, whose sources are
not at hand, the tag is the one the spec gives each variant. -/
def Value.valueType : Req.Value → Req.valueType
  | Req.Value.Zero => Req.valueType.zeroType
  | Req.Value.Bool _ => Req.valueType.boolType
  | Req.Value.Int _ => Req.valueType.intType
  | Req.Value.Float _ => Req.valueType.floatType
  | Req.Value.String _ => Req.valueType.stringType
  | Req.Value.Array _ _ => Req.valueType.arrayType
  | Req.Value.Object _ _ => Req.valueType.objectType
  | Req.Value.Stream _ => Req.valueType.streamType
  | Req.Value.Response _ => Req.valueType.responseType

/-- What a call that returns `(Value, error)` ends in: a value with a nil
error, an error with no value, or an abort of the program (a Go panic). -/
inductive Outcome (α : Type) where
  | value (v : α)
  | error (msg : String)
  | abort

/-- The method `Response.cmp`.  `opError` (not at hand) builds the error for
an operator and a type tag. -/
def Response.cmp (opError : Op → valueType → String) (_r : Option HttpResponse) (op : Op)
    (_b : Value) : Outcome Value :=
  Outcome.error (opError op valueType.responseType)

mutual

/-- The method `Zero.cmp`: `return b.cmp(op, z)`.  `cmpRest a op b` stands for
`a.cmp(op, b)` on the variants whose sources are not at hand. -/
def Zero.cmp (opError : Op → valueType → String) (cmpRest : Value → Op → Value → Outcome Value) :
    Nat → Op → Value → Option (Outcome Value)
  | 0, _, _ => none
  | fuel + 1, op, b => Value.cmp opError cmpRest fuel b op Value.Zero

/-- The call `a.cmp(op, b)` through the interface `Value`: it runs the method
of the variant `a` is. -/
def Value.cmp (opError : Op → valueType → String) (cmpRest : Value → Op → Value → Outcome Value) :
    Nat → Value → Op → Value → Option (Outcome Value)
  | 0, _, _, _ => none
  | fuel + 1, a, op, b =>
    match a with
    | Value.Zero => Zero.cmp opError cmpRest fuel op b
    | Value.Response r => some (Response.cmp opError r op b)
    | a => some (cmpRest a op b)

end

/-- The bytes of a string (`[]byte(s)`). -/
def bytesOf (s : String) : List Nat :=
  (s.data.flatMap String.utf8EncodeChar).map UInt8.toNat

/-- The bytes `io.ReadAll` returns for a reader: those from its position on. -/
def readAll (rd : Reader) : List Nat := rd.data.drop rd.pos

/-- Modelled from the spec: `copyrc` (not at hand) duplicates a body reader:
it takes what is left to read in it and returns two fresh readers, each
positioned at the start of those bytes. -/
def copyrc (rd : Reader) : Reader × Reader := (⟨readAll rd, 0⟩, ⟨readAll rd, 0⟩)

/-- The loop `for k, v := range r.Header` of `Response.Select`; `order` and
`pairs` are the slice and the map it fills.  `none` is the abort of `v[0]` on
an empty list. -/
def Response.headerLoop : List (String × List String) → List String → List (String × Value) →
    Option (List String × List (String × Value))
  | [], order, pairs => some (order, pairs)
  | (_, []) :: _, _, _ => none
  | (k, v0 :: _) :: h, order, pairs =>
    Response.headerLoop h (order ++ [k]) (mapSet pairs k (Value.String v0))

/-- The method `Response.Select`.  The receiver holds the pointer `r` to its
handle, `none` when nil; the result is what the call returns together with
the pointer afterwards (the `Body` case writes through it).  `ToName` (not at
hand) gives the name a key stands for, or an error.  A field read through a
nil pointer aborts.  The stream `NewStream(BufferStream(bytes.NewReader(b)))`
is the `Stream` over the bytes `b`. -/
def Response.Select (ToName : Value → Except String String) (r : Option HttpResponse)
    (val : Value) : Outcome Value × Option HttpResponse :=
  match ToName val with
  | Except.error err => (Outcome.error err, r)
  | Except.ok name =>
    if name = "Status" then
      match r with
      | none => (Outcome.abort, r)
      | some h => (Outcome.value (Value.String h.Status), r)
    else if name = "StatusCode" then
      match r with
      | none => (Outcome.abort, r)
      | some h => (Outcome.value (Value.Int h.StatusCode), r)
    else if name = "Header" then
      match r with
      | none => (Outcome.abort, r)
      | some h =>
        match Response.headerLoop h.Header [] [] with
        | none => (Outcome.abort, r)
        | some (order, pairs) => (Outcome.value (Value.Object order pairs), r)
    else if name = "Body" then
      match r with
      | none => (Outcome.abort, r)
      | some h =>
        match h.Body with
        | none => (Outcome.value (Value.Stream []), r)
        | some body =>
          (Outcome.value (Value.Stream (readAll (copyrc body).2)),
            some { h with Body := some (copyrc body).1 })
    else
      (Outcome.error ("type " ++ val.valueType.String ++ " has no field " ++ name), r)

/-- The method `Response.Sprint`: the bytes of the string it returns, and the
pointer to the handle afterwards.  `headerWrite` gives the bytes
`r.Header.Write(buf)` (of `net/http`) adds to the buffer. -/
def Response.Sprint (headerWrite : List (String × List String) → List Nat)
    (r : Option HttpResponse) : List Nat × Option HttpResponse :=
  match r with
  | none => ([], r)
  | some h =>
    match h.Body with
    | none => (bytesOf (h.Proto ++ " " ++ h.Status ++ "\n") ++ headerWrite h.Header, r)
    | some body =>
      (bytesOf (h.Proto ++ " " ++ h.Status ++ "\n") ++ headerWrite h.Header ++ bytesOf "\n" ++
          readAll (copyrc body).2,
        some { h with Body := some (copyrc body).1 })

/-- The function `ParseFile`.  `file` is what opening the file gives: the
error of `os.Open`, or the token stream the scanner makes of the file.  The
result is the pair `([]Node, error)` it returns (`[]` for nil nodes, `none`
for a nil error) and the parser as it stands at the return. -/
def ParseFile (fuel : Nat) (file : Except String (List Item)) :
    Option ((List Node × Option String) × Option parser) :=
  match file with
  | Except.error err => some (([], some err), none)
  | Except.ok ts =>
    if (parser.init ts).errc > 0 then
      some (([], some ("parser encountered " ++ toString (parser.init ts).errc ++ " error(s)")),
        some (parser.init ts))
    else
      match parser.parse fuel (parser.init ts) with
      | none => none
      | some (nodes, q) => some ((nodes, none), some q)

/-- A `ToName` for the examples: the name a `String` stands for is its text,
and no other value stands for a name. -/
def exToName : Value → Except String String
  | Value.String s => Except.ok s
  | _ => Except.error "not a name"

/-- A handle for the examples: the header `X` has the values `1` and `2`, the
body holds the bytes of `hi`. -/
def exResp : HttpResponse :=
  ⟨"HTTP/1.1", "200 OK", 200, [("X", ["1", "2"])], some ⟨[104, 105], 0⟩⟩

/-- A handle for the examples whose header `X` has an empty list of values. -/
def exRespEmpty : HttpResponse := ⟨"HTTP/1.1", "200 OK", 200, [("X", [])], none⟩

/-- The tokens `l1 , l2 , ... lk ,` of a list of items, each followed by its
separator. -/
def itemsToks : List (Item × Item) → List Item
  | [] => []
  | (l, cm) :: ls => l :: cm :: itemsToks ls

/-- The node `literal` builds from the token `l`. -/
def litNode (l : Item) : Node := Node.Lit l.pos l.typ l.lit

/-! ## Chains of commands as written -/

/-- One command of a chain as written: its name, the tokens of each of its
arguments, and the chain operator after it. -/
structure CmdPhrase where
  name : Item
  args : List (List Item)
  arrow : Item

/-- The tokens of a list of arguments as written. -/
def phraseArgs : List (List Item) → List Item
  | [] => []
  | a :: as => a ++ phraseArgs as

/-- Every argument is an operand or a match statement of the grammar `Strict`
(a reference has no index accessor), and a reference is not followed by an
argument that starts with `[`. -/
def ArgsStrict : List (List Item) → Prop
  | [] => True
  | a :: as => (Strict Cat.operand a ∨ Strict Cat.matchS a) ∧
      (tokOf a = Token.Ref → tokOf (phraseArgs as) ≠ Token.Lbrack) ∧ ArgsStrict as

/-- A well-formed command of a chain: a name, arguments that are operands or
match statements, and a chain operator. -/
def CmdPhrase.WF (x : CmdPhrase) : Prop :=
  x.name.tok = Token.Name ∧ x.arrow.tok = Token.Arrow ∧ ArgsStrict x.args

/-- The tokens of the commands `xs`, chain operators in between, followed by
the tokens `R`. -/
def phraseToks : List CmdPhrase → List Item → List Item
  | [], R => R
  | x :: xs, R => match xs with
    | [] => x.name :: (phraseArgs x.args ++ R)
    | _ :: _ => x.name :: (phraseArgs x.args ++ x.arrow :: phraseToks xs R)

/-- The command `x` as written, without the nodes of its arguments. -/
def CmdSrc.phrase (x : CmdSrc) : CmdPhrase := ⟨x.name, x.args.map Prod.fst, x.arrow⟩

/-- The command `a ref x . y "1"`. -/
def exPhraseA : CmdPhrase :=
  ⟨tName "a", [[tk Token.Ref, tName "x", tk Token.Dot, tName "y"], [tLit "1"]], tk Token.Arrow⟩

/-- The command `b { k : "v" }`. -/
def exPhraseB : CmdPhrase :=
  ⟨tName "b", [[tk Token.Lbrace, tName "k", tk Token.Colon, tLit "v", tk Token.Rbrace]],
    tk Token.Arrow⟩

/-- The command `c [ "2" ] match "m" { "p" -> yield "q" }`. -/
def exPhraseC : CmdPhrase :=
  ⟨tName "c", [[tk Token.Lbrack, tLit "2", tk Token.Rbrack],
    [tk Token.Match, tLit "m", tk Token.Lbrace, tLit "p", tk Token.Arrow, tk Token.Yield,
      tLit "q", tk Token.Rbrace]], tk Token.Arrow⟩

/-! # Theorems -/

/-! ## Basic facts about the scanner and the diagnostics -/

@[simp] theorem errAt_toks (p : parser) (pos : Pos) (m : Msg) : (p.errAt pos m).toks = p.toks := rfl

@[simp] theorem errAt_tok (p : parser) (pos : Pos) (m : Msg) : (p.errAt pos m).tok = p.tok := rfl

@[simp] theorem err_tok (p : parser) (m : Msg) : (p.err m).tok = p.tok := rfl

@[simp] theorem expected_tok (p : parser) (t : Token) : (p.expected t).tok = p.tok := rfl

@[simp] theorem unexpected_tok (p : parser) (t : Token) : (p.unexpected t).tok = p.tok := rfl

@[simp] theorem tok_cons (i : Item) (ts : List Item) (c : Nat) (s : List (Pos × Msg)) :
    (parser.mk (i :: ts) c s).tok = i.tok := rfl

@[simp] theorem tok_nil (c : Nat) (s : List (Pos × Msg)) :
    (parser.mk [] c s).tok = Token.EOF := rfl

@[simp] theorem tk_tok (t : Token) : (tk t).tok = t := rfl

@[simp] theorem tLit_tok (x : String) : (tLit x).tok = Token.Literal := rfl

@[simp] theorem tName_tok (x : String) : (tName x).tok = Token.Name := rfl

theorem next_eof (p : parser) (h : p.tok = Token.EOF) : p.next = p := by
  simp [parser.next, h]

theorem next_cons (i : Item) (ts : List Item) (c : Nat) (s : List (Pos × Msg))
    (h : i.tok ≠ Token.EOF) : (parser.mk (i :: ts) c s).next = parser.mk ts c s := by
  simp [parser.next, h]

/-! ## Fuel -/

theorem ref_mono (n : Nat) :
    (∀ p r, parser.ref n p = some r → parser.ref (n + 1) p = some r) ∧
    (∀ l p r, parser.refLoop n l p = some r → parser.refLoop (n + 1) l p = some r) := by
  induction n with
  | zero => exact ⟨fun p r h => by simp [parser.ref] at h, fun l p r h => by simp [parser.refLoop] at h⟩
  | succ n ih =>
    obtain ⟨ih1, ih2⟩ := ih
    refine ⟨?_, ?_⟩
    · intro p r h
      rw [parser.ref] at h ⊢
      by_cases hc : p.tok ≠ Token.Ref
      · rw [if_pos hc] at h ⊢; exact h
      · rw [if_neg hc] at h ⊢; exact ih2 _ _ _ h
    · intro l p r h
      rw [parser.refLoop] at h ⊢
      split
      · rename_i ht
        simp only [ht] at h
        split
        · rename_i hc; rw [if_pos hc] at h; exact h
        · rename_i hc; rw [if_neg hc] at h; exact ih2 _ _ _ h
      · rename_i ht
        simp only [ht] at h
        split
        · rename_i hc; rw [if_pos hc] at h; exact ih2 _ _ _ h
        · rename_i hc
          rw [if_neg hc] at h
          split
          · rename_i hx; simp only [hx] at h; exact ih2 _ _ _ h
          · rename_i hx
            simp only [hx] at h
            cases hr : parser.ref n p.next with
            | none => simp [hr] at h
            | some x =>
              rw [ih1 _ _ hr]
              rw [hr] at h
              exact ih2 _ _ _ h
          · rename_i hx1 hx2
            split at h
            · exact absurd ‹_› hx1
            · exact absurd ‹_› hx2
            · exact ih2 _ _ _ h
      · rename_i h1 h2
        split at h
        · exact absurd ‹_› h1
        · exact absurd ‹_› h2
        · exact h


theorem list_mono {α : Type} (sep fin : Token) (f g : α → parser → Option (α × parser))
    (hfg : ∀ a p r, f a p = some r → g a p = some r) (n : Nat) :
    ∀ a p r, parser.list sep fin f n a p = some r →
      parser.list sep fin g (n + 1) a p = some r := by
  induction n with
  | zero => intro a p r h; simp [parser.list] at h
  | succ n ih =>
    intro a p r h
    rw [parser.list] at h ⊢
    split
    · rename_i hc
      rw [if_pos hc] at h
      cases hx : f a p with
      | none => simp [hx] at h
      | some x =>
        obtain ⟨b, q⟩ := x
        simp only [hx, hfg _ _ _ hx] at h ⊢
        split
        · rename_i hd; rw [if_pos hd] at h; exact ih _ _ _ h
        · rename_i hd; rw [if_neg hd] at h; exact ih _ _ _ h
    · rename_i hc; rw [if_neg hc] at h; exact h

theorem arr_mono (n : Nat) (p : parser) (r : Node × parser) (h : parser.arr n p = some r) :
    parser.arr (n + 1) p = some r := by
  unfold parser.arr at h ⊢
  cases hx : parser.list Token.Comma Token.Rbrack parser.arrItem n [] (p.want Token.Lbrack) with
  | none => simp [hx] at h
  | some x =>
    rw [list_mono _ _ _ _ (fun _ _ _ h => h) n _ _ _ hx]
    rw [hx] at h
    exact h

theorem monoAt_zero : MonoAt 0 := by
  constructor <;> intros <;> simp_all [parser.objItem, parser.obj, parser.blockstmt, parser.blockLoop,
    parser.yield, parser.casestmtRight, parser.casestmt, parser.matchstmt, parser.matchLoop,
    parser.chain, parser.chainLoop, parser.operand, parser.expr, parser.command,
    parser.commandLoop, parser.vardecl, parser.stmtBody, parser.stmt]

theorem monoAt_succ (n : Nat) (ih : MonoAt n) : MonoAt (n + 1) := by
  constructor
  · -- objItem
    intro a p r h
    rw [parser.objItem] at h ⊢
    split
    · rename_i hc; rw [if_pos hc] at h; exact h
    · rename_i hc
      rw [if_neg hc] at h
      cases hx : parser.operand n (p.ident.2.want Token.Colon) with
      | none => simp [hx] at h
      | some x => simp only [hx, ih.operand _ _ hx] at h ⊢; exact h
  · -- obj
    intro p r h
    rw [parser.obj] at h ⊢
    cases hx : parser.list Token.Comma Token.Rbrace (fun acc q => parser.objItem n acc q) n []
        (p.want Token.Lbrace) with
    | none => simp [hx] at h
    | some x =>
      rw [list_mono _ _ _ _ (fun a p r h => ih.objItem a p r h) n _ _ _ hx]
      rw [hx] at h
      exact h
  · -- blockstmt
    intro p r h
    rw [parser.blockstmt] at h ⊢
    cases hx : parser.blockLoop n [] (p.want Token.Lbrace) with
    | none => simp [hx] at h
    | some x => simp only [hx, ih.blockLoop _ _ _ hx] at h ⊢; exact h
  · -- blockLoop
    intro a p r h
    rw [parser.blockLoop] at h ⊢
    split
    · rename_i hc
      rw [if_pos hc] at h
      cases hx : parser.stmt n p with
      | none => simp [hx] at h
      | some x => simp only [hx, ih.stmt _ _ hx] at h ⊢; exact ih.blockLoop _ _ _ h
    · rename_i hc; rw [if_neg hc] at h; exact h
  · -- yield
    intro p r h
    rw [parser.yield] at h ⊢
    split
    · rename_i hc; rw [if_pos hc] at h; exact h
    · rename_i hc
      rw [if_neg hc] at h
      cases hx : parser.operand n (p.got Token.Yield).2 with
      | none => simp [hx] at h
      | some x => simp only [hx, ih.operand _ _ hx] at h ⊢; exact h
  · -- casestmtRight
    intro l a p r h
    rw [parser.casestmtRight] at h ⊢
    split
    · rename_i ht
      simp only [ht] at h
      cases hx : parser.blockstmt n (p.want Token.Arrow) with
      | none => simp [hx] at h
      | some x => simp only [hx, ih.blockstmt _ _ hx] at h ⊢; exact h
    · rename_i ht
      simp only [ht] at h
      cases hx : parser.yield n (p.want Token.Arrow) with
      | none => simp [hx] at h
      | some x => simp only [hx, ih.yield _ _ hx] at h ⊢; exact h
    · rename_i h1 h2
      split at h
      · exact absurd ‹_› h1
      · exact absurd ‹_› h2
      · exact h
  · -- casestmt
    intro a p r h
    rw [parser.casestmt] at h ⊢
    split
    · rename_i hc
      rw [if_pos hc] at h
      split
      · rename_i hd; rw [if_pos hd] at h; exact h
      · rename_i hd; rw [if_neg hd] at h; exact ih.casestmtRight _ _ _ _ h
    · rename_i hc
      rw [if_neg hc] at h
      split
      · rename_i hd; rw [if_pos hd] at h; exact h
      · rename_i hd; rw [if_neg hd] at h; exact ih.casestmtRight _ _ _ _ h
  · -- matchstmt
    intro p r h
    rw [parser.matchstmt] at h ⊢
    split
    · rename_i hc; rw [if_pos hc] at h; exact h
    · rename_i hc
      rw [if_neg hc] at h
      have key : ∀ x, (match p.next.tok with
            | Token.Literal => some p.next.literal
            | Token.Ref => parser.ref n p.next
            | _ => some (Node.nil, (p.next.unexpected p.next.tok).next)) = some x →
          (match p.next.tok with
            | Token.Literal => some p.next.literal
            | Token.Ref => parser.ref (n + 1) p.next
            | _ => some (Node.nil, (p.next.unexpected p.next.tok).next)) = some x := by
        intro x hx
        split
        · rename_i ht; simp only [ht] at hx; exact hx
        · rename_i ht; simp only [ht] at hx; exact (ref_mono n).1 _ _ hx
        · rename_i h1 h2
          split at hx
          · exact absurd ‹_› h1
          · exact absurd ‹_› h2
          · exact hx
      cases hx : (match p.next.tok with
            | Token.Literal => some p.next.literal
            | Token.Ref => parser.ref n p.next
            | _ => some (Node.nil, (p.next.unexpected p.next.tok).next)) with
      | none => simp [hx] at h
      | some x =>
        rw [key x hx]
        rw [hx] at h
        simp only at h ⊢
        cases hy : parser.matchLoop n [] (x.2.want Token.Lbrace) with
        | none => simp [hy] at h
        | some y => simp only [hy, ih.matchLoop _ _ _ hy] at h ⊢; exact h
  · -- matchLoop
    intro a p r h
    rw [parser.matchLoop] at h ⊢
    split
    · rename_i hc
      rw [if_pos hc] at h
      cases hx : parser.casestmt n a p with
      | none => simp [hx] at h
      | some x =>
        simp only [hx, ih.casestmt _ _ _ hx] at h ⊢
        split
        · rename_i hd; rw [if_pos hd] at h; exact ih.matchLoop _ _ _ h
        · rename_i hd; rw [if_neg hd] at h; exact ih.matchLoop _ _ _ h
    · rename_i hc; rw [if_neg hc] at h; exact h
  · -- chain
    intro c p r h
    rw [parser.chain] at h ⊢
    cases hx : parser.chainLoop n [c] p with
    | none => simp [hx] at h
    | some x => simp only [hx, ih.chainLoop _ _ _ hx] at h ⊢; exact h
  · -- chainLoop
    intro a p r h
    rw [parser.chainLoop] at h ⊢
    split
    · rename_i hc
      rw [if_pos hc] at h
      split
      · rename_i hd; rw [if_pos hd] at h; exact ih.chainLoop _ _ _ h
      · rename_i hd
        rw [if_neg hd] at h
        cases hx : parser.command n p.lit p.ident.2 with
        | none => simp [hx] at h
        | some x =>
          simp only [hx, ih.command _ _ _ hx] at h ⊢
          split
          · rename_i he; rw [if_pos he] at h; exact ih.chainLoop _ _ _ h
          · rename_i he; rw [if_neg he] at h; exact ih.chainLoop _ _ _ h
    · rename_i hc; rw [if_neg hc] at h; exact h
  · -- operand
    intro p r h
    rw [parser.operand] at h ⊢
    split
    · rename_i ht; simp only [ht] at h; exact h
    · rename_i ht; simp only [ht] at h; exact (ref_mono n).1 _ _ h
    · rename_i ht; simp only [ht] at h; exact ih.obj _ _ h
    · rename_i ht; simp only [ht] at h; exact arr_mono _ _ _ h
    · rename_i h1 h2 h3 h4
      split at h
      · exact absurd ‹_› h1
      · exact absurd ‹_› h2
      · exact absurd ‹_› h3
      · exact absurd ‹_› h4
      · exact h
  · -- expr
    intro p r h
    rw [parser.expr] at h ⊢
    split
    · rename_i ht
      simp only [ht] at h
      cases hx : parser.command n p.lit p.ident.2 with
      | none => simp [hx] at h
      | some x =>
        simp only [hx, ih.command _ _ _ hx] at h ⊢
        split
        · rename_i he; rw [if_pos he] at h; exact ih.chain _ _ _ h
        · rename_i he; rw [if_neg he] at h; exact h
    · rename_i ht; simp only [ht] at h; exact ih.matchstmt _ _ h
    · rename_i h1 h2
      split at h
      · exact absurd ‹_› h1
      · exact absurd ‹_› h2
      · exact ih.operand _ _ h
  · -- command
    intro s p r h
    rw [parser.command] at h ⊢
    cases hx : parser.commandLoop n [] p with
    | none => simp [hx] at h
    | some x => simp only [hx, ih.commandLoop _ _ _ hx] at h ⊢; exact h
  · -- commandLoop
    intro a p r h
    rw [parser.commandLoop] at h ⊢
    split
    · rename_i hc
      rw [if_pos hc] at h
      cases hx : parser.expr n p with
      | none => simp [hx] at h
      | some x => simp only [hx, ih.expr _ _ hx] at h ⊢; exact ih.commandLoop _ _ _ h
    · rename_i hc; rw [if_neg hc] at h; exact h
  · -- vardecl
    intro i p r h
    rw [parser.vardecl] at h ⊢
    split
    · rename_i hc; rw [if_pos hc] at h; exact h
    · rename_i hc
      rw [if_neg hc] at h
      cases hx : parser.expr n (p.got Token.Assign).2 with
      | none => simp [hx] at h
      | some x => simp only [hx, ih.expr _ _ hx] at h ⊢; exact h
  · -- stmtBody
    intro p r h
    rw [parser.stmtBody] at h ⊢
    split
    · rename_i ht
      simp only [ht] at h
      split
      · rename_i hc; rw [if_pos hc] at h; exact ih.vardecl _ _ _ h
      · rename_i hc
        rw [if_neg hc] at h
        cases hx : parser.command n p.lit p.ident.2 with
        | none => simp [hx] at h
        | some x =>
          simp only [hx, ih.command _ _ _ hx] at h ⊢
          split
          · rename_i he; rw [if_pos he] at h; exact ih.chain _ _ _ h
          · rename_i he; rw [if_neg he] at h; exact h
    · rename_i ht; simp only [ht] at h; exact ih.matchstmt _ _ h
    · rename_i ht; simp only [ht] at h; exact ih.yield _ _ h
    · rename_i h1 h2 h3
      split at h
      · exact absurd ‹_› h1
      · exact absurd ‹_› h2
      · exact absurd ‹_› h3
      · exact h
  · -- stmt
    intro p r h
    rw [parser.stmt] at h ⊢
    cases hx : parser.stmtBody n p with
    | none => simp [hx] at h
    | some x => simp only [hx, ih.stmtBody _ _ hx] at h ⊢; exact h

theorem monoAt (n : Nat) : MonoAt n := by
  induction n with
  | zero => exact monoAt_zero
  | succ n ih => exact monoAt_succ n ih


theorem mono_le {β : Type} (f : Nat → Option β)
    (h : ∀ n r, f n = some r → f (n + 1) = some r) :
    ∀ n m r, n ≤ m → f n = some r → f m = some r := by
  intro n m r hnm hf
  induction hnm with
  | refl => exact hf
  | step _ ih => exact h _ _ ih

theorem parseLoop_mono (n : Nat) : ∀ a p r,
    parser.parseLoop n a p = some r → parser.parseLoop (n + 1) a p = some r := by
  induction n with
  | zero => intro a p r h; simp [parser.parseLoop] at h
  | succ n ih =>
    intro a p r h
    rw [parser.parseLoop] at h ⊢
    split
    · rename_i hc
      rw [if_pos hc] at h
      cases hx : parser.stmt n p with
      | none => simp [hx] at h
      | some x => simp only [hx, (monoAt n).stmt _ _ hx] at h ⊢; exact ih _ _ _ h
    · rename_i hc; rw [if_neg hc] at h; exact h

theorem parse_mono (n m : Nat) (hnm : n ≤ m) (p : parser) (r : List Node × parser)
    (h : parser.parse n p = some r) : parser.parse m p = some r :=
  mono_le (fun k => parser.parseLoop k [] p) (fun k r => parseLoop_mono k [] p r) n m r hnm h

theorem ref_mono_le (n m : Nat) (hnm : n ≤ m) (p : parser) (r : Node × parser)
    (h : parser.ref n p = some r) : parser.ref m p = some r :=
  mono_le (fun k => parser.ref k p) (fun k r => (ref_mono k).1 p r) n m r hnm h

/-! ## The loop of `matchstmt` at end-of-input -/

/-- Once the scanner is at end-of-input the loop of `matchstmt` never leaves:
no amount of fuel lets it return. -/
theorem matchLoop_eof (fuel : Nat) : ∀ (jmptab : List (Nat × Node)) (p : parser),
    p.tok = Token.EOF → parser.matchLoop fuel jmptab p = none := by
  induction fuel with
  | zero => intro jmptab p _; rfl
  | succ fuel ih =>
    intro jmptab p h
    cases fuel with
    | zero => simp [parser.matchLoop, parser.casestmt, h]
    | succ fuel =>
      rw [parser.matchLoop, if_pos (by simp [h]), parser.casestmt, if_neg (by simp [h]),
        if_pos (by simp [h])]
      simp only []
      rw [if_pos (by simp [h]), next_eof _ (by simpa using h)]
      exact ih _ _ (by simpa using h)

/-- C1 (the code departs from the claim): on the stream `match` Literal `{`
end-of-input, `parse` does not return, whatever the fuel: the loop of
`matchstmt` tests for `}` only and spins at end-of-input. -/
theorem C1_parse_unclosed_match_never_returns (fuel : Nat) :
    parser.parse fuel
      (parser.init [tk Token.Match, tLit "x", tk Token.Lbrace, tk Token.EOF]) = none := by
  rcases fuel with _ | _ | _ | _ | fuel
  · rfl
  · rfl
  · rfl
  · rfl
  · have h := matchLoop_eof fuel [] ⟨[tk Token.EOF], 0, []⟩ rfl
    simp [parser.parse, parser.parseLoop, parser.stmt, parser.stmtBody, parser.matchstmt,
      parser.init, next_cons, parser.want, parser.got, parser.literal, h]

/-- C4 (the code departs from the claim): on `ref a . b [ c ] . d ;` the
function `ref` returns `Ind(Dot(a, b), c)` and stops in front of `]`: the
closing bracket and the accessor `. d` are left unread. -/
theorem C4_ref_stops_before_closing_bracket (fuel : Nat) :
    parser.ref (fuel + 4)
      (parser.init [tk Token.Ref, tName "a", tk Token.Dot, tName "b", tk Token.Lbrack,
        tLit "c", tk Token.Rbrack, tk Token.Dot, tName "d", tk Token.Semi]) =
    some (Node.Ref (Node.IndExpr pos0
        (Node.DotExpr pos0 (Node.Ident pos0 "a") (Node.Ident pos0 "b")) (Node.Lit pos0 0 "c")),
      ⟨[tk Token.Rbrack, tk Token.Dot, tName "d", tk Token.Semi], 0, []⟩) :=
  ref_mono_le 4 (fuel + 4) (by omega) _ _ rfl

/-- C5 (the code departs from the claim): on `a -> ;` end-of-input, `parse`
returns a `ChainStmt` with the single command `a`, and reports nothing. -/
theorem C5_chain_of_one_command (fuel : Nat) :
    parser.parse (fuel + 6)
      (parser.init [tName "a", tk Token.Arrow, tk Token.Semi, tk Token.EOF]) =
    some ([Node.ChainStmt [Node.CommandStmt pos0 "a" []]], ⟨[tk Token.EOF], 0, []⟩) :=
  parse_mono 6 (fuel + 6) (by omega) _ _ rfl

/-- C10 (the code departs from its documentation): the number `2.5` decodes
to a `Float`, which is none of String, Int, Bool, Array, Object or Zero. -/
theorem C10_decodeJson_returns_float (hashItems : List Value → List Nat)
    (oor : Float64 → Int) :
    decodeJson hashItems oor (GoVal.float64 ⟨false, 5, -1⟩) = Value.Float ⟨false, 5, -1⟩ := by
  have h : toInt64 oor ⟨false, 5, -1⟩ = 2 := by
    unfold toInt64
    rw [if_pos (by decide)]
    decide
  simp only [decodeJson, h]
  rw [if_neg (by decide)]


/-! ## Running the parser over a known prefix -/

@[simp] theorem lit_cons (i : Item) (ts : List Item) (c : Nat) (s : List (Pos × Msg)) :
    (parser.mk (i :: ts) c s).lit = i.lit := rfl

@[simp] theorem pos_cons (i : Item) (ts : List Item) (c : Nat) (s : List (Pos × Msg)) :
    (parser.mk (i :: ts) c s).pos = i.pos := rfl

@[simp] theorem typ_cons (i : Item) (ts : List Item) (c : Nat) (s : List (Pos × Msg)) :
    (parser.mk (i :: ts) c s).typ = i.typ := rfl

theorem tok_mk (ts : List Item) (c : Nat) (s : List (Pos × Msg)) :
    (parser.mk ts c s).tok = tokOf ts := rfl

@[simp] theorem tokOf_cons (i : Item) (ts : List Item) : tokOf (i :: ts) = i.tok := rfl

@[simp] theorem tokOf_nil : tokOf [] = Token.EOF := rfl

theorem tokOf_append (b r : List Item) (h : tokOf b ≠ Token.EOF) : tokOf (b ++ r) = tokOf b := by
  cases b with
  | nil => exact absurd rfl h
  | cons i b => rfl

theorem got_cons (i : Item) (ts : List Item) (c : Nat) (s : List (Pos × Msg)) (t : Token)
    (h : i.tok = t) (ht : t ≠ Token.EOF) :
    (parser.mk (i :: ts) c s).got t = (true, parser.mk ts c s) := by
  subst h
  simp [parser.got, next_cons _ _ _ _ ht]

theorem got_ne (p : parser) (t : Token) (h : p.tok ≠ t) : p.got t = (false, p) := by
  simp [parser.got, h]

theorem want_cons (i : Item) (ts : List Item) (c : Nat) (s : List (Pos × Msg)) (t : Token)
    (h : i.tok = t) (ht : t ≠ Token.EOF) :
    (parser.mk (i :: ts) c s).want t = parser.mk ts c s := by
  simp [parser.want, got_cons _ _ _ _ _ h ht]

theorem ident_cons (i : Item) (ts : List Item) (c : Nat) (s : List (Pos × Msg))
    (h : i.tok = Token.Name) :
    (parser.mk (i :: ts) c s).ident = (Node.Ident i.pos i.lit, parser.mk ts c s) := by
  simp [parser.ident, h, next_cons]

theorem literal_cons (i : Item) (ts : List Item) (c : Nat) (s : List (Pos × Msg))
    (h : i.tok = Token.Literal) :
    (parser.mk (i :: ts) c s).literal = (Node.Lit i.pos i.typ i.lit, parser.mk ts c s) := by
  simp [parser.literal, h, next_cons]

/-- Two runs that each return with enough fuel return with a common fuel. -/
theorem ret_both {β γ : Type} (f : Nat → Option β) (g : Nat → Option γ)
    (hf : ∀ n r, f n = some r → f (n + 1) = some r)
    (hg : ∀ n r, g n = some r → g (n + 1) = some r)
    (rf : β) (rg : γ) (h1 : Ret f rf) (h2 : Ret g rg) :
    ∃ n, f n = some rf ∧ g n = some rg := by
  obtain ⟨a, ha⟩ := h1
  obtain ⟨b, hb⟩ := h2
  exact ⟨max a b, mono_le f hf a _ rf (le_max_left a b) ha,
    mono_le g hg b _ rg (le_max_right a b) hb⟩

theorem ret_ge {β : Type} (f : Nat → Option β)
    (hf : ∀ n r, f n = some r → f (n + 1) = some r) (r : β) (h : Ret f r) :
    ∃ n, ∀ m, n ≤ m → f m = some r := by
  obtain ⟨a, ha⟩ := h
  exact ⟨a, fun m hm => mono_le f hf a m r hm ha⟩

/-! ## The dispatch table of a match statement -/

theorem casestmtRight_ok (x : CaseSrc) (hx : x.WF) (lit : String) (tab : List (Nat × Node))
    (R : List Item) (c : Nat) (s : List (Pos × Msg))
    (hR : tokOf R = Token.Comma ∨ tokOf R = Token.Rbrace) :
    Ret (fun k => parser.casestmtRight k lit tab ⟨x.arrow :: (x.body ++ R), c, s⟩)
      (mapSet tab (hash32 lit) x.node, ⟨R, c, s⟩) := by
  obtain ⟨_, ha, _, hb⟩ := hx
  rcases hb with ⟨ht, hb⟩ | ⟨ht, hb⟩
  · obtain ⟨n, hn⟩ := hb R c s hR
    refine ⟨n + 1, ?_⟩
    have h1 : tokOf (x.body ++ R) = Token.Lbrace := by
      rw [tokOf_append _ _ (by rw [ht]; decide), ht]
    simp only [parser.casestmtRight, want_cons _ _ _ _ _ ha (by decide), tok_mk, h1]
    simp only at hn
    rw [hn]
  · obtain ⟨n, hn⟩ := hb R c s hR
    refine ⟨n + 1, ?_⟩
    have h1 : tokOf (x.body ++ R) = Token.Yield := by
      rw [tokOf_append _ _ (by rw [ht]; decide), ht]
    simp only [parser.casestmtRight, want_cons _ _ _ _ _ ha (by decide), tok_mk, h1]
    simp only at hn
    rw [hn]

theorem casestmt_ok (x : CaseSrc) (hx : x.WF) (tab : List (Nat × Node))
    (R : List Item) (c : Nat) (s : List (Pos × Msg))
    (hR : tokOf R = Token.Comma ∨ tokOf R = Token.Rbrace) :
    Ret (fun k => parser.casestmt k tab ⟨x.toks ++ R, c, s⟩)
      (mapSet tab (hash32 x.label.lit) x.node, ⟨R, c, s⟩) := by
  obtain ⟨n, hn⟩ := casestmtRight_ok x hx x.label.lit tab R c s hR
  refine ⟨n + 1, ?_⟩
  simp only at hn
  show parser.casestmt (n + 1) tab ⟨x.label :: x.arrow :: (x.body ++ R), c, s⟩ = _
  rcases hx.1 with hl | ⟨hl, hw⟩
  · rw [parser.casestmt, if_neg (by simp [hl]), if_neg (by simp [hl]),
      next_cons _ _ _ _ (by rw [hl]; decide)]
    exact hn
  · rw [parser.casestmt, if_pos (by simp [hl]), if_neg (by simp [hw]),
      next_cons _ _ _ _ (by rw [hl]; decide)]
    exact hn

theorem casesToks_cons_cons (x y : CaseSrc) (cs : List CaseSrc) :
    casesToks (x :: y :: cs) = x.toks ++ x.comma :: casesToks (y :: cs) := rfl

theorem matchLoop_ok (cs : List CaseSrc) : ∀ (tab : List (Nat × Node)),
    (∀ x ∈ cs, x.WF) → ∀ (rb : Item) (R : List Item) (c : Nat) (s : List (Pos × Msg)),
    rb.tok = Token.Rbrace →
    Ret (fun k => parser.matchLoop k tab ⟨casesToks cs ++ rb :: R, c, s⟩)
      (cs.foldl (fun t x => mapSet t (hash32 x.label.lit) x.node) tab, ⟨rb :: R, c, s⟩) := by
  induction cs with
  | nil =>
    intro tab _ rb R c s hrb
    refine ⟨1, ?_⟩
    simp [parser.matchLoop, casesToks, hrb]
  | cons x cs ih =>
    intro tab hwf rb R c s hrb
    have hx : x.WF := hwf x (List.mem_cons_self _ _)
    have hlab : x.label.tok ≠ Token.Rbrace := by
      rcases hx.1 with h | ⟨h, _⟩ <;> rw [h] <;> decide
    cases cs with
    | nil =>
      obtain ⟨n, hn⟩ := casestmt_ok x hx tab (rb :: R) c s (Or.inr hrb)
      refine ⟨n + 2, ?_⟩
      simp only at hn
      have hn' := (monoAt n).casestmt _ _ _ hn
      show parser.matchLoop (n + 2) tab ⟨x.toks ++ rb :: R, c, s⟩ = _
      rw [parser.matchLoop, if_pos (by simpa [CaseSrc.toks] using hlab), hn']
      simp only
      rw [if_neg (by simp [hrb]), got_ne _ _ (by simp [hrb])]
      simp [parser.matchLoop, hrb]
    | cons y cs =>
      have hrest := ih (mapSet tab (hash32 x.label.lit) x.node)
        (fun z hz => hwf z (List.mem_cons_of_mem _ hz)) rb R c s hrb
      obtain ⟨n, h1, h2⟩ := ret_both _ _
        (fun n r => (monoAt n).casestmt tab
          ⟨x.toks ++ (x.comma :: (casesToks (y :: cs) ++ rb :: R)), c, s⟩ r)
        (fun n r => (monoAt n).matchLoop (mapSet tab (hash32 x.label.lit) x.node)
          ⟨casesToks (y :: cs) ++ rb :: R, c, s⟩ r) _ _
        (casestmt_ok x hx tab (x.comma :: (casesToks (y :: cs) ++ rb :: R)) c s
          (Or.inl hx.2.2.1)) hrest
      refine ⟨n + 1, ?_⟩
      show parser.matchLoop (n + 1) tab ⟨casesToks (x :: y :: cs) ++ rb :: R, c, s⟩ = _
      rw [casesToks_cons_cons, List.append_assoc, List.cons_append]
      rw [parser.matchLoop, if_pos (by simpa [CaseSrc.toks] using hlab), h1]
      simp only
      rw [if_neg (by simp [hx.2.2.1]), got_cons _ _ _ _ _ hx.2.2.1 (by decide)]
      exact h2

theorem mapGet_mapSet {α β : Type} [DecidableEq α] (m : List (α × β)) (k k' : α) (v : β) :
    mapGet (mapSet m k v) k' = if k = k' then some v else mapGet m k' := by
  induction m with
  | nil => simp [mapSet, mapGet]
  | cons e m ih =>
    obtain ⟨a, b⟩ := e
    by_cases h : a = k
    · subst h
      by_cases h' : a = k' <;> simp [mapSet, mapGet, h']
    · by_cases h' : a = k'
      · subst h'
        simp [mapSet, mapGet, h, Ne.symm h]
      · simp [mapSet, mapGet, h, h', ih]

theorem mem_keys_mapSet {α β : Type} [DecidableEq α] (m : List (α × β)) (k k' : α) (v : β) :
    k' ∈ (mapSet m k v).map Prod.fst ↔ k' = k ∨ k' ∈ m.map Prod.fst := by
  induction m with
  | nil => simp [mapSet]
  | cons e m ih =>
    obtain ⟨a, b⟩ := e
    by_cases h : a = k
    · subst h
      simp [mapSet]
    · simp only [mapSet, h, if_false, List.map_cons, List.mem_cons, ih]
      tauto

theorem nodup_keys_mapSet {α β : Type} [DecidableEq α] (m : List (α × β)) (k : α) (v : β)
    (h : (m.map Prod.fst).Nodup) : ((mapSet m k v).map Prod.fst).Nodup := by
  induction m with
  | nil => simp [mapSet]
  | cons e m ih =>
    obtain ⟨a, b⟩ := e
    simp only [List.map_cons, List.nodup_cons] at h
    by_cases hk : a = k
    · subst hk
      simpa [mapSet] using h
    · simp only [mapSet, hk, if_false, List.map_cons, List.nodup_cons, mem_keys_mapSet]
      exact ⟨fun hc => hc.elim id h.1, ih h.2⟩

theorem nodup_keys_foldl (cs : List CaseSrc) : ∀ tab : List (Nat × Node),
    (tab.map Prod.fst).Nodup →
    ((cs.foldl (fun t x => mapSet t (hash32 x.label.lit) x.node) tab).map Prod.fst).Nodup := by
  induction cs with
  | nil => intro tab h; exact h
  | cons x cs ih => intro tab h; exact ih _ (nodup_keys_mapSet _ _ _ h)

theorem mem_keys_foldl (cs : List CaseSrc) (h : Nat) : ∀ tab : List (Nat × Node),
    h ∈ (cs.foldl (fun t x => mapSet t (hash32 x.label.lit) x.node) tab).map Prod.fst ↔
      (∃ x ∈ cs, hash32 x.label.lit = h) ∨ h ∈ tab.map Prod.fst := by
  induction cs with
  | nil => intro tab; simp
  | cons x cs ih =>
    intro tab
    rw [List.foldl_cons, ih, mem_keys_mapSet]
    simp only [List.mem_cons, exists_eq_or_imp]
    constructor
    · rintro (h1 | h1 | h1)
      · exact Or.inl (Or.inr h1)
      · exact Or.inl (Or.inl h1.symm)
      · exact Or.inr h1
    · rintro ((h1 | h1) | h1)
      · exact Or.inr (Or.inl h1.symm)
      · exact Or.inl h1
      · exact Or.inr (Or.inr h1)

theorem mapGet_foldl (cs : List CaseSrc) (h : Nat) :
    mapGet (cs.foldl (fun t x => mapSet t (hash32 x.label.lit) x.node) []) h = lastNode cs h := by
  induction cs using List.reverseRecOn with
  | nil => rfl
  | append_singleton cs x ih =>
    rw [List.foldl_append, List.foldl_cons, List.foldl_nil, mapGet_mapSet, ih]
    unfold lastNode
    rw [List.filter_append]
    by_cases hx : hash32 x.label.lit = h
    · simp [hx, List.filter_cons]
    · simp [hx, List.filter_cons]

/-- C7: a well-formed match statement `match cond { l1 -> b1, ..., ln -> bn }`
is parsed without a diagnostic to a `MatchStmt` whose `Jmptab` has one entry
per distinct value of `hash32 li`, the entry for a hash being the body of the
last case whose label has that hash. -/
theorem C7_jmptab_last_write_wins (m lb rb : Item) (cond : List Item) (cn : Node)
    (cs : List CaseSrc) (R : List Item) (c : Nat) (s : List (Pos × Msg))
    (hm : m.tok = Token.Match) (hcond : CondOK cond cn) (hlb : lb.tok = Token.Lbrace)
    (hrb : rb.tok = Token.Rbrace) (hcs : ∀ x ∈ cs, x.WF) :
    ∃ tab : List (Nat × Node),
      (∃ n, ∀ k, n ≤ k →
        parser.matchstmt k ⟨m :: (cond ++ lb :: (casesToks cs ++ rb :: R)), c, s⟩ =
          some (Node.MatchStmt m.pos cn tab, ⟨R, c, s⟩)) ∧
      (tab.map Prod.fst).Nodup ∧
      (∀ h, h ∈ tab.map Prod.fst ↔ ∃ x ∈ cs, hash32 x.label.lit = h) ∧
      (∀ h, mapGet tab h = lastNode cs h) := by
  refine ⟨cs.foldl (fun t x => mapSet t (hash32 x.label.lit) x.node) [], ?_,
    nodup_keys_foldl cs [] (by simp), fun h => by simpa using mem_keys_foldl cs h [],
    mapGet_foldl cs⟩
  apply ret_ge (fun k => parser.matchstmt k ⟨m :: (cond ++ lb :: (casesToks cs ++ rb :: R)), c, s⟩)
    (fun n r => (monoAt n).matchstmt _ r)
  have hloop := matchLoop_ok cs [] hcs rb R c s hrb
  have hmE : m.tok ≠ Token.EOF := by rw [hm]; decide
  rcases hcond with ⟨i, rfl, hi, rfl⟩ | ⟨ht, href⟩
  · obtain ⟨n, hn⟩ := hloop
    refine ⟨n + 1, ?_⟩
    simp only at hn
    simp only [parser.matchstmt, tok_cons, hm, next_cons _ _ _ _ hmE, List.singleton_append, hi,
      literal_cons _ _ _ _ hi, want_cons _ _ _ _ _ hlb (by decide), hn,
      got_cons _ _ _ _ _ hrb (by decide)]
    simp
  · obtain ⟨n, h1, h2⟩ := ret_both _ _
      (fun n r => (ref_mono n).1 ⟨cond ++ lb :: (casesToks cs ++ rb :: R), c, s⟩ r)
      (fun n r => (monoAt n).matchLoop [] ⟨casesToks cs ++ rb :: R, c, s⟩ r) _ _
      (href (lb :: (casesToks cs ++ rb :: R)) c s hlb) hloop
    refine ⟨n + 1, ?_⟩
    have h3 : tokOf (cond ++ lb :: (casesToks cs ++ rb :: R)) = Token.Ref := by
      rw [tokOf_append _ _ (by rw [ht]; decide), ht]
    simp only [parser.matchstmt, tok_cons, hm, next_cons _ _ _ _ hmE, tok_mk, tokOf_cons, h3, h1,
      want_cons _ _ _ _ _ hlb (by decide), h2, got_cons _ _ _ _ _ hrb (by decide)]
    simp [hm]

/-! ## Commands and chains -/

theorem pos_mk (ts : List Item) (c : Nat) (s : List (Pos × Msg)) :
    (parser.mk ts c s).pos = posOf ts := rfl

theorem argOK_tok_ne_eof (x : List Item) (n : Node) (h : ArgOK x n) : tokOf x ≠ Token.EOF := by
  rcases h.1 with h | h | h | h | h <;> rw [h] <;> decide

theorem tokOf_argsToks_append (as : List (List Item × Node)) (R : List Item) (h : ArgsOK as) :
    (tokOf (argsToks as ++ R) = tokOf R ∧ as = []) ∨
      (tokOf (argsToks as ++ R) = tokOf (argsToks as) ∧
        (tokOf (argsToks as) = Token.Literal ∨ tokOf (argsToks as) = Token.Ref ∨
          tokOf (argsToks as) = Token.Lbrace ∨ tokOf (argsToks as) = Token.Lbrack ∨
          tokOf (argsToks as) = Token.Match)) := by
  cases as with
  | nil => exact Or.inl ⟨rfl, rfl⟩
  | cons a as =>
    right
    have ha := h.1
    have hne := argOK_tok_ne_eof _ _ ha
    have h1 : tokOf (argsToks (a :: as)) = tokOf a.1 := tokOf_append _ _ hne
    have h2 : tokOf (argsToks (a :: as) ++ R) = tokOf a.1 := by
      show tokOf ((a.1 ++ argsToks as) ++ R) = _
      rw [List.append_assoc]
      exact tokOf_append _ _ hne
    rw [h1, h2]
    exact ⟨rfl, ha.1⟩

theorem commandLoop_ok (as : List (List Item × Node)) : ∀ (acc : List Node) (R : List Item)
    (c : Nat) (s : List (Pos × Msg)), ArgsOK as → R ≠ [] →
    (tokOf R = Token.Arrow ∨ tokOf R = Token.Semi ∨ tokOf R = Token.EOF) →
    Ret (fun k => parser.commandLoop k acc ⟨argsToks as ++ R, c, s⟩)
      (acc ++ as.map Prod.snd, ⟨R, c, s⟩) := by
  induction as with
  | nil =>
    intro acc R c s _ _ hR
    refine ⟨1, ?_⟩
    have : ¬ (tokOf R ≠ Token.Arrow ∧ tokOf R ≠ Token.Semi ∧ tokOf R ≠ Token.EOF) := by
      rcases hR with h | h | h <;> simp [h]
    simp [parser.commandLoop, argsToks, tok_mk, this]
  | cons a as ih =>
    intro acc R c s hok hne hR
    obtain ⟨ha, hfollow, has⟩ := hok
    have hrest : argsToks as ++ R ≠ [] := fun h => hne (List.append_eq_nil.mp h).2
    have hnext : tokOf a.1 = Token.Ref →
        tokOf (argsToks as ++ R) ≠ Token.Dot ∧ tokOf (argsToks as ++ R) ≠ Token.Lbrack := by
      intro hr
      rcases tokOf_argsToks_append as R has with ⟨h1, _⟩ | ⟨h1, h2⟩
      · rw [h1]
        rcases hR with h | h | h <;> rw [h] <;> exact ⟨by decide, by decide⟩
      · rw [h1]
        refine ⟨?_, hfollow hr⟩
        rcases h2 with h | h | h | h | h <;> rw [h] <;> decide
    obtain ⟨n, h1, h2⟩ := ret_both _ _
      (fun n r => (monoAt n).expr ⟨a.1 ++ (argsToks as ++ R), c, s⟩ r)
      (fun n r => (monoAt n).commandLoop (acc ++ [a.2]) ⟨argsToks as ++ R, c, s⟩ r) _ _
      (ha.2 (argsToks as ++ R) c s hrest hnext) (ih (acc ++ [a.2]) R c s has hne hR)
    refine ⟨n + 1, ?_⟩
    show parser.commandLoop (n + 1) acc ⟨(a.1 ++ argsToks as) ++ R, c, s⟩ = _
    rw [List.append_assoc]
    have htok : tokOf (a.1 ++ (argsToks as ++ R)) = tokOf a.1 :=
      tokOf_append _ _ (argOK_tok_ne_eof _ _ ha)
    have hcond : (parser.mk (a.1 ++ (argsToks as ++ R)) c s).tok ≠ Token.Arrow ∧
        (parser.mk (a.1 ++ (argsToks as ++ R)) c s).tok ≠ Token.Semi ∧
        (parser.mk (a.1 ++ (argsToks as ++ R)) c s).tok ≠ Token.EOF := by
      rw [tok_mk, htok]
      rcases ha.1 with h | h | h | h | h <;> rw [h] <;> exact ⟨by decide, by decide, by decide⟩
    rw [parser.commandLoop, if_pos hcond, h1]
    simp only
    rw [h2]
    simp

theorem command_ok (name : String) (as : List (List Item × Node)) (R : List Item)
    (c : Nat) (s : List (Pos × Msg)) (hok : ArgsOK as) (hne : R ≠ [])
    (hR : tokOf R = Token.Arrow ∨ tokOf R = Token.Semi ∨ tokOf R = Token.EOF) :
    Ret (fun k => parser.command k name ⟨argsToks as ++ R, c, s⟩)
      (Node.CommandStmt (posOf (argsToks as ++ R)) name (as.map Prod.snd), ⟨R, c, s⟩) := by
  obtain ⟨n, hn⟩ := commandLoop_ok as [] R c s hok hne hR
  refine ⟨n + 1, ?_⟩
  simp only at hn
  show parser.command (n + 1) name _ = _
  rw [parser.command, hn]
  simp [pos_mk]

theorem chainToks_cons_cons (x y : CmdSrc) (xs : List CmdSrc) (R : List Item) :
    chainToks (x :: y :: xs) R =
      x.name :: (argsToks x.args ++ x.arrow :: chainToks (y :: xs) R) := rfl

theorem cmdNodes_cons_cons (x y : CmdSrc) (xs : List CmdSrc) (R : List Item) :
    cmdNodes (x :: y :: xs) R =
      Node.CommandStmt (posOf (argsToks x.args ++ x.arrow :: chainToks (y :: xs) R)) x.name.lit
        (x.args.map Prod.snd) :: cmdNodes (y :: xs) R := rfl

theorem chainLoop_ok (xs : List CmdSrc) : ∀ (acc : List Node) (R : List Item)
    (c : Nat) (s : List (Pos × Msg)), (∀ x ∈ xs, x.WF) → R ≠ [] →
    (tokOf R = Token.Semi ∨ tokOf R = Token.EOF) →
    Ret (fun k => parser.chainLoop k acc ⟨chainToks xs R, c, s⟩)
      (acc ++ cmdNodes xs R, ⟨R, c, s⟩) := by
  induction xs with
  | nil =>
    intro acc R c s _ _ hR
    refine ⟨1, ?_⟩
    have : ¬ (tokOf R ≠ Token.Semi ∧ tokOf R ≠ Token.EOF) := by
      rcases hR with h | h <;> simp [h]
    simp [parser.chainLoop, chainToks, cmdNodes, tok_mk, this]
  | cons x xs ih =>
    intro acc R c s hwf hne hR
    obtain ⟨hname, harrow, hargs⟩ := hwf x (List.mem_cons_self _ _)
    have hnameE : x.name.tok ≠ Token.EOF := by rw [hname]; decide
    cases xs with
    | nil =>
      obtain ⟨n, hn⟩ := command_ok x.name.lit x.args R c s hargs hne (Or.inr hR)
      refine ⟨n + 2, ?_⟩
      simp only at hn
      have hn' := (monoAt n).command _ _ _ hn
      have hstop : ¬ (tokOf R ≠ Token.Semi ∧ tokOf R ≠ Token.EOF) := by
        rcases hR with h | h <;> simp [h]
      have hnarrow : (parser.mk R c s).tok ≠ Token.Arrow := by
        rw [tok_mk]; rcases hR with h | h <;> rw [h] <;> decide
      show parser.chainLoop (n + 2) acc ⟨x.name :: (argsToks x.args ++ R), c, s⟩ = _
      rw [parser.chainLoop, if_pos (by simp [hname]), if_neg (by simp [hname]),
        ident_cons _ _ _ _ hname]
      simp only [lit_cons]
      rw [hn']
      simp only
      rw [got_ne _ _ hnarrow, if_neg (by simpa [tok_mk] using hstop)]
      simp [parser.chainLoop, tok_mk, hstop, cmdNodes]
    | cons y ys =>
      have hrest := ih (acc ++ [Node.CommandStmt
          (posOf (argsToks x.args ++ x.arrow :: chainToks (y :: ys) R)) x.name.lit
          (x.args.map Prod.snd)]) R c s
        (fun z hz => hwf z (List.mem_cons_of_mem _ hz)) hne hR
      obtain ⟨n, h1, h2⟩ := ret_both _ _
        (fun n r => (monoAt n).command x.name.lit
          ⟨argsToks x.args ++ x.arrow :: chainToks (y :: ys) R, c, s⟩ r)
        (fun n r => (monoAt n).chainLoop _ ⟨chainToks (y :: ys) R, c, s⟩ r) _ _
        (command_ok x.name.lit x.args (x.arrow :: chainToks (y :: ys) R) c s hargs
          (List.cons_ne_nil _ _) (Or.inl harrow)) hrest
      refine ⟨n + 1, ?_⟩
      show parser.chainLoop (n + 1) acc ⟨chainToks (x :: y :: ys) R, c, s⟩ = _
      rw [chainToks_cons_cons, cmdNodes_cons_cons]
      rw [parser.chainLoop, if_pos (by simp [hname]), if_neg (by simp [hname]),
        ident_cons _ _ _ _ hname]
      simp only [lit_cons]
      rw [h1]
      simp only
      rw [got_cons _ _ _ _ _ harrow (by decide), if_neg (by simp)]
      rw [h2]
      simp

theorem stmt_chain_ok (x y : CmdSrc) (xs : List CmdSrc) (R : List Item) (c : Nat)
    (s : List (Pos × Msg)) (hwf : ∀ z ∈ x :: y :: xs, z.WF) (hne : R ≠ [])
    (hR : tokOf R = Token.Semi ∨ tokOf R = Token.EOF) :
    Ret (fun k => parser.stmt k ⟨chainToks (x :: y :: xs) R, c, s⟩)
      (Node.ChainStmt (cmdNodes (x :: y :: xs) R), ((parser.mk R c s).got Token.Semi).2) := by
  obtain ⟨hname, harrow, hargs⟩ := hwf x (List.mem_cons_self _ _)
  have hrest := chainLoop_ok (y :: xs)
    [Node.CommandStmt (posOf (argsToks x.args ++ x.arrow :: chainToks (y :: xs) R)) x.name.lit
      (x.args.map Prod.snd)] R c s (fun z hz => hwf z (List.mem_cons_of_mem _ hz)) hne hR
  obtain ⟨n, h1, h2⟩ := ret_both _ _
    (fun n r => (monoAt n).command x.name.lit
      ⟨argsToks x.args ++ x.arrow :: chainToks (y :: xs) R, c, s⟩ r)
    (fun n r => (monoAt n).chainLoop _ ⟨chainToks (y :: xs) R, c, s⟩ r) _ _
    (command_ok x.name.lit x.args (x.arrow :: chainToks (y :: xs) R) c s hargs
      (List.cons_ne_nil _ _) (Or.inl harrow)) hrest
  have h1' := (monoAt n).command _ _ _ h1
  refine ⟨n + 3, ?_⟩
  have hassign : tokOf (argsToks x.args ++ x.arrow :: chainToks (y :: xs) R) ≠ Token.Assign := by
    rcases tokOf_argsToks_append x.args (x.arrow :: chainToks (y :: xs) R) hargs with
      ⟨h, _⟩ | ⟨h, h'⟩
    · rw [h, tokOf_cons, harrow]; decide
    · rw [h]
      rcases h' with h | h | h | h | h <;> rw [h] <;> decide
  have hbody : parser.stmtBody (n + 2) ⟨chainToks (x :: y :: xs) R, c, s⟩ =
      some (Node.ChainStmt (cmdNodes (x :: y :: xs) R), ⟨R, c, s⟩) := by
    rw [chainToks_cons_cons, cmdNodes_cons_cons, parser.stmtBody]
    simp only [tok_cons, hname, ident_cons _ _ _ _ hname, lit_cons]
    rw [if_neg (by rw [tok_mk]; exact hassign), h1']
    simp only
    rw [got_cons _ _ _ _ _ harrow (by decide), if_pos rfl, parser.chain, h2]
    simp
  show parser.stmt (n + 3) _ = _
  rw [parser.stmt, hbody]
  simp only
  rcases hR with h | h
  · have h' : (parser.mk R c s).tok = Token.Semi := h
    simp [parser.got, h']
  · have h' : (parser.mk R c s).tok = Token.EOF := h
    simp [parser.got, h']

theorem cmdNodes_spec (l : List CmdSrc) (R : List Item) :
    (cmdNodes l R).length = l.length ∧
      ∀ i (hi : i < l.length), ∃ pos,
        (cmdNodes l R)[i]? =
          some (Node.CommandStmt pos (l[i]).name.lit ((l[i]).args.map Prod.snd)) := by
  induction l with
  | nil => exact ⟨rfl, fun i hi => absurd hi (by simp)⟩
  | cons a l ih =>
    cases l with
    | nil =>
      refine ⟨rfl, fun i hi => ?_⟩
      have : i = 0 := by simpa using hi
      subst this
      exact ⟨_, rfl⟩
    | cons b l =>
      rw [cmdNodes_cons_cons]
      refine ⟨by simp [ih.1], fun i hi => ?_⟩
      cases i with
      | zero => exact ⟨posOf (argsToks a.args ++ a.arrow :: chainToks (b :: l) R), by simp⟩
      | succ i =>
        obtain ⟨pos, hpos⟩ := ih.2 i (by simpa using hi)
        exact ⟨pos, by simpa using hpos⟩

theorem bodyOK_yield_lit (y i : Item) (hy : y.tok = Token.Yield) (h : i.tok = Token.Literal) :
    BodyOK [y, i] (Node.YieldStmt i.pos (Node.Lit i.pos i.typ i.lit)) := by
  refine Or.inr ⟨hy, fun rest c s _ => ⟨2, ?_⟩⟩
  simp [parser.yield, parser.operand, h, literal_cons _ _ _ _ h, got_cons _ _ _ _ _ hy]

theorem parse_det (n m : Nat) (p : parser) (r r' : List Node × parser)
    (h : parser.parse n p = some r) (h' : parser.parse m p = some r') : r = r' := by
  have h1 := parse_mono n (max n m) (le_max_left _ _) p r h
  have h2 := parse_mono m (max n m) (le_max_right _ _) p r' h'
  rw [h1] at h2
  exact Option.some.inj h2

theorem exCase_wf (l v : String) : (exCase l v).WF :=
  ⟨Or.inl rfl, rfl, rfl, bodyOK_yield_lit _ _ rfl rfl⟩

theorem C7_jmptab_last_write_wins_witness :
    (∀ x ∈ exCases, x.WF) ∧
    ∃ tab : List (Nat × Node),
      (∃ n, ∀ k, n ≤ k →
        parser.matchstmt k ⟨tk Token.Match :: ([tLit "x"] ++ tk Token.Lbrace ::
            (casesToks exCases ++ tk Token.Rbrace :: [tk Token.Semi])), 0, []⟩ =
          some (Node.MatchStmt (tk Token.Match).pos (Node.Lit pos0 0 "x") tab,
            ⟨[tk Token.Semi], 0, []⟩)) ∧
      (tab.map Prod.fst).Nodup ∧
      (∀ h, h ∈ tab.map Prod.fst ↔ ∃ x ∈ exCases, hash32 x.label.lit = h) ∧
      (∀ h, mapGet tab h = lastNode exCases h) :=
  have hwf : ∀ x ∈ exCases, x.WF := by
    intro x hx
    simp only [exCases, List.mem_cons, List.mem_singleton, List.not_mem_nil, or_false] at hx
    rcases hx with rfl | rfl | rfl <;> exact exCase_wf _ _
  ⟨hwf, C7_jmptab_last_write_wins (tk Token.Match) (tk Token.Lbrace) (tk Token.Rbrace)
    [tLit "x"] (Node.Lit pos0 0 "x") exCases [tk Token.Semi] 0 []
    rfl (Or.inl ⟨tLit "x", rfl, rfl, rfl⟩) rfl rfl hwf⟩

theorem lastNode_exCases :
    lastNode exCases (hash32 "a") = some (Node.YieldStmt pos0 (Node.Lit pos0 0 "3")) ∧
    lastNode exCases (hash32 "b") = some (Node.YieldStmt pos0 (Node.Lit pos0 0 "2")) :=
  ⟨rfl, rfl⟩

/-- C6 (the claim as stated fails): `a b -> c ;` is not parsed to the chain of
`a b` and `c`.  The bare name `b` starts a command of its own, which the chain
operator then chains with `c`: the statement is the single command `a` whose
one argument is the chain of `b` and `c`. -/
theorem C6_counterexample :
    parser.parse 12
      (parser.init [tName "a", tName "b", tk Token.Arrow, tName "c", tk Token.Semi,
        tk Token.EOF]) =
      some ([Node.CommandStmt pos0 "a"
        [Node.ChainStmt [Node.CommandStmt pos0 "b" [], Node.CommandStmt pos0 "c" []]]],
        ⟨[tk Token.EOF], 0, []⟩) ∧
    ∀ fuel r, parser.parse fuel
      (parser.init [tName "a", tName "b", tk Token.Arrow, tName "c", tk Token.Semi,
        tk Token.EOF]) = some r → ∀ cmds, r.1 ≠ [Node.ChainStmt cmds] := by
  refine ⟨rfl, fun fuel r h cmds hc => ?_⟩
  have := parse_det fuel 12 _ r _ h rfl
  rw [this] at hc
  simp at hc


/-! ## JSON decoding: objects -/

theorem decodeItems_eq (hashItems : List Value → List Nat) (oor : Float64 → Int)
    (v : List GoVal) : ∀ items : List Value,
    decodeItems hashItems oor v items = items ++ v.map (decodeJson hashItems oor) := by
  induction v with
  | nil => intro items; simp [decodeItems]
  | cons a v ih => intro items; simp [decodeItems, ih]

theorem decodePairs_fst (hashItems : List Value → List Nat) (oor : Float64 → Int)
    (v : List (String × GoVal)) : ∀ (order : List String) (pairs : List (String × Value)),
    (decodePairs hashItems oor v order pairs).1 = order ++ v.map Prod.fst := by
  induction v with
  | nil => intro order pairs; simp [decodePairs]
  | cons e v ih =>
    intro order pairs
    obtain ⟨k, a⟩ := e
    simp [decodePairs, ih]

theorem mapGet_not_mem {α β : Type} [DecidableEq α] (m : List (α × β)) (k : α)
    (h : k ∉ m.map Prod.fst) : mapGet m k = none := by
  induction m with
  | nil => rfl
  | cons e m ih =>
    obtain ⟨a, b⟩ := e
    simp only [List.map_cons, List.mem_cons, not_or] at h
    simp [mapGet, Ne.symm h.1, ih h.2]

theorem decodePairs_snd (hashItems : List Value → List Nat) (oor : Float64 → Int)
    (v : List (String × GoVal)) : ∀ (order : List String) (pairs : List (String × Value)),
    (v.map Prod.fst).Nodup → ∀ k,
    mapGet (decodePairs hashItems oor v order pairs).2 k =
      if k ∈ v.map Prod.fst then (mapGet v k).map (decodeJson hashItems oor)
      else mapGet pairs k := by
  induction v with
  | nil => intro order pairs _ k; simp [decodePairs]
  | cons e v ih =>
    intro order pairs hnd k
    obtain ⟨a, b⟩ := e
    simp only [List.map_cons, List.nodup_cons] at hnd
    rw [decodePairs, ih _ _ hnd.2, mapGet_mapSet, List.map_cons]
    by_cases hk : k ∈ v.map Prod.fst
    · have hne : a ≠ k := fun h => hnd.1 (h ▸ hk)
      rw [if_pos hk, if_pos (List.mem_cons_of_mem _ hk), mapGet, if_neg hne]
    · by_cases hak : a = k
      · subst hak
        rw [if_neg hk, if_pos rfl, if_pos (List.mem_cons_self _ _), mapGet, if_pos rfl]
        rfl
      · have hk' : k ∉ a :: v.map Prod.fst := by
          simp only [List.mem_cons, not_or]
          exact ⟨Ne.symm hak, hk⟩
        rw [if_neg hk, if_neg hak, if_neg hk']

theorem mapGet_perm {α β : Type} [DecidableEq α] (m m' : List (α × β)) (h : m.Perm m')
    (hnd : (m.map Prod.fst).Nodup) (k : α) : mapGet m k = mapGet m' k := by
  induction h with
  | nil => rfl
  | cons e _ ih =>
    obtain ⟨a, b⟩ := e
    simp only [List.map_cons, List.nodup_cons] at hnd
    simp [mapGet, ih hnd.2]
  | swap e e' l =>
    obtain ⟨a, b⟩ := e
    obtain ⟨a', b'⟩ := e'
    simp only [List.map_cons, List.nodup_cons, List.mem_cons, not_or] at hnd
    by_cases h1 : a = k
    · subst h1
      have h2 : ¬ a' = a := hnd.1.1
      simp only [mapGet, h2, if_false, if_true]
    · by_cases h2 : a' = k
      · simp only [mapGet, h1, h2, if_false, if_true]
      · simp only [mapGet, h1, h2, if_false]
  | trans h1 _ ih1 ih2 =>
    rw [ih1 hnd, ih2 ((h1.map Prod.fst).nodup_iff.mp hnd)]

theorem unmarshalPairs_eq (ps : List (String × JDoc)) : ∀ m : List (String × GoVal),
    unmarshalPairs ps m = ps.foldl (fun t e => mapSet t e.1 (unmarshal e.2)) m := by
  induction ps with
  | nil => intro m; rfl
  | cons e ps ih => intro m; obtain ⟨k, d⟩ := e; simp [unmarshalPairs, ih]

theorem nodup_unmarshalPairs (ps : List (String × JDoc)) : ∀ m : List (String × GoVal),
    (m.map Prod.fst).Nodup → ((unmarshalPairs ps m).map Prod.fst).Nodup := by
  induction ps with
  | nil => intro m h; exact h
  | cons e ps ih =>
    intro m h
    obtain ⟨k, d⟩ := e
    exact ih _ (nodup_keys_mapSet _ _ _ h)

theorem mem_unmarshalPairs (ps : List (String × JDoc)) (k : String) :
    ∀ m : List (String × GoVal),
    k ∈ (unmarshalPairs ps m).map Prod.fst ↔ k ∈ ps.map Prod.fst ∨ k ∈ m.map Prod.fst := by
  induction ps with
  | nil => intro m; simp [unmarshalPairs]
  | cons e ps ih =>
    intro m
    obtain ⟨a, d⟩ := e
    rw [unmarshalPairs, ih, mem_keys_mapSet]
    simp only [List.map_cons, List.mem_cons]
    tauto

theorem mapGet_unmarshalPairs (ps : List (String × JDoc)) (k : String) :
    mapGet (unmarshalPairs ps []) k = (lastValue ps k).map unmarshal := by
  rw [unmarshalPairs_eq]
  induction ps using List.reverseRecOn with
  | nil => rfl
  | append_singleton ps e ih =>
    rw [List.foldl_append, List.foldl_cons, List.foldl_nil, mapGet_mapSet, ih]
    unfold lastValue
    rw [List.filter_append]
    by_cases hx : e.1 = k
    · simp [hx, List.filter_cons]
    · simp [hx, List.filter_cons]

/-- C8 (amended): the object decoded from a JSON object has in `Order` every
distinct key of the document exactly once, in the order in which `range`
visits the Go map (any order `m` of its entries), and `Pairs` maps each key to
the decoded value of its last occurrence in the document. -/
theorem C8_object_order_and_pairs (hashItems : List Value → List Nat) (oor : Float64 → Int)
    (ps : List (String × JDoc)) (m : List (String × GoVal))
    (hm : m.Perm (unmarshalPairs ps [])) :
    orderOf (decodeJson hashItems oor (GoVal.map m)) = m.map Prod.fst ∧
    (orderOf (decodeJson hashItems oor (GoVal.map m))).Nodup ∧
    (∀ k, k ∈ orderOf (decodeJson hashItems oor (GoVal.map m)) ↔ k ∈ ps.map Prod.fst) ∧
    (∀ k, mapGet (pairsOf (decodeJson hashItems oor (GoVal.map m))) k =
      (lastValue ps k).map (fun d => decodeJson hashItems oor (unmarshal d))) := by
  have hnd0 : ((unmarshalPairs ps []).map Prod.fst).Nodup := nodup_unmarshalPairs ps [] (by simp)
  have hnd : (m.map Prod.fst).Nodup := (hm.map Prod.fst).nodup_iff.mpr hnd0
  have hord : orderOf (decodeJson hashItems oor (GoVal.map m)) = m.map Prod.fst := by
    simp [decodeJson, orderOf, decodePairs_fst]
  have hmem : ∀ k, k ∈ m.map Prod.fst ↔ k ∈ ps.map Prod.fst := by
    intro k
    rw [(hm.map Prod.fst).mem_iff, mem_unmarshalPairs]
    simp
  refine ⟨hord, hord ▸ hnd, fun k => hord ▸ hmem k, fun k => ?_⟩
  have hp : pairsOf (decodeJson hashItems oor (GoVal.map m)) =
      (decodePairs hashItems oor m [] []).2 := by
    simp [decodeJson, pairsOf]
  rw [hp, decodePairs_snd _ _ _ _ _ hnd, mapGet_perm m _ hm hnd, mapGet_unmarshalPairs]
  by_cases hk : k ∈ m.map Prod.fst
  · simp [hk]
    rfl
  · have : lastValue ps k = none := by
      have hk' : k ∉ ps.map Prod.fst := fun h => hk ((hmem k).mpr h)
      unfold lastValue
      have : ps.filter (fun e => e.1 = k) = [] := by
        rw [List.filter_eq_nil_iff]
        intro e he hek
        exact hk' (List.mem_map.mpr ⟨e, he, by simpa using hek⟩)
      simp [this]
    simp [hk, this, mapGet]

theorem C8_object_order_and_pairs_witness :
    exMap.Perm (unmarshalPairs exDoc []) ∧
    orderOf (decodeJson (fun _ => []) (fun _ => 0) (GoVal.map exMap)) = exMap.map Prod.fst :=
  have h : exMap.Perm (unmarshalPairs exDoc []) := List.Perm.swap _ _ _
  ⟨h, (C8_object_order_and_pairs (fun _ => []) (fun _ => 0) exDoc exMap h).1⟩

/-- C8 (the claim as stated fails): for the document
`{"a":1,"b":[1,2,3],"c":null,"d":2.5}`, when `range` visits the entries of the
decoded Go map in the order `b, a, c, d`, the `Order` of the result is
`["b","a","c","d"]`, not the order of the document. -/
theorem C8_counterexample :
    exMap.Perm (unmarshalPairs exDoc []) ∧
    ∀ (hashItems : List Value → List Nat) (oor : Float64 → Int),
      orderOf (decodeJson hashItems oor (GoVal.map exMap)) = ["b", "a", "c", "d"] ∧
      orderOf (decodeJson hashItems oor (GoVal.map exMap)) ≠ ["a", "b", "c", "d"] := by
  refine ⟨List.Perm.swap _ _ _, fun hashItems oor => ?_⟩
  have h : orderOf (decodeJson hashItems oor (GoVal.map exMap)) = ["b", "a", "c", "d"] := by
    simp [decodeJson, orderOf, decodePairs_fst, exMap]
  rw [h]
  exact ⟨rfl, by decide⟩

/-! ## JSON decoding: numbers -/

theorem bitLenAux_spec (fuel : Nat) : ∀ n, n ≤ fuel →
    n < 2 ^ bitLenAux fuel n ∧ (n ≠ 0 → 2 ^ (bitLenAux fuel n - 1) ≤ n) := by
  induction fuel with
  | zero =>
    intro n hn
    have : n = 0 := by omega
    subst this
    simp [bitLenAux]
  | succ fuel ih =>
    intro n hn
    by_cases h0 : n = 0
    · subst h0
      simp [bitLenAux]
    · rw [bitLenAux, if_neg h0]
      obtain ⟨h1, h2⟩ := ih (n / 2) (by omega)
      refine ⟨?_, fun _ => ?_⟩
      · rw [pow_succ]
        omega
      · simp only [Nat.add_sub_cancel]
        by_cases h3 : n / 2 = 0
        · rw [h3]
          have : bitLenAux fuel 0 = 0 := by cases fuel <;> simp [bitLenAux]
          rw [this]
          simp
          omega
        · have h4 := h2 h3
          have h5 : bitLenAux fuel (n / 2) ≠ 0 := by
            intro hz
            rw [hz] at h1
            simp at h1
            exact h3 h1
          obtain ⟨b, hb⟩ := Nat.exists_eq_succ_of_ne_zero h5
          rw [hb] at h4 ⊢
          simp only [Nat.succ_eq_add_one, Nat.add_sub_cancel] at h4
          rw [pow_succ]
          omega

theorem lt_two_pow_bitLen (n : Nat) : n < 2 ^ bitLen n := (bitLenAux_spec n n (le_refl n)).1

theorem two_pow_bitLen_le (n : Nat) (h : n ≠ 0) : 2 ^ (bitLen n - 1) ≤ n :=
  (bitLenAux_spec n n (le_refl n)).2 h

theorem bitLen_le (n b : Nat) (h : n < 2 ^ b) : bitLen n ≤ b := by
  by_cases h0 : n = 0
  · subst h0
    simp [bitLen, bitLenAux]
  · have h1 := two_pow_bitLen_le n h0
    by_contra hc
    have h2 : 2 ^ b ≤ 2 ^ (bitLen n - 1) := Nat.pow_le_pow_right (by decide) (by omega)
    omega

/-- A number `M * 2 ^ E` with `M` of at most 53 bits is a `float64`: rounding
leaves it as it is. -/
theorem roundMant_exact (M E : Nat) (hM : M < 2 ^ 53) :
    bitLen (M * 2 ^ E) - 53 ≤ E ∧
    roundMant (M * 2 ^ E) = M * 2 ^ E / 2 ^ (bitLen (M * 2 ^ E) - 53) ∧
    M * 2 ^ E / 2 ^ (bitLen (M * 2 ^ E) - 53) < 2 ^ 53 ∧
    M * 2 ^ E / 2 ^ (bitLen (M * 2 ^ E) - 53) * 2 ^ (bitLen (M * 2 ^ E) - 53) = M * 2 ^ E := by
  have hlt : M * 2 ^ E < 2 ^ (53 + E) := by
    rw [pow_add]
    exact Nat.mul_lt_mul_of_lt_of_le hM (le_refl _) (by positivity)
  have hbl : bitLen (M * 2 ^ E) ≤ 53 + E := bitLen_le _ _ hlt
  have hsh : bitLen (M * 2 ^ E) - 53 ≤ E := by omega
  have hdvd : 2 ^ (bitLen (M * 2 ^ E) - 53) ∣ M * 2 ^ E :=
    Dvd.dvd.mul_left (pow_dvd_pow 2 hsh) M
  have hmod : M * 2 ^ E % 2 ^ (bitLen (M * 2 ^ E) - 53) = 0 := Nat.mod_eq_zero_of_dvd hdvd
  have hpos : 0 < 2 ^ (bitLen (M * 2 ^ E) - 53) := by positivity
  refine ⟨hsh, ?_, ?_, Nat.div_mul_cancel hdvd⟩
  · unfold roundMant
    rw [hmod]
    rw [if_neg]
    rintro (h | ⟨h, _⟩) <;> omega
  · rw [Nat.div_lt_iff_lt_mul hpos, ← pow_add]
    have h1 := lt_two_pow_bitLen (M * 2 ^ E)
    have h2 : 2 ^ bitLen (M * 2 ^ E) ≤ 2 ^ (53 + (bitLen (M * 2 ^ E) - 53)) :=
      Nat.pow_le_pow_right (by decide) (by omega)
    omega

theorem toFloat64_exact (i : Int) (M E : Nat) (hM : M < 2 ^ 53) (ha : i.natAbs = M * 2 ^ E) :
    toFloat64 i = ⟨decide (i < 0), i.natAbs / 2 ^ (bitLen i.natAbs - 53),
      ((bitLen i.natAbs - 53 : Nat) : Int)⟩ := by
  obtain ⟨_, h2, h3, _⟩ := roundMant_exact M E hM
  rw [← ha] at h2 h3
  unfold toFloat64
  rw [if_neg (by rw [h2]; omega), h2]

theorem toFloat64_exp_nonneg (i : Int) : 0 ≤ (toFloat64 i).exp := by
  unfold toFloat64
  split
  · simp only [Nat.cast_add, Nat.cast_one]
    omega
  · simp

/-- A `float64` that stands for an integer is what converting that integer to
`float64` gives back. -/
theorem eq_toFloat64_trunc (v : Float64) (hv : v.valid) (hi : v.isInt) :
    v.eq (toFloat64 v.trunc) = true := by
  obtain ⟨neg, mant, exp⟩ := v
  simp only [Float64.valid] at hv
  simp only [Float64.isInt] at hi
  -- the magnitude is `M * 2 ^ E` with `M < 2 ^ 53`
  have key : ∃ M E : Nat, M < 2 ^ 53 ∧ (Float64.mk neg mant exp).truncNat = M * 2 ^ E ∧
      (mant = 0 ↔ (Float64.mk neg mant exp).truncNat = 0) ∧
      ∀ sh : Nat, sh ≤ E →
        mant * 2 ^ (exp - min exp (sh : Int)).toNat =
          M * 2 ^ E / 2 ^ sh * 2 ^ ((sh : Int) - min exp (sh : Int)).toNat := by
    by_cases he : 0 ≤ exp
    · obtain ⟨e, rfl⟩ := Int.eq_ofNat_of_zero_le he
      refine ⟨mant, e, hv, by simp [Float64.truncNat], ?_, fun sh hsh => ?_⟩
      · simp [Float64.truncNat]
      · have h1 : ((e : Int) - min (e : Int) (sh : Int)).toNat = e - sh := by omega
        have h2 : ((sh : Int) - min (e : Int) (sh : Int)).toNat = 0 := by omega
        rw [h1, h2, pow_zero, mul_one]
        have h3 : 2 ^ e = 2 ^ (e - sh) * 2 ^ sh := by rw [← pow_add]; congr 1; omega
        rw [h3, ← mul_assoc, Nat.mul_div_cancel _ (by positivity)]
    · have hmod : mant % 2 ^ (-exp).toNat = 0 := hi.resolve_left he
      have hdvd : 2 ^ (-exp).toNat ∣ mant := Nat.dvd_of_mod_eq_zero hmod
      have hpos : 0 < 2 ^ (-exp).toNat := by positivity
      refine ⟨mant / 2 ^ (-exp).toNat, 0, lt_of_le_of_lt (Nat.div_le_self _ _) hv,
        by simp [Float64.truncNat, he], ?_, fun sh hsh => ?_⟩
      · simp only [Float64.truncNat, he, if_false]
        constructor
        · intro h; rw [h]; simp
        · intro h
          have := Nat.div_mul_cancel hdvd
          rw [h] at this
          omega
      · have hsh0 : sh = 0 := by omega
        subst hsh0
        have h1 : (exp - min exp ((0 : Nat) : Int)).toNat = 0 := by omega
        have h2 : (((0 : Nat) : Int) - min exp ((0 : Nat) : Int)).toNat = (-exp).toNat := by omega
        rw [h1, h2]
        simp only [pow_zero, mul_one, Nat.div_one]
        exact (Nat.div_mul_cancel hdvd).symm
  obtain ⟨M, E, hM, ha, hzero, hscale⟩ := key
  have hnat : (Float64.mk neg mant exp).trunc.natAbs = (Float64.mk neg mant exp).truncNat := by
    unfold Float64.trunc
    split <;> simp
  have hx := toFloat64_exact (Float64.mk neg mant exp).trunc M E hM (by rw [hnat, ha])
  obtain ⟨hsh, _, _, _⟩ := roundMant_exact M E hM
  rw [hx, hnat]
  unfold Float64.eq
  simp only [decide_eq_true_eq]
  by_cases h0 : (Float64.mk neg mant exp).truncNat = 0
  · left
    exact ⟨hzero.mpr h0, by rw [h0]; simp⟩
  · right
    refine ⟨?_, ?_⟩
    · unfold Float64.trunc
      cases neg with
      | false => simp
      | true =>
        simp only [if_true]
        have : (0 : Int) < ((Float64.mk true mant exp).truncNat : Int) := by
          have := Nat.pos_of_ne_zero h0
          exact_mod_cast this
        simp [this]
    · rw [ha]
      exact hscale _ hsh

/-- A `float64` that does not stand for an integer differs from every
converted integer. -/
theorem eq_toFloat64_of_not_isInt (v : Float64) (hi : ¬ v.isInt) (i : Int) :
    v.eq (toFloat64 i) = false := by
  obtain ⟨neg, mant, exp⟩ := v
  simp only [Float64.isInt, not_or, not_le] at hi
  obtain ⟨he, hmod⟩ := hi
  have hw := toFloat64_exp_nonneg i
  generalize toFloat64 i = w at hw
  obtain ⟨neg', mant', exp'⟩ := w
  simp only at hw
  unfold Float64.eq
  simp only [decide_eq_false_iff_not, not_or, not_and]
  refine ⟨fun h => absurd (by rw [h]; simp) hmod, fun _ h => hmod ?_⟩
  have h1 : (exp - min exp exp').toNat = 0 := by omega
  have h2 : (exp' - min exp exp').toNat = (exp' - min exp exp').toNat - (-exp).toNat +
      (-exp).toNat := by omega
  simp only at h
  rw [h1, pow_zero, mul_one, h2, pow_add, ← mul_assoc] at h
  rw [h]
  exact Nat.mul_mod_left _ _

theorem decodeJson_int (hashItems : List Value → List Nat) (oor : Float64 → Int) (v : Float64)
    (hv : v.valid) (hi : v.isInt) (hlo : -(2 : Int) ^ 63 ≤ v.trunc)
    (hhi : v.trunc < (2 : Int) ^ 63) :
    decodeJson hashItems oor (GoVal.float64 v) = Value.Int v.trunc := by
  have h : toInt64 oor v = v.trunc := by
    unfold toInt64
    rw [if_pos ⟨hlo, hhi⟩]
  rw [decodeJson, h, if_pos (eq_toFloat64_trunc v hv hi)]

theorem decodeJson_float (hashItems : List Value → List Nat) (oor : Float64 → Int) (v : Float64)
    (hi : ¬ v.isInt) : decodeJson hashItems oor (GoVal.float64 v) = Value.Float v := by
  rw [decodeJson, if_neg (by rw [eq_toFloat64_of_not_isInt v hi]; simp)]

theorem toFloat64_small (n : Int) (hn : n.natAbs ≤ 2 ^ 53) :
    (toFloat64 n).valid ∧ (toFloat64 n).isInt ∧ (toFloat64 n).trunc = n := by
  have key : ∃ M E : Nat, M < 2 ^ 53 ∧ n.natAbs = M * 2 ^ E := by
    by_cases h : n.natAbs < 2 ^ 53
    · exact ⟨n.natAbs, 0, h, by simp⟩
    · exact ⟨2 ^ 52, 1, by decide, by omega⟩
  obtain ⟨M, E, hM, ha⟩ := key
  have hx := toFloat64_exact n M E hM ha
  obtain ⟨_, _, h3, h4⟩ := roundMant_exact M E hM
  rw [← ha] at h3 h4
  rw [hx]
  refine ⟨h3, Or.inl (by simp), ?_⟩
  unfold Float64.trunc Float64.truncNat
  simp only [Int.toNat_ofNat, Nat.cast_nonneg, if_true, h4, decide_eq_true_eq]
  split <;> omega

/-- C9 (amended): `decodeJson` maps null to `Zero`, a string `s` to
`String{s}`, a boolean `b` to `Bool{b}`, a number whose `float64` stands for an
integer `n` with `-2^63 <= n < 2^63` to `Int{n}`, a number whose `float64` is
not an integer to `Float`, and an array to an `Array` whose `Items` are the
decoded elements in order.  An integer written in the document with magnitude
at most `2^53` is read exactly and decodes to `Int` of itself. -/
theorem C9_decodeJson_mapping (hashItems : List Value → List Nat) (oor : Float64 → Int) :
    decodeJson hashItems oor GoVal.nil = Value.Zero ∧
    (∀ s, decodeJson hashItems oor (GoVal.string s) = Value.String s) ∧
    (∀ b, decodeJson hashItems oor (GoVal.bool b) = Value.Bool b) ∧
    (∀ v : Float64, v.valid → v.isInt → -(2 : Int) ^ 63 ≤ v.trunc → v.trunc < (2 : Int) ^ 63 →
      decodeJson hashItems oor (GoVal.float64 v) = Value.Int v.trunc) ∧
    (∀ v : Float64, ¬ v.isInt → decodeJson hashItems oor (GoVal.float64 v) = Value.Float v) ∧
    (∀ l : List GoVal, decodeJson hashItems oor (GoVal.slice l) =
      Value.Array (hashItems (l.map (decodeJson hashItems oor)))
        (l.map (decodeJson hashItems oor))) ∧
    (∀ n : Int, n.natAbs ≤ 2 ^ 53 →
      decodeJson hashItems oor (GoVal.float64 (toFloat64 n)) = Value.Int n) := by
  refine ⟨by rw [decodeJson], fun s => by rw [decodeJson], fun b => by rw [decodeJson],
    decodeJson_int hashItems oor, decodeJson_float hashItems oor, fun l => ?_, fun n hn => ?_⟩
  · rw [decodeJson, decodeItems_eq]
    simp
  · obtain ⟨h1, h2, h3⟩ := toFloat64_small n hn
    have := decodeJson_int hashItems oor (toFloat64 n) h1 h2 (by rw [h3]; omega)
      (by rw [h3]; omega)
    rw [this, h3]

theorem C9_decodeJson_mapping_witness :
    (Float64.mk false 3 0).valid ∧ (Float64.mk false 3 0).isInt ∧
    decodeJson (fun _ => []) (fun _ => 0) (GoVal.float64 ⟨false, 3, 0⟩) =
      Value.Int (Float64.mk false 3 0).trunc :=
  ⟨by unfold Float64.valid; decide, Or.inl (by decide),
    (C9_decodeJson_mapping (fun _ => []) (fun _ => 0)).2.2.2.1 ⟨false, 3, 0⟩
      (by unfold Float64.valid; decide) (Or.inl (by decide)) (by decide) (by decide)⟩

/-- C9 (the claim as stated fails): the integer 9007199254740993 fits a 64-bit
signed integer, yet it decodes to `Int{9007199254740992}`: `encoding/json`
reads a number as the nearest `float64`, which is `2^53`. -/
theorem C9_counterexample :
    toFloat64 9007199254740993 = ⟨false, 2 ^ 52, 1⟩ ∧
    (-(2 : Int) ^ 63 ≤ 9007199254740993 ∧ (9007199254740993 : Int) < 2 ^ 63) ∧
    ∀ (hashItems : List Value → List Nat) (oor : Float64 → Int),
      decodeJson hashItems oor (GoVal.float64 (toFloat64 9007199254740993)) =
        Value.Int 9007199254740992 ∧
      Value.Int 9007199254740992 ≠ Value.Int 9007199254740993 := by
  refine ⟨by decide, by decide, fun hashItems oor => ⟨?_, by simp⟩⟩
  have h : toFloat64 9007199254740993 = ⟨false, 2 ^ 52, 1⟩ := by decide
  rw [h, decodeJson_int hashItems oor ⟨false, 2 ^ 52, 1⟩ (by unfold Float64.valid; decide)
    (Or.inl (by decide)) (by decide) (by decide)]
  rfl


/-! ## The parser on the phrases of the grammar: operands -/

theorem posOf_append (b r : List Item) (h : tokOf b ≠ Token.EOF) : posOf (b ++ r) = posOf b := by
  cases b with
  | nil => exact absurd rfl h
  | cons i b => rfl

theorem list_ext {α : Type} (sep fin : Token) (f g : α → parser → Option (α × parser))
    (hfg : ∀ a p r, f a p = some r → g a p = some r) (n : Nat) :
    ∀ a p r, parser.list sep fin f n a p = some r → parser.list sep fin g n a p = some r := by
  induction n with
  | zero => intro a p r h; simp [parser.list] at h
  | succ n ih =>
    intro a p r h
    rw [parser.list] at h ⊢
    split
    · rename_i hc
      rw [if_pos hc] at h
      cases hx : f a p with
      | none => simp [hx] at h
      | some x =>
        obtain ⟨b, q⟩ := x
        simp only [hx, hfg _ _ _ hx] at h ⊢
        split
        · rename_i hd; rw [if_pos hd] at h; exact ih _ _ _ h
        · rename_i hd; rw [if_neg hd] at h; exact ih _ _ _ h
    · rename_i hc; rw [if_neg hc] at h; exact h

theorem objList_mono (acc : List Node) (p : parser) (n : Nat) (r : List Node × parser)
    (h : parser.list Token.Comma Token.Rbrace (fun a q => parser.objItem n a q) n acc p = some r) :
    parser.list Token.Comma Token.Rbrace (fun a q => parser.objItem (n + 1) a q) (n + 1) acc p =
      some r :=
  list_mono _ _ _ _ (fun a q r h => (monoAt n).objItem a q r h) n acc p r h

theorem objItem_le (n m : Nat) (h : n ≤ m) (a : List Node) (p : parser)
    (r : List Node × parser) (hr : parser.objItem n a p = some r) :
    parser.objItem m a p = some r :=
  mono_le (fun k => parser.objItem k a p) (fun k r => (monoAt k).objItem a p r) n m r h hr

/-- The loop of `list` for an object, with the closure at one fuel and the
loop at a smaller one. -/
theorem objList_le (acc : List Node) (p : parser) (n m : Nat) (h : n ≤ m)
    (r : List Node × parser)
    (hr : parser.list Token.Comma Token.Rbrace (fun a q => parser.objItem n a q) n acc p =
      some r) :
    parser.list Token.Comma Token.Rbrace (fun a q => parser.objItem (m + 1) a q) m acc p =
      some r := by
  have h1 := mono_le
    (fun k => parser.list Token.Comma Token.Rbrace (fun a q => parser.objItem k a q) k acc p)
    (fun k r => objList_mono acc p k r) n m r h hr
  exact list_ext _ _ _ _ (fun a q r h => (monoAt m).objItem a q r h) m acc p r h1

theorem dotsNil_ok : Contract Cat.dots [] := by
  refine ⟨Or.inl rfl, fun left => ⟨Node.Ref left, fun i R c s hi => ⟨1, ?_⟩⟩⟩
  simp only [List.nil_append, parser.refLoop, tok_cons]
  split
  · exact absurd ‹_› hi.1
  · exact absurd ‹_› hi.2
  · rfl

theorem dotsCons_ok (d n : Item) (ts : List Item) (hd : d.tok = Token.Dot)
    (hn : n.tok = Token.Name) (ih : Contract Cat.dots ts) : Contract Cat.dots (d :: n :: ts) := by
  refine ⟨Or.inr hd, fun left => ?_⟩
  obtain ⟨nd, hnd⟩ := ih.2 (Node.DotExpr d.pos left (Node.Ident n.pos n.lit))
  refine ⟨nd, fun i R c s hi => ?_⟩
  obtain ⟨k, hk⟩ := hnd i R c s hi
  refine ⟨k + 1, ?_⟩
  simp only [List.cons_append, parser.refLoop, tok_cons, hd, pos_cons,
    next_cons _ _ _ _ (show d.tok ≠ Token.EOF by rw [hd]; decide), hn,
    ident_cons _ _ _ _ hn]
  simpa using hk

theorem ref_ok (r n : Item) (ts : List Item) (hr : r.tok = Token.Ref)
    (hn : n.tok = Token.Name) (ih : Contract Cat.dots ts) : Contract Cat.ref (r :: n :: ts) := by
  refine ⟨hr, ?_⟩
  obtain ⟨nd, hnd⟩ := ih.2 (Node.Ident n.pos n.lit)
  refine ⟨nd, fun i R c s hi => ?_⟩
  obtain ⟨k, hk⟩ := hnd i R c s hi
  refine ⟨k + 1, ?_⟩
  simp only [List.cons_append, parser.ref, tok_cons, hr, got_cons _ _ _ _ _ hr (by decide),
    ident_cons _ _ _ _ hn]
  simpa using hk

theorem arrItem_lit (acc : List Node) (l : Item) (ts : List Item) (c : Nat)
    (s : List (Pos × Msg)) (hl : l.tok = Token.Literal) :
    parser.arrItem acc ⟨l :: ts, c, s⟩ = some (acc ++ [Node.Lit l.pos l.typ l.lit], ⟨ts, c, s⟩) := by
  simp [parser.arrItem, hl, literal_cons _ _ _ _ hl]

theorem list_end {α : Type} (sep fin : Token) (f : α → parser → Option (α × parser))
    (acc : α) (e : Item) (R : List Item) (c : Nat) (s : List (Pos × Msg)) (he : e.tok = fin)
    (hfin : fin ≠ Token.EOF) (k : Nat) :
    parser.list sep fin f (k + 1) acc ⟨e :: R, c, s⟩ = some (acc, ⟨R, c, s⟩) := by
  rw [parser.list, if_neg (by simp [he]), want_cons _ _ _ _ _ he hfin]

theorem litsOne_ok (l : Item) (hl : l.tok = Token.Literal) : Contract Cat.lits [l] := by
  refine ⟨hl, fun acc => ⟨acc ++ [Node.Lit l.pos l.typ l.lit], fun rb R c s hrb => ⟨2, ?_⟩⟩⟩
  show parser.list Token.Comma Token.Rbrack parser.arrItem 2 acc ⟨l :: rb :: R, c, s⟩ = _
  rw [parser.list, if_pos (by simp [hl]), arrItem_lit _ _ _ _ _ hl]
  simp only
  rw [got_ne _ _ (by simp [hrb]), if_neg (by simp [hrb])]
  exact list_end _ _ _ _ _ _ _ _ hrb (by decide) 0

theorem litsCons_ok (l cm : Item) (ts : List Item) (hl : l.tok = Token.Literal)
    (hc : cm.tok = Token.Comma) (ih : Contract Cat.lits ts) :
    Contract Cat.lits (l :: cm :: ts) := by
  refine ⟨hl, fun acc => ?_⟩
  obtain ⟨acc', h⟩ := ih.2 (acc ++ [Node.Lit l.pos l.typ l.lit])
  refine ⟨acc', fun rb R c s hrb => ?_⟩
  obtain ⟨k, hk⟩ := h rb R c s hrb
  refine ⟨k + 1, ?_⟩
  show parser.list Token.Comma Token.Rbrack parser.arrItem (k + 1) acc
    ⟨l :: cm :: (ts ++ rb :: R), c, s⟩ = _
  rw [parser.list, if_pos (by simp [hl]), arrItem_lit _ _ _ _ _ hl]
  simp only
  rw [got_cons _ _ _ _ _ hc (by decide), if_neg (by simp)]
  exact hk

theorem arrayEmpty_ok (lb rb : Item) (hlb : lb.tok = Token.Lbrack) (hrb : rb.tok = Token.Rbrack) :
    Contract Cat.array [lb, rb] := by
  refine ⟨hlb, Node.Array rb.pos [], fun R c s => ⟨1, ?_⟩⟩
  show parser.arr 1 ⟨lb :: rb :: R, c, s⟩ = _
  rw [parser.arr, want_cons _ _ _ _ _ hlb (by decide),
    list_end _ _ _ _ _ _ _ _ hrb (by decide) 0]
  rfl

theorem array_ok (lb rb : Item) (ts : List Item) (hlb : lb.tok = Token.Lbrack)
    (hrb : rb.tok = Token.Rbrack) (ih : Contract Cat.lits ts) :
    Contract Cat.array (lb :: (ts ++ [rb])) := by
  obtain ⟨acc', h⟩ := ih.2 []
  refine ⟨hlb, Node.Array (posOf ts) acc', fun R c s => ?_⟩
  obtain ⟨k, hk⟩ := h rb R c s hrb
  refine ⟨k, ?_⟩
  show parser.arr k ⟨lb :: ((ts ++ [rb]) ++ R), c, s⟩ = _
  rw [parser.arr, want_cons _ _ _ _ _ hlb (by decide), List.append_assoc, List.singleton_append]
  simp only at hk
  rw [hk]
  simp only [pos_mk]
  rw [posOf_append _ _ (by rw [ih.1]; decide)]

theorem opLit_ok (l : Item) (hl : l.tok = Token.Literal) : Contract Cat.operand [l] := by
  refine ⟨Or.inl hl, Node.Lit l.pos l.typ l.lit, fun i R c s _ => ⟨1, ?_⟩⟩
  simp [parser.operand, hl, literal_cons _ _ _ _ hl]

theorem opRef_ok (ts : List Item) (ih : Contract Cat.ref ts) : Contract Cat.operand ts := by
  obtain ⟨ht, n, h⟩ := ih
  refine ⟨Or.inr (Or.inl ht), n, fun i R c s hi => ?_⟩
  obtain ⟨k, hk⟩ := h i R c s (hi ht)
  refine ⟨k + 1, ?_⟩
  have : tokOf (ts ++ i :: R) = Token.Ref := by rw [tokOf_append _ _ (by rw [ht]; decide), ht]
  simp only [parser.operand, tok_mk, this]
  exact hk

theorem opObj_ok (ts : List Item) (ih : Contract Cat.object ts) : Contract Cat.operand ts := by
  obtain ⟨ht, n, h⟩ := ih
  refine ⟨Or.inr (Or.inr (Or.inl ht)), n, fun i R c s _ => ?_⟩
  obtain ⟨k, hk⟩ := h (i :: R) c s
  refine ⟨k + 1, ?_⟩
  have : tokOf (ts ++ i :: R) = Token.Lbrace := by
    rw [tokOf_append _ _ (by rw [ht]; decide), ht]
  simp only [parser.operand, tok_mk, this]
  exact hk

theorem opArr_ok (ts : List Item) (ih : Contract Cat.array ts) : Contract Cat.operand ts := by
  obtain ⟨ht, n, h⟩ := ih
  refine ⟨Or.inr (Or.inr (Or.inr ht)), n, fun i R c s _ => ?_⟩
  obtain ⟨k, hk⟩ := h (i :: R) c s
  refine ⟨k + 1, ?_⟩
  have : tokOf (ts ++ i :: R) = Token.Lbrack := by
    rw [tokOf_append _ _ (by rw [ht]; decide), ht]
  simp only [parser.operand, tok_mk, this]
  exact hk

theorem operand_ne_eof (ts : List Item) (ih : Contract Cat.operand ts) :
    tokOf ts ≠ Token.EOF := by
  rcases ih.1 with h | h | h | h <;> rw [h] <;> decide

theorem yieldS_ok (y : Item) (x : List Item) (hy : y.tok = Token.Yield)
    (ih : Contract Cat.operand x) : Contract Cat.yieldS (y :: x) := by
  obtain ⟨n, h⟩ := ih.2
  refine ⟨hy, Node.YieldStmt (posOf x) n, fun i R c s hi => ?_⟩
  obtain ⟨k, hk⟩ := h i R c s (fun _ => hi)
  refine ⟨k + 1, ?_⟩
  simp only [List.cons_append, parser.yield, got_cons _ _ _ _ _ hy (by decide)]
  simp only at hk
  rw [hk]
  simp [pos_mk, posOf_append _ _ (operand_ne_eof x ih)]

/-- One member `k : x` of an object, read by the closure of `obj`. -/
theorem objItem_ok (k cl : Item) (x : List Item) (hk : k.tok = Token.Name)
    (hc : cl.tok = Token.Colon) (ih : Contract Cat.operand x) :
    ∃ val, ∀ (acc : List Node) (i : Item) (R : List Item) (c : Nat) (s : List (Pos × Msg)),
      (i.tok = Token.Comma ∨ i.tok = Token.Rbrace) →
      Ret (fun n => parser.objItem n acc ⟨k :: cl :: (x ++ i :: R), c, s⟩)
        (acc ++ [Node.KeyExpr i.pos (Node.Ident k.pos k.lit) val], ⟨i :: R, c, s⟩) := by
  obtain ⟨val, h⟩ := ih.2
  refine ⟨val, fun acc i R c s hi => ?_⟩
  have hacc : NoAcc i := by
    rcases hi with h | h <;> exact ⟨by rw [h]; decide, by rw [h]; decide⟩
  obtain ⟨n, hn⟩ := h i R c s (fun _ => hacc)
  refine ⟨n + 1, ?_⟩
  simp only [parser.objItem, tok_cons, hk, ident_cons _ _ _ _ hk,
    want_cons _ _ _ _ _ hc (by decide)]
  simp only at hn
  rw [if_neg (by simp), hn]
  rfl

theorem pairsOne_ok (k cl : Item) (x : List Item) (hk : k.tok = Token.Name)
    (hc : cl.tok = Token.Colon) (ih : Contract Cat.operand x) :
    Contract Cat.pairs (k :: cl :: x) := by
  obtain ⟨val, h⟩ := objItem_ok k cl x hk hc ih
  refine ⟨hk, fun acc rb hrb => ⟨acc ++ [Node.KeyExpr rb.pos (Node.Ident k.pos k.lit) val],
    fun R c s => ?_⟩⟩
  obtain ⟨n, hn⟩ := h acc rb R c s (Or.inr hrb)
  refine ⟨n + 2, ?_⟩
  show parser.list Token.Comma Token.Rbrace (fun a q => parser.objItem (n + 2) a q) (n + 2) acc
    ⟨k :: cl :: (x ++ rb :: R), c, s⟩ = _
  rw [parser.list, if_pos (by simp [hk])]
  rw [objItem_le n (n + 2) (by omega) _ _ _ hn]
  simp only
  rw [got_ne _ _ (by simp [hrb]), if_neg (by simp [hrb])]
  exact list_end _ _ _ _ _ _ _ _ hrb (by decide) n

theorem pairsCons_ok (k cl cm : Item) (x ts : List Item) (hk : k.tok = Token.Name)
    (hc : cl.tok = Token.Colon) (ihx : Contract Cat.operand x) (hcm : cm.tok = Token.Comma)
    (ih : Contract Cat.pairs ts) : Contract Cat.pairs (k :: cl :: (x ++ cm :: ts)) := by
  obtain ⟨val, h⟩ := objItem_ok k cl x hk hc ihx
  refine ⟨hk, fun acc rb hrb => ?_⟩
  obtain ⟨acc', h'⟩ := ih.2 (acc ++ [Node.KeyExpr cm.pos (Node.Ident k.pos k.lit) val]) rb hrb
  refine ⟨acc', fun R c s => ?_⟩
  obtain ⟨n, hn⟩ := h acc cm (ts ++ rb :: R) c s (Or.inl hcm)
  obtain ⟨m, hm⟩ := h' R c s
  refine ⟨max n m + 1, ?_⟩
  show parser.list Token.Comma Token.Rbrace (fun a q => parser.objItem (max n m + 1) a q)
    (max n m + 1) acc ⟨k :: cl :: ((x ++ cm :: ts) ++ rb :: R), c, s⟩ = _
  rw [List.append_assoc, List.cons_append, parser.list, if_pos (by simp [hk])]
  rw [objItem_le n (max n m + 1) (by omega) _ _ _ hn]
  simp only
  rw [got_cons _ _ _ _ _ hcm (by decide), if_neg (by simp)]
  exact objList_le _ _ m (max n m) (le_max_right _ _) _ hm

theorem objectEmpty_ok (lb rb : Item) (hlb : lb.tok = Token.Lbrace)
    (hrb : rb.tok = Token.Rbrace) : Contract Cat.object [lb, rb] := by
  refine ⟨hlb, Node.Object rb.pos [], fun R c s => ⟨2, ?_⟩⟩
  show parser.obj 2 ⟨lb :: rb :: R, c, s⟩ = _
  rw [parser.obj, want_cons _ _ _ _ _ hlb (by decide),
    list_end _ _ _ _ _ _ _ _ hrb (by decide) 0]
  rfl

theorem object_ok (lb rb : Item) (ts : List Item) (hlb : lb.tok = Token.Lbrace)
    (hrb : rb.tok = Token.Rbrace) (ih : Contract Cat.pairs ts) :
    Contract Cat.object (lb :: (ts ++ [rb])) := by
  obtain ⟨acc', h⟩ := ih.2 [] rb hrb
  refine ⟨hlb, Node.Object (posOf ts) acc', fun R c s => ?_⟩
  obtain ⟨k, hk⟩ := h R c s
  refine ⟨k + 1, ?_⟩
  show parser.obj (k + 1) ⟨lb :: ((ts ++ [rb]) ++ R), c, s⟩ = _
  rw [parser.obj, want_cons _ _ _ _ _ hlb (by decide), List.append_assoc, List.singleton_append]
  simp only at hk
  rw [hk]
  simp only [pos_mk]
  rw [posOf_append _ _ (by rw [ih.1]; decide)]

/-! ## The parser on the phrases of the grammar: commands and statements -/

theorem posOf_append_cons (ts : List Item) (i : Item) (R : List Item) :
    posOf (ts ++ i :: R) = posOf (ts ++ [i]) := by
  cases ts <;> rfl

theorem term_not_arrow (i : Item) (hi : Term i) : i.tok ≠ Token.Arrow := by
  rcases hi with h | h <;> rw [h] <;> decide

theorem term_noAcc (i : Item) (hi : Term i) : NoAcc i := by
  rcases hi with h | h <;> exact ⟨by rw [h]; decide, by rw [h]; decide⟩

theorem commandLoop_stop (acc : List Node) (i : Item) (R : List Item) (c : Nat)
    (s : List (Pos × Msg))
    (hi : i.tok = Token.Arrow ∨ i.tok = Token.Semi ∨ i.tok = Token.EOF) (k : Nat) :
    parser.commandLoop (k + 1) acc ⟨i :: R, c, s⟩ = some (acc, ⟨i :: R, c, s⟩) := by
  rw [parser.commandLoop, if_neg]
  rcases hi with h | h | h <;> simp [h]

theorem chainLoop_stop (acc : List Node) (i : Item) (R : List Item) (c : Nat)
    (s : List (Pos × Msg)) (hi : Term i) (k : Nat) :
    parser.chainLoop (k + 1) acc ⟨i :: R, c, s⟩ = some (acc, ⟨i :: R, c, s⟩) := by
  rw [parser.chainLoop, if_neg]
  rcases hi with h | h <;> simp [h]

/-- A command whose arguments the loop of `command` reads: `command` returns
the `CommandStmt`. -/
theorem command_of_loop (name : String) (ts : List Item) (i : Item) (acc' : List Node)
    (q : List Item) (R : List Item) (c : Nat) (s : List (Pos × Msg))
    (h : Ret (fun k => parser.commandLoop k [] ⟨ts ++ i :: R, c, s⟩) (acc', ⟨q, c, s⟩)) :
    Ret (fun k => parser.command k name ⟨ts ++ i :: R, c, s⟩)
      (Node.CommandStmt (posOf (ts ++ [i])) name acc', ⟨q, c, s⟩) := by
  obtain ⟨k, hk⟩ := h
  refine ⟨k + 1, ?_⟩
  simp only at hk
  show parser.command (k + 1) name _ = _
  rw [parser.command, hk]
  simp only [pos_mk, posOf_append_cons ts i R]

theorem chain_of_tail (j : Item) (ts : List Item) (i : Item) (hj : j.tok = Token.Name)
    (hi : Term i) (h : TailC ts i) : ChainC j ts i := by
  intro acc
  obtain ⟨acc1, h1⟩ := h []
  have hjE : j.tok ≠ Token.EOF := by rw [hj]; decide
  rcases h1 with h1 | ⟨a, j', ys, ha, hj', hch, h1⟩
  · refine ⟨acc ++ [Node.CommandStmt (posOf (ts ++ [i])) j.lit acc1], fun R c s => ?_⟩
    obtain ⟨k, hk⟩ := command_of_loop j.lit ts i acc1 (i :: R) R c s (h1 R c s)
    refine ⟨k + 2, ?_⟩
    simp only at hk
    have hk' := (monoAt k).command _ _ _ hk
    show parser.chainLoop (k + 2) acc ⟨j :: (ts ++ i :: R), c, s⟩ = _
    rw [parser.chainLoop, if_pos (by simp [hj]), if_neg (by simp [hj]), ident_cons _ _ _ _ hj]
    simp only [lit_cons]
    rw [hk']
    simp only
    rw [got_ne _ _ (by simpa using term_not_arrow i hi), if_neg]
    · exact chainLoop_stop _ _ _ _ _ hi k
    · rcases hi with h | h <;> simp [h]
  · obtain ⟨acc2, h2⟩ := hch (acc ++ [Node.CommandStmt (posOf (ts ++ [i])) j.lit acc1])
    refine ⟨acc2, fun R c s => ?_⟩
    obtain ⟨k, hk1, hk2⟩ := ret_both _ _
      (fun n r => (monoAt n).command j.lit ⟨ts ++ i :: R, c, s⟩ r)
      (fun n r => (monoAt n).chainLoop _ ⟨j' :: (ys ++ i :: R), c, s⟩ r) _ _
      (command_of_loop j.lit ts i acc1 (a :: j' :: (ys ++ i :: R)) R c s (h1 R c s))
      (h2 R c s)
    refine ⟨k + 1, ?_⟩
    show parser.chainLoop (k + 1) acc ⟨j :: (ts ++ i :: R), c, s⟩ = _
    rw [parser.chainLoop, if_pos (by simp [hj]), if_neg (by simp [hj]), ident_cons _ _ _ _ hj]
    simp only [lit_cons]
    rw [hk1]
    simp only
    rw [got_cons _ _ _ _ _ ha (by decide), if_neg (by simp)]
    exact hk2

/-- A name followed by a tail: `expr` reads the command, and the chain after
it if there is one, up to the terminator. -/
theorem expr_of_tail (j : Item) (ts : List Item) (i : Item) (hj : j.tok = Token.Name)
    (hi : Term i) (h : TailC ts i) :
    ∃ n, ∀ R c s, Ret (fun k => parser.expr k ⟨j :: (ts ++ i :: R), c, s⟩)
      (n, ⟨i :: R, c, s⟩) := by
  obtain ⟨acc1, h1⟩ := h []
  rcases h1 with h1 | ⟨a, j', ys, ha, hj', hch, h1⟩
  · refine ⟨Node.CommandStmt (posOf (ts ++ [i])) j.lit acc1, fun R c s => ?_⟩
    obtain ⟨k, hk⟩ := command_of_loop j.lit ts i acc1 (i :: R) R c s (h1 R c s)
    refine ⟨k + 1, ?_⟩
    simp only at hk
    show parser.expr (k + 1) ⟨j :: (ts ++ i :: R), c, s⟩ = _
    rw [parser.expr]
    simp only [tok_cons, hj, ident_cons _ _ _ _ hj, lit_cons]
    rw [hk]
    simp only
    rw [got_ne _ _ (by simpa using term_not_arrow i hi)]
    simp
  · obtain ⟨acc2, h2⟩ := hch [Node.CommandStmt (posOf (ts ++ [i])) j.lit acc1]
    refine ⟨Node.ChainStmt acc2, fun R c s => ?_⟩
    obtain ⟨k, hk1, hk2⟩ := ret_both _ _
      (fun n r => (monoAt n).command j.lit ⟨ts ++ i :: R, c, s⟩ r)
      (fun n r => (monoAt n).chainLoop _ ⟨j' :: (ys ++ i :: R), c, s⟩ r) _ _
      (command_of_loop j.lit ts i acc1 (a :: j' :: (ys ++ i :: R)) R c s (h1 R c s))
      (h2 R c s)
    have hk1' := (monoAt k).command _ _ _ hk1
    refine ⟨k + 2, ?_⟩
    show parser.expr (k + 2) ⟨j :: (ts ++ i :: R), c, s⟩ = _
    rw [parser.expr]
    simp only [tok_cons, hj, ident_cons _ _ _ _ hj, lit_cons]
    rw [hk1']
    simp only
    rw [got_cons _ _ _ _ _ ha (by decide), if_pos rfl, parser.chain, hk2]

theorem stmtBody_eq_expr (k : Nat) (j : Item) (ts : List Item) (c : Nat) (s : List (Pos × Msg))
    (hj : j.tok = Token.Name) (hts : tokOf ts ≠ Token.Assign) :
    parser.stmtBody (k + 1) ⟨j :: ts, c, s⟩ = parser.expr (k + 1) ⟨j :: ts, c, s⟩ := by
  rw [parser.stmtBody, parser.expr]
  simp only [tok_cons, hj, ident_cons _ _ _ _ hj, lit_cons]
  rw [if_neg (by rw [tok_mk]; exact hts)]

theorem tailNil_ok (b : Bool) : Contract (Cat.tail b) [] := by
  refine ⟨Or.inl rfl, fun i hi acc => ⟨acc, Or.inl fun R c s => ⟨1, ?_⟩⟩⟩
  exact commandLoop_stop _ _ _ _ _ (Or.inr hi) 0

theorem tailName_ok (b : Bool) (j : Item) (ts : List Item) (hj : j.tok = Token.Name)
    (ih : Contract (Cat.tail b) ts) : Contract (Cat.tail b) (j :: ts) := by
  refine ⟨Or.inr (Or.inl hj), fun i hi acc => ?_⟩
  obtain ⟨n, hn⟩ := expr_of_tail j ts i hj hi (ih.2 i hi)
  refine ⟨acc ++ [n], Or.inl fun R c s => ?_⟩
  obtain ⟨k, hk⟩ := hn R c s
  refine ⟨k + 1, ?_⟩
  simp only at hk
  show parser.commandLoop (k + 1) acc ⟨j :: (ts ++ i :: R), c, s⟩ = _
  rw [parser.commandLoop, if_pos (by simp [hj]), hk]
  simp only
  cases k with
  | zero => simp [parser.expr] at hk
  | succ k => exact commandLoop_stop _ _ _ _ _ (Or.inr hi) k

theorem tailArrow_ok (a j : Item) (ts : List Item) (ha : a.tok = Token.Arrow)
    (hj : j.tok = Token.Name) (ih : Contract (Cat.tail true) ts) :
    Contract (Cat.tail true) (a :: j :: ts) := by
  refine ⟨Or.inr (Or.inr (Or.inl ha)), fun i hi acc => ?_⟩
  refine ⟨acc, Or.inr ⟨a, j, ts, ha, hj, chain_of_tail j ts i hj hi (ih.2 i hi),
    fun R c s => ⟨1, ?_⟩⟩⟩
  exact commandLoop_stop _ _ _ _ _ (Or.inl ha) 0

/-- The loop of `command` goes on after an argument that `expr` reads. -/
theorem tail_after (x ts : List Item) (b : Bool) (n : Node) (i : Item) (hi : Term i)
    (hx : tokOf x ≠ Token.Arrow ∧ tokOf x ≠ Token.Semi ∧ tokOf x ≠ Token.EOF)
    (hn : ∀ R c s, Ret (fun k => parser.expr k ⟨x ++ (ts ++ i :: R), c, s⟩)
      (n, ⟨ts ++ i :: R, c, s⟩))
    (ih : Contract (Cat.tail b) ts) : TailC (x ++ ts) i := by
  intro acc
  obtain ⟨acc', h⟩ := ih.2 i hi (acc ++ [n])
  have step : ∀ (q : List Item) (R : List Item) (c : Nat) (s : List (Pos × Msg)),
      Ret (fun k => parser.commandLoop k (acc ++ [n]) ⟨ts ++ i :: R, c, s⟩) (acc', ⟨q, c, s⟩) →
      Ret (fun k => parser.commandLoop k acc ⟨(x ++ ts) ++ i :: R, c, s⟩) (acc', ⟨q, c, s⟩) := by
    intro q R c s hq
    obtain ⟨k, hk1, hk2⟩ := ret_both _ _
      (fun n r => (monoAt n).expr ⟨x ++ (ts ++ i :: R), c, s⟩ r)
      (fun n r => (monoAt n).commandLoop _ ⟨ts ++ i :: R, c, s⟩ r) _ _ (hn R c s) hq
    refine ⟨k + 1, ?_⟩
    show parser.commandLoop (k + 1) acc ⟨(x ++ ts) ++ i :: R, c, s⟩ = _
    rw [List.append_assoc, parser.commandLoop, if_pos, hk1]
    · exact hk2
    · rw [tok_mk, tokOf_append _ _ hx.2.2]
      exact hx
  refine ⟨acc', ?_⟩
  rcases h with h | ⟨a, j, ys, ha, hj, hch, h⟩
  · exact Or.inl fun R c s => step _ R c s (h R c s)
  · exact Or.inr ⟨a, j, ys, ha, hj, hch, fun R c s => step _ R c s (h R c s)⟩

theorem startOK_cons_follow (ts : List Item) (i : Item) (R : List Item) (h : StartOK ts)
    (hi : Term i) :
    ∃ i' R', ts ++ i :: R = i' :: R' ∧ i'.tok ≠ Token.Dot ∧ i'.tok ≠ Token.Assign ∧
      (tokOf ts ≠ Token.Lbrack → i'.tok ≠ Token.Lbrack) := by
  cases ts with
  | nil =>
    refine ⟨i, R, rfl, ?_, ?_, fun _ => ?_⟩ <;> rcases hi with h | h <;> rw [h] <;> decide
  | cons t ts =>
    refine ⟨t, ts ++ i :: R, rfl, ?_, ?_, fun h' => h'⟩
    · rcases h with h | h | h | h | h | h | h | h
      · exact absurd h (by simp)
      all_goals (rw [tokOf_cons] at h; rw [h]; decide)
    · rcases h with h | h | h | h | h | h | h | h
      · exact absurd h (by simp)
      all_goals (rw [tokOf_cons] at h; rw [h]; decide)

theorem tailMatch_ok (b : Bool) (m ts : List Item) (ihm : Contract Cat.matchS m)
    (ih : Contract (Cat.tail b) ts) : Contract (Cat.tail b) (m ++ ts) := by
  obtain ⟨hm, n, hn⟩ := ihm
  have hmE : tokOf m ≠ Token.EOF := by rw [hm]; decide
  refine ⟨Or.inr (Or.inr (Or.inr (Or.inl (by rw [tokOf_append _ _ hmE, hm])))), fun i hi => ?_⟩
  refine tail_after m ts b n i hi (by rw [hm]; exact ⟨by decide, by decide, by decide⟩)
    (fun R c s => ?_) ih
  obtain ⟨k, hk⟩ := hn (ts ++ i :: R) c s
  refine ⟨k + 1, ?_⟩
  simp only at hk
  show parser.expr (k + 1) _ = _
  rw [parser.expr]
  simp only [tok_mk, tokOf_append _ _ hmE, hm]
  exact hk

theorem expr_operand (x : List Item) (R : List Item) (c : Nat) (s : List (Pos × Msg)) (k : Nat)
    (hx : tokOf x = Token.Literal ∨ tokOf x = Token.Ref ∨ tokOf x = Token.Lbrace ∨
      tokOf x = Token.Lbrack) :
    parser.expr (k + 1) ⟨x ++ R, c, s⟩ = parser.operand k ⟨x ++ R, c, s⟩ := by
  have hE : tokOf x ≠ Token.EOF := by rcases hx with h | h | h | h <;> rw [h] <;> decide
  rw [parser.expr]
  simp only [tok_mk, tokOf_append _ _ hE]
  rcases hx with h | h | h | h <;> simp only [h]

theorem tailOperand_ok (b : Bool) (x ts : List Item) (ihx : Contract Cat.operand x)
    (hfollow : tokOf x = Token.Ref → tokOf ts ≠ Token.Lbrack)
    (ih : Contract (Cat.tail b) ts) : Contract (Cat.tail b) (x ++ ts) := by
  obtain ⟨hx, n, hn⟩ := ihx
  have hxE : tokOf x ≠ Token.EOF := by rcases hx with h | h | h | h <;> rw [h] <;> decide
  have hstart : StartOK (x ++ ts) := by
    rw [StartOK, tokOf_append _ _ hxE]
    rcases hx with h | h | h | h <;> simp [h]
  refine ⟨hstart, fun i hi => ?_⟩
  refine tail_after x ts b n i hi
    (by rcases hx with h | h | h | h <;> rw [h] <;> exact ⟨by decide, by decide, by decide⟩)
    (fun R c s => ?_) ih
  obtain ⟨i', R', hR, h1, _, h3⟩ := startOK_cons_follow ts i R ih.1 hi
  rw [hR]
  obtain ⟨k, hk⟩ := hn i' R' c s (fun hr => ⟨h1, h3 (hfollow hr)⟩)
  refine ⟨k + 1, ?_⟩
  simp only at hk
  show parser.expr (k + 1) _ = _
  rw [expr_operand _ _ _ _ _ hx]
  exact hk

theorem exprCmd_ok (n : Item) (ts : List Item) (hn : n.tok = Token.Name)
    (ih : Contract (Cat.tail false) ts) : Contract Cat.expr (n :: ts) :=
  ⟨Or.inl hn, fun i hi => expr_of_tail n ts i hn hi (ih.2 i hi)⟩

theorem exprMatch_ok (ts : List Item) (ih : Contract Cat.matchS ts) : Contract Cat.expr ts := by
  obtain ⟨hm, n, hn⟩ := ih
  have hmE : tokOf ts ≠ Token.EOF := by rw [hm]; decide
  refine ⟨Or.inr (Or.inl hm), fun i _ => ⟨n, fun R c s => ?_⟩⟩
  obtain ⟨k, hk⟩ := hn (i :: R) c s
  refine ⟨k + 1, ?_⟩
  simp only at hk
  show parser.expr (k + 1) _ = _
  rw [parser.expr]
  simp only [tok_mk, tokOf_append _ _ hmE, hm]
  exact hk

theorem exprOperand_ok (ts : List Item) (ih : Contract Cat.operand ts) :
    Contract Cat.expr ts := by
  obtain ⟨hx, n, hn⟩ := ih
  refine ⟨Or.inr (Or.inr hx), fun i hi => ⟨n, fun R c s => ?_⟩⟩
  obtain ⟨k, hk⟩ := hn i R c s (fun _ => term_noAcc i hi)
  refine ⟨k + 1, ?_⟩
  simp only at hk
  show parser.expr (k + 1) _ = _
  rw [expr_operand _ _ _ _ _ hx]
  exact hk

theorem stmtVar_ok (n e : Item) (x : List Item) (hn : n.tok = Token.Name)
    (he : e.tok = Token.Assign) (ih : Contract Cat.expr x) :
    Contract Cat.stmtBody (n :: e :: x) := by
  refine ⟨Or.inl hn, fun i hi => ?_⟩
  obtain ⟨val, hval⟩ := ih.2 i hi
  refine ⟨Node.VarDecl e.pos (Node.Ident n.pos n.lit) val, fun R c s => ?_⟩
  obtain ⟨k, hk⟩ := hval R c s
  refine ⟨k + 2, ?_⟩
  simp only at hk
  show parser.stmtBody (k + 2) ⟨n :: e :: (x ++ i :: R), c, s⟩ = _
  rw [parser.stmtBody]
  simp only [tok_cons, hn, ident_cons _ _ _ _ hn, he, if_true]
  rw [parser.vardecl, got_cons _ _ _ _ _ he (by decide), if_neg (by simp), hk]
  rfl

theorem stmtCmd_ok (n : Item) (ts : List Item) (hn : n.tok = Token.Name)
    (ih : Contract (Cat.tail true) ts) : Contract Cat.stmtBody (n :: ts) := by
  refine ⟨Or.inl hn, fun i hi => ?_⟩
  obtain ⟨nd, hnd⟩ := expr_of_tail n ts i hn hi (ih.2 i hi)
  refine ⟨nd, fun R c s => ?_⟩
  obtain ⟨k, hk⟩ := hnd R c s
  obtain ⟨i', R', hR, _, h2, _⟩ := startOK_cons_follow ts i R ih.1 hi
  cases k with
  | zero => simp [parser.expr] at hk
  | succ k =>
    refine ⟨k + 1, ?_⟩
    simp only at hk
    show parser.stmtBody (k + 1) ⟨n :: (ts ++ i :: R), c, s⟩ = _
    rw [stmtBody_eq_expr _ _ _ _ _ hn (by rw [hR]; exact h2)]
    exact hk

theorem stmtMatch_ok (ts : List Item) (ih : Contract Cat.matchS ts) :
    Contract Cat.stmtBody ts := by
  obtain ⟨hm, n, hn⟩ := ih
  have hmE : tokOf ts ≠ Token.EOF := by rw [hm]; decide
  refine ⟨Or.inr (Or.inl hm), fun i _ => ⟨n, fun R c s => ?_⟩⟩
  obtain ⟨k, hk⟩ := hn (i :: R) c s
  refine ⟨k + 1, ?_⟩
  simp only at hk
  show parser.stmtBody (k + 1) _ = _
  rw [parser.stmtBody]
  simp only [tok_mk, tokOf_append _ _ hmE, hm]
  exact hk

theorem stmtYield_ok (ts : List Item) (ih : Contract Cat.yieldS ts) :
    Contract Cat.stmtBody ts := by
  obtain ⟨hm, n, hn⟩ := ih
  have hmE : tokOf ts ≠ Token.EOF := by rw [hm]; decide
  refine ⟨Or.inr (Or.inr hm), fun i hi => ⟨n, fun R c s => ?_⟩⟩
  obtain ⟨k, hk⟩ := hn i R c s (term_noAcc i hi)
  refine ⟨k + 1, ?_⟩
  simp only at hk
  show parser.stmtBody (k + 1) _ = _
  rw [parser.stmtBody]
  simp only [tok_mk, tokOf_append _ _ hmE, hm]
  exact hk

/-! ## The parser on the phrases of the grammar: blocks, match statements, programs -/

theorem stmt_semi (k : Nat) (ts : List Item) (sm : Item) (R : List Item) (c : Nat)
    (s : List (Pos × Msg)) (n : Node) (hsm : sm.tok = Token.Semi)
    (h : parser.stmtBody k ⟨ts, c, s⟩ = some (n, ⟨sm :: R, c, s⟩)) :
    parser.stmt (k + 1) ⟨ts, c, s⟩ = some (n, ⟨R, c, s⟩) := by
  rw [parser.stmt, h]
  simp only
  rw [if_pos (by simp [hsm]), got_cons _ _ _ _ _ hsm (by decide), if_neg (by simp)]

theorem stmt_eof (k : Nat) (ts : List Item) (e : Item) (R : List Item) (c : Nat)
    (s : List (Pos × Msg)) (n : Node) (he : e.tok = Token.EOF)
    (h : parser.stmtBody k ⟨ts, c, s⟩ = some (n, ⟨e :: R, c, s⟩)) :
    parser.stmt (k + 1) ⟨ts, c, s⟩ = some (n, ⟨e :: R, c, s⟩) := by
  rw [parser.stmt, h]
  simp only
  rw [if_neg (by simp [he])]

theorem stmtBody_ne (x : List Item) (ih : Contract Cat.stmtBody x) :
    tokOf x ≠ Token.EOF ∧ tokOf x ≠ Token.Rbrace := by
  rcases ih.1 with h | h | h <;> rw [h] <;> exact ⟨by decide, by decide⟩

theorem stmtsNil_ok : Contract Cat.stmts [] := by
  refine fun acc => ⟨acc, fun rb R c s hrb => ⟨1, ?_⟩⟩
  show parser.blockLoop 1 acc ⟨rb :: R, c, s⟩ = _
  rw [parser.blockLoop, if_neg (by simp [hrb])]

theorem stmtsCons_ok (sm : Item) (x ts : List Item) (ihx : Contract Cat.stmtBody x)
    (hsm : sm.tok = Token.Semi) (ih : Contract Cat.stmts ts) :
    Contract Cat.stmts (x ++ sm :: ts) := by
  intro acc
  obtain ⟨n, hn⟩ := ihx.2 sm (Or.inl hsm)
  obtain ⟨acc', h⟩ := ih (acc ++ [n])
  refine ⟨acc', fun rb R c s hrb => ?_⟩
  obtain ⟨k, hk1, hk2⟩ := ret_both _ _
    (fun n r => (monoAt n).stmtBody ⟨x ++ sm :: (ts ++ rb :: R), c, s⟩ r)
    (fun n r => (monoAt n).blockLoop _ ⟨ts ++ rb :: R, c, s⟩ r) _ _
    (hn (ts ++ rb :: R) c s) (h rb R c s hrb)
  have hk2' := (monoAt k).blockLoop _ _ _ hk2
  refine ⟨k + 2, ?_⟩
  show parser.blockLoop (k + 2) acc ⟨(x ++ sm :: ts) ++ rb :: R, c, s⟩ = _
  rw [List.append_assoc, List.cons_append, parser.blockLoop, if_pos,
    stmt_semi _ _ _ _ _ _ _ hsm hk1]
  · exact hk2'
  · rw [tok_mk, tokOf_append _ _ (stmtBody_ne x ihx).1]
    exact ⟨(stmtBody_ne x ihx).2, (stmtBody_ne x ihx).1⟩

theorem block_ok (lb rb : Item) (ts : List Item) (hlb : lb.tok = Token.Lbrace)
    (hrb : rb.tok = Token.Rbrace) (ih : Contract Cat.stmts ts) :
    Contract Cat.block (lb :: (ts ++ [rb])) := by
  obtain ⟨acc', h⟩ := ih []
  refine ⟨hlb, Node.BlockStmt (posOf (ts ++ [rb])) acc', fun R c s => ?_⟩
  obtain ⟨k, hk⟩ := h rb R c s hrb
  refine ⟨k + 1, ?_⟩
  simp only at hk
  show parser.blockstmt (k + 1) ⟨lb :: ((ts ++ [rb]) ++ R), c, s⟩ = _
  rw [parser.blockstmt, want_cons _ _ _ _ _ hlb (by decide), List.append_assoc,
    List.singleton_append, hk]
  simp only [pos_mk, want_cons _ _ _ _ _ hrb (by decide), posOf_append_cons ts rb R]

theorem caseBlock_ok (l a : Item) (b : List Item)
    (hl : l.tok = Token.Literal ∨ (l.tok = Token.Name ∧ l.lit = "_"))
    (ha : a.tok = Token.Arrow) (ih : Contract Cat.block b) : Contract Cat.case (l :: a :: b) := by
  obtain ⟨hb, n, hn⟩ := ih
  exact fun cm hcm => ⟨⟨l, a, b, cm, n⟩, rfl, rfl, hl, ha, hcm,
    Or.inl ⟨hb, fun rest c s _ => hn rest c s⟩⟩

theorem caseYield_ok (l a : Item) (y : List Item)
    (hl : l.tok = Token.Literal ∨ (l.tok = Token.Name ∧ l.lit = "_"))
    (ha : a.tok = Token.Arrow) (ih : Contract Cat.yieldS y) : Contract Cat.case (l :: a :: y) := by
  obtain ⟨hy, n, hn⟩ := ih
  refine fun cm hcm => ⟨⟨l, a, y, cm, n⟩, rfl, rfl, hl, ha, hcm, Or.inr ⟨hy, ?_⟩⟩
  intro rest c s hrest
  cases rest with
  | nil => rcases hrest with h | h <;> simp at h
  | cons i R =>
    refine hn i R c s ?_
    rcases hrest with h | h <;> rw [tokOf_cons] at h <;>
      exact ⟨by rw [h]; decide, by rw [h]; decide⟩

theorem casesOne_ok (x : List Item) (ih : Contract Cat.case x) : Contract Cat.cases x := by
  obtain ⟨src, h1, _, h3⟩ := ih (tk Token.Comma) rfl
  refine ⟨[src], by simp, by simp [casesToks, h1], ?_⟩
  intro z hz
  rw [List.mem_singleton] at hz
  rw [hz]
  exact h3

theorem casesCons_ok (cm : Item) (x ts : List Item) (ihx : Contract Cat.case x)
    (hcm : cm.tok = Token.Comma) (ih : Contract Cat.cases ts) :
    Contract Cat.cases (x ++ cm :: ts) := by
  obtain ⟨src, h1, h2, h3⟩ := ihx cm hcm
  obtain ⟨cs, hne, hts, hwf⟩ := ih
  refine ⟨src :: cs, by simp, ?_, ?_⟩
  · cases cs with
    | nil => exact absurd rfl hne
    | cons y ys => rw [casesToks_cons_cons, h1, h2, hts]
  · intro z hz
    rcases List.mem_cons.mp hz with h | h
    · rw [h]; exact h3
    · exact hwf z h

/-- A match statement with well-formed cases: `matchstmt` returns the
`MatchStmt` with the table built from the cases in order. -/
theorem matchstmt_ok (m lb rb : Item) (cond : List Item) (cn : Node) (cs : List CaseSrc)
    (hm : m.tok = Token.Match) (hcond : CondOK cond cn) (hlb : lb.tok = Token.Lbrace)
    (hrb : rb.tok = Token.Rbrace) (hcs : ∀ x ∈ cs, x.WF) (R : List Item) (c : Nat)
    (s : List (Pos × Msg)) :
    Ret (fun k => parser.matchstmt k ⟨m :: (cond ++ lb :: (casesToks cs ++ rb :: R)), c, s⟩)
      (Node.MatchStmt m.pos cn
        (cs.foldl (fun t x => mapSet t (hash32 x.label.lit) x.node) []), ⟨R, c, s⟩) := by
  have hloop := matchLoop_ok cs [] hcs rb R c s hrb
  have hmE : m.tok ≠ Token.EOF := by rw [hm]; decide
  rcases hcond with ⟨i, rfl, hi, rfl⟩ | ⟨ht, href⟩
  · obtain ⟨n, hn⟩ := hloop
    refine ⟨n + 1, ?_⟩
    simp only at hn
    simp only [parser.matchstmt, tok_cons, hm, next_cons _ _ _ _ hmE, List.singleton_append, hi,
      literal_cons _ _ _ _ hi, want_cons _ _ _ _ _ hlb (by decide), hn,
      got_cons _ _ _ _ _ hrb (by decide)]
    simp
  · obtain ⟨n, h1, h2⟩ := ret_both _ _
      (fun n r => (ref_mono n).1 ⟨cond ++ lb :: (casesToks cs ++ rb :: R), c, s⟩ r)
      (fun n r => (monoAt n).matchLoop [] ⟨casesToks cs ++ rb :: R, c, s⟩ r) _ _
      (href (lb :: (casesToks cs ++ rb :: R)) c s hlb) hloop
    refine ⟨n + 1, ?_⟩
    have h3 : tokOf (cond ++ lb :: (casesToks cs ++ rb :: R)) = Token.Ref := by
      rw [tokOf_append _ _ (by rw [ht]; decide), ht]
    simp only [parser.matchstmt, tok_cons, hm, next_cons _ _ _ _ hmE, tok_mk, tokOf_cons, h3, h1,
      want_cons _ _ _ _ _ hlb (by decide), h2, got_cons _ _ _ _ _ hrb (by decide)]
    simp [hm]

theorem matchLit_ok (m l lb rb : Item) (cs : List Item) (hm : m.tok = Token.Match)
    (hl : l.tok = Token.Literal) (hlb : lb.tok = Token.Lbrace) (hrb : rb.tok = Token.Rbrace)
    (ih : Contract Cat.cases cs) : Contract Cat.matchS (m :: l :: lb :: (cs ++ [rb])) := by
  obtain ⟨src, _, hcs, hwf⟩ := ih
  refine ⟨by rw [tokOf_cons, hm], Node.MatchStmt m.pos (Node.Lit l.pos l.typ l.lit)
    (src.foldl (fun t x => mapSet t (hash32 x.label.lit) x.node) []), fun R c s => ?_⟩
  have := matchstmt_ok m lb rb [l] _ src hm (Or.inl ⟨l, rfl, hl, rfl⟩) hlb hrb hwf R c s
  rw [hcs]
  simpa using this

theorem matchRef_ok (m lb rb : Item) (r cs : List Item) (hm : m.tok = Token.Match)
    (ihr : Contract Cat.ref r) (hlb : lb.tok = Token.Lbrace) (hrb : rb.tok = Token.Rbrace)
    (ih : Contract Cat.cases cs) : Contract Cat.matchS (m :: (r ++ lb :: (cs ++ [rb]))) := by
  obtain ⟨src, _, hcs, hwf⟩ := ih
  obtain ⟨hr, n, hn⟩ := ihr
  have hcond : CondOK r n := by
    refine Or.inr ⟨hr, fun rest c s hrest => ?_⟩
    cases rest with
    | nil => simp at hrest
    | cons i R =>
      rw [tokOf_cons] at hrest
      exact hn i R c s ⟨by rw [hrest]; decide, by rw [hrest]; decide⟩
  refine ⟨by rw [tokOf_cons, hm], Node.MatchStmt m.pos n
    (src.foldl (fun t x => mapSet t (hash32 x.label.lit) x.node) []), fun R c s => ?_⟩
  have := matchstmt_ok m lb rb r n src hm hcond hlb hrb hwf R c s
  rw [hcs]
  simpa using this

theorem parseLoop_stop (acc : List Node) (e : Item) (R : List Item) (c : Nat)
    (s : List (Pos × Msg)) (he : e.tok = Token.EOF) (k : Nat) :
    parser.parseLoop (k + 1) acc ⟨e :: R, c, s⟩ = some (acc, ⟨e :: R, c, s⟩) := by
  rw [parser.parseLoop, if_neg (by simp [he])]

theorem progNil_ok : Contract Cat.program [] :=
  fun acc e he => ⟨acc, fun R c s => ⟨1, parseLoop_stop acc e R c s he 0⟩⟩

theorem progLast_ok (x : List Item) (ih : Contract Cat.stmtBody x) : Contract Cat.program x := by
  intro acc e he
  obtain ⟨n, hn⟩ := ih.2 e (Or.inr he)
  refine ⟨acc ++ [n], fun R c s => ?_⟩
  obtain ⟨k, hk⟩ := hn R c s
  refine ⟨k + 2, ?_⟩
  simp only at hk
  show parser.parseLoop (k + 2) acc ⟨x ++ e :: R, c, s⟩ = _
  rw [parser.parseLoop, if_pos, stmt_eof _ _ _ _ _ _ _ he hk]
  · exact parseLoop_stop _ _ _ _ _ he k
  · rw [tok_mk, tokOf_append _ _ (stmtBody_ne x ih).1]
    exact (stmtBody_ne x ih).1

theorem progCons_ok (sm : Item) (x ts : List Item) (ihx : Contract Cat.stmtBody x)
    (hsm : sm.tok = Token.Semi) (ih : Contract Cat.program ts) :
    Contract Cat.program (x ++ sm :: ts) := by
  intro acc e he
  obtain ⟨n, hn⟩ := ihx.2 sm (Or.inl hsm)
  obtain ⟨acc', h⟩ := ih (acc ++ [n]) e he
  refine ⟨acc', fun R c s => ?_⟩
  obtain ⟨k, hk1, hk2⟩ := ret_both _ _
    (fun n r => (monoAt n).stmtBody ⟨x ++ sm :: (ts ++ e :: R), c, s⟩ r)
    (fun n r => parseLoop_mono n _ ⟨ts ++ e :: R, c, s⟩ r) _ _
    (hn (ts ++ e :: R) c s) (h R c s)
  have hk2' := parseLoop_mono k _ _ _ hk2
  refine ⟨k + 2, ?_⟩
  show parser.parseLoop (k + 2) acc ⟨(x ++ sm :: ts) ++ e :: R, c, s⟩ = _
  rw [List.append_assoc, List.cons_append, parser.parseLoop, if_pos,
    stmt_semi _ _ _ _ _ _ _ hsm hk1]
  · exact hk2'
  · rw [tok_mk, tokOf_append _ _ (stmtBody_ne x ihx).1]
    exact (stmtBody_ne x ihx).1

/-- Every phrase of the grammar is read by the parser function of its kind,
entirely and without a diagnostic. -/
theorem strict_ok (cat : Cat) (ts : List Item) (h : Strict cat ts) : Contract cat ts := by
  induction h with
  | dotsNil => exact dotsNil_ok
  | dotsCons d n ts hd hn _ ih => exact dotsCons_ok d n ts hd hn ih
  | ref r n ts hr hn _ ih => exact ref_ok r n ts hr hn ih
  | litsOne l hl => exact litsOne_ok l hl
  | litsCons l c ts hl hc _ ih => exact litsCons_ok l c ts hl hc ih
  | arrayEmpty lb rb hlb hrb => exact arrayEmpty_ok lb rb hlb hrb
  | array lb rb ts hlb hrb _ ih => exact array_ok lb rb ts hlb hrb ih
  | pairsOne k c x hk hc _ ih => exact pairsOne_ok k c x hk hc ih
  | pairsCons k c cm x ts hk hc _ hcm _ ihx ih => exact pairsCons_ok k c cm x ts hk hc ihx hcm ih
  | objectEmpty lb rb hlb hrb => exact objectEmpty_ok lb rb hlb hrb
  | object lb rb ts hlb hrb _ ih => exact object_ok lb rb ts hlb hrb ih
  | opLit l hl => exact opLit_ok l hl
  | opRef ts _ ih => exact opRef_ok ts ih
  | opObj ts _ ih => exact opObj_ok ts ih
  | opArr ts _ ih => exact opArr_ok ts ih
  | yieldS y x hy _ ih => exact yieldS_ok y x hy ih
  | tailNil b => exact tailNil_ok b
  | tailName b i ts hi _ ih => exact tailName_ok b i ts hi ih
  | tailArrow a i ts ha hi _ ih => exact tailArrow_ok a i ts ha hi ih
  | tailMatch b m ts _ _ ihm ih => exact tailMatch_ok b m ts ihm ih
  | tailOperand b x ts _ hf _ ihx ih => exact tailOperand_ok b x ts ihx hf ih
  | exprCmd n ts hn _ ih => exact exprCmd_ok n ts hn ih
  | exprMatch ts _ ih => exact exprMatch_ok ts ih
  | exprOperand ts _ ih => exact exprOperand_ok ts ih
  | stmtVar n e x hn he _ ih => exact stmtVar_ok n e x hn he ih
  | stmtCmd n ts hn _ ih => exact stmtCmd_ok n ts hn ih
  | stmtMatch ts _ ih => exact stmtMatch_ok ts ih
  | stmtYield ts _ ih => exact stmtYield_ok ts ih
  | stmtsNil => exact stmtsNil_ok
  | stmtsCons sm x ts _ hsm _ ihx ih => exact stmtsCons_ok sm x ts ihx hsm ih
  | block lb rb ts hlb hrb _ ih => exact block_ok lb rb ts hlb hrb ih
  | caseBlock l a b hl ha _ ih => exact caseBlock_ok l a b hl ha ih
  | caseYield l a y hl ha _ ih => exact caseYield_ok l a y hl ha ih
  | casesOne x _ ih => exact casesOne_ok x ih
  | casesCons cm x ts _ hcm _ ihx ih => exact casesCons_ok cm x ts ihx hcm ih
  | matchLit m l lb rb cs hm hl hlb hrb _ ih => exact matchLit_ok m l lb rb cs hm hl hlb hrb ih
  | matchRef m lb rb r cs hm _ hlb hrb _ ihr ih => exact matchRef_ok m lb rb r cs hm ihr hlb hrb ih
  | progNil => exact progNil_ok
  | progLast x _ ih => exact progLast_ok x ih
  | progCons sm x ts _ hsm _ ihx ih => exact progCons_ok sm x ts ihx hsm ih

/-- C2 (amended): for every token stream that conforms to the grammar with
`YieldStmt := 'yield' Operand`, every statement of a block and every
statement but the last of the program followed by `;`, references with dot
accessors only and no reference directly followed by `[`, `parse` returns at
end-of-input and the diagnostic sink is not invoked (`errc` stays 0 and the
sink stays empty). -/
theorem C2_conformant_no_diagnostic (body : List Item) (e : Item)
    (hbody : Strict Cat.program body) (he : e.tok = Token.EOF) :
    ∃ nodes n, ∀ k, n ≤ k →
      parser.parse k (parser.init (body ++ [e])) = some (nodes, ⟨[e], 0, []⟩) := by
  obtain ⟨nodes, h⟩ := strict_ok Cat.program body hbody [] e he
  exact ⟨nodes, ret_ge (fun k => parser.parse k (parser.init (body ++ [e])))
    (fun n r => parseLoop_mono n [] _ r) _ (h [] 0 [])⟩

/-- The program `match "x" { "a" -> { b ; } } ; get "u" -> print` conforms to
the grammar. -/
theorem exProgram_strict :
    Strict Cat.program
      [tk Token.Match, tLit "x", tk Token.Lbrace, tLit "a", tk Token.Arrow, tk Token.Lbrace,
        tName "b", tk Token.Semi, tk Token.Rbrace, tk Token.Rbrace, tk Token.Semi,
        tName "get", tLit "u", tk Token.Arrow, tName "print"] :=
  Strict.progCons (tk Token.Semi)
    [tk Token.Match, tLit "x", tk Token.Lbrace, tLit "a", tk Token.Arrow, tk Token.Lbrace,
      tName "b", tk Token.Semi, tk Token.Rbrace, tk Token.Rbrace]
    [tName "get", tLit "u", tk Token.Arrow, tName "print"]
    (Strict.stmtMatch _
      (Strict.matchLit (tk Token.Match) (tLit "x") (tk Token.Lbrace) (tk Token.Rbrace)
        [tLit "a", tk Token.Arrow, tk Token.Lbrace, tName "b", tk Token.Semi, tk Token.Rbrace]
        rfl rfl rfl rfl
        (Strict.casesOne _
          (Strict.caseBlock (tLit "a") (tk Token.Arrow)
            [tk Token.Lbrace, tName "b", tk Token.Semi, tk Token.Rbrace] (Or.inl rfl) rfl
            (Strict.block (tk Token.Lbrace) (tk Token.Rbrace) [tName "b", tk Token.Semi] rfl rfl
              (Strict.stmtsCons (tk Token.Semi) [tName "b"] []
                (Strict.stmtCmd (tName "b") [] rfl (Strict.tailNil true)) rfl
                Strict.stmtsNil))))))
    rfl
    (Strict.progLast _
      (Strict.stmtCmd (tName "get") [tLit "u", tk Token.Arrow, tName "print"] rfl
        (Strict.tailOperand true [tLit "u"] [tk Token.Arrow, tName "print"]
          (Strict.opLit (tLit "u") rfl) (fun h => absurd h (by decide))
          (Strict.tailArrow (tk Token.Arrow) (tName "print") [] rfl rfl (Strict.tailNil true)))))

theorem C2_conformant_no_diagnostic_witness :
    Strict Cat.program
      [tk Token.Match, tLit "x", tk Token.Lbrace, tLit "a", tk Token.Arrow, tk Token.Lbrace,
        tName "b", tk Token.Semi, tk Token.Rbrace, tk Token.Rbrace, tk Token.Semi,
        tName "get", tLit "u", tk Token.Arrow, tName "print"] ∧
    (tk Token.EOF).tok = Token.EOF ∧
    ∃ nodes n, ∀ k, n ≤ k →
      parser.parse k (parser.init
        ([tk Token.Match, tLit "x", tk Token.Lbrace, tLit "a", tk Token.Arrow, tk Token.Lbrace,
          tName "b", tk Token.Semi, tk Token.Rbrace, tk Token.Rbrace, tk Token.Semi,
          tName "get", tLit "u", tk Token.Arrow, tName "print"] ++ [tk Token.EOF])) =
        some (nodes, ⟨[tk Token.EOF], 0, []⟩) :=
  ⟨exProgram_strict, rfl, C2_conformant_no_diagnostic _ (tk Token.EOF) exProgram_strict rfl⟩

/-- C2 (the claim as stated fails): on the tokens `yield x ; EOF`, which
conform to `YieldStmt := 'yield' Expr` with the command `x` as expression,
`parse` reports one diagnostic: `yield` reads an operand, and a name is not
one. -/
theorem C2_counterexample :
    parser.parse 8 (parser.init [tk Token.Yield, tName "x", tk Token.Semi, tk Token.EOF]) =
      some ([Node.YieldStmt pos0 Node.nil],
        ⟨[tk Token.EOF], 1, [(pos0, Msg.unexpected Token.Name)]⟩) ∧
    ∀ fuel r, parser.parse fuel
      (parser.init [tk Token.Yield, tName "x", tk Token.Semi, tk Token.EOF]) = some r →
      r.2.errc = 1 := by
  refine ⟨rfl, fun fuel r h => ?_⟩
  have := parse_det fuel 8 _ r _ h rfl
  rw [this]
  rfl


/-! ## What the parser has read when it reports nothing -/

@[simp] theorem next_errc (p : parser) : p.next.errc = p.errc := by
  unfold parser.next
  split <;> rfl

@[simp] theorem err_errc (p : parser) (m : Msg) : (p.err m).errc = p.errc + 1 := rfl

@[simp] theorem expected_errc (p : parser) (t : Token) : (p.expected t).errc = p.errc + 1 := rfl

@[simp] theorem unexpected_errc (p : parser) (t : Token) :
    (p.unexpected t).errc = p.errc + 1 := rfl

@[simp] theorem got_errc (p : parser) (t : Token) : (p.got t).2.errc = p.errc := by
  unfold parser.got
  split <;> simp

theorem got_eq (p : parser) (t : Token) (h : p.tok = t) : p.got t = (true, p.next) := by
  simp [parser.got, h]

theorem want_eq (p : parser) (t : Token) (h : p.tok = t) : p.want t = p.next := by
  simp [parser.want, got_eq p t h]

theorem want_ne (p : parser) (t : Token) (h : p.tok ≠ t) : p.want t = p.expected t := by
  simp [parser.want, got_ne p t h]

theorem ident_eq (p : parser) (h : p.tok = Token.Name) :
    p.ident = (Node.Ident p.pos p.lit, p.next) := by
  simp [parser.ident, h]

theorem ident_ne (p : parser) (h : p.tok ≠ Token.Name) : p.ident = (Node.nil, p) := by
  simp [parser.ident, h]

theorem literal_eq (p : parser) (h : p.tok = Token.Literal) :
    p.literal = (Node.Lit p.pos p.typ p.lit, p.next) := by
  simp [parser.literal, h]

theorem rd_refl (A : List Item → Prop) (p : parser) (h : A []) : Rd A p p :=
  ⟨le_refl _, fun _ => ⟨[], rfl, h⟩⟩

theorem rd_lt (A : List Item → Prop) (p q : parser) (h : p.errc < q.errc) : Rd A p q :=
  ⟨le_of_lt h, fun e => absurd e (ne_of_gt h)⟩

theorem rd_mono {A B : List Item → Prop} {p q : parser} (h1 : Rd A p q)
    (h : ∀ x, A x → B x) : Rd B p q :=
  ⟨h1.1, fun e => (h1.2 e).elim fun x hx => ⟨x, hx.1, h x hx.2⟩⟩

theorem rd_seq {A B : List Item → Prop} {p m q : parser} (h1 : Rd A p m) (h2 : Rd B m q) :
    Rd (Seq A B) p q := by
  refine ⟨le_trans h1.1 h2.1, fun he => ?_⟩
  have a1 := h1.1
  have a2 := h2.1
  obtain ⟨x, hx, ax⟩ := h1.2 (by omega)
  obtain ⟨y, hy, ay⟩ := h2.2 (by omega)
  exact ⟨x ++ y, by rw [hx, hy, List.append_assoc], x, y, rfl, ax, ay⟩

theorem rd_then_lt {A : List Item → Prop} (B : List Item → Prop) {p m : parser} (q : parser)
    (h1 : Rd A p m) (h : m.errc < q.errc) : Rd B p q :=
  rd_lt B p q (lt_of_le_of_lt h1.1 h)

theorem rd_lt_then (A : List Item → Prop) {B : List Item → Prop} (p : parser) {m q : parser}
    (h : p.errc < m.errc) (h2 : Rd B m q) : Rd A p q :=
  rd_lt A p q (lt_of_lt_of_le h h2.1)

theorem rd_next (p : parser) (h : p.tok ≠ Token.EOF) : Rd (fun x => x = [p.cur]) p p.next := by
  obtain ⟨ts, c, s⟩ := p
  cases ts with
  | nil => exact absurd rfl h
  | cons i R =>
    rw [next_cons i R c s h]
    exact ⟨le_refl _, fun _ => ⟨[i], rfl, rfl⟩⟩

theorem rd_tok (p : parser) (t : Token) (h : p.tok = t) (ht : t ≠ Token.EOF) :
    Rd (TokIs t) p p.next :=
  rd_mono (rd_next p (by rw [h]; exact ht)) (fun _ hx => ⟨p.cur, hx, h⟩)

theorem rd_want (p : parser) (t : Token) (ht : t ≠ Token.EOF) : Rd (TokIs t) p (p.want t) := by
  by_cases h : p.tok = t
  · rw [want_eq p t h]
    exact rd_tok p t h ht
  · rw [want_ne p t h]
    exact rd_lt _ _ _ (by simp)

theorem rd_ident (p : parser) (h : p.tok = Token.Name) : Rd (TokIs Token.Name) p p.ident.2 := by
  rw [ident_eq p h]
  exact rd_tok p _ h (by decide)

theorem rd_literal (p : parser) (h : p.tok = Token.Literal) :
    Rd (TokIs Token.Literal) p p.literal.2 := by
  rw [literal_eq p h]
  exact rd_tok p _ h (by decide)

theorem ref_sound (n : Nat) :
    (∀ p r q, parser.ref n p = some (r, q) → p.tok = Token.Ref → Rd (Lenient LCat.ref) p q) ∧
    (∀ l p r q, parser.refLoop n l p = some (r, q) → Rd (Lenient LCat.accs) p q) := by
  induction n with
  | zero =>
    exact ⟨fun p r q h => by simp [parser.ref] at h,
      fun l p r q h => by simp [parser.refLoop] at h⟩
  | succ n ih =>
    obtain ⟨ih1, ih2⟩ := ih
    refine ⟨?_, ?_⟩
    · intro p r q h hp
      rw [parser.ref, if_neg (by simp [hp]), got_eq p _ hp] at h
      have s1 := rd_tok p _ hp (by decide)
      have s3 := ih2 _ _ _ _ h
      by_cases hn : p.next.tok = Token.Name
      · have s2 := rd_ident p.next hn
        refine rd_mono (rd_seq s1 (rd_seq s2 s3)) ?_
        rintro _ ⟨_, _, rfl, ⟨r, rfl, hr⟩, _, _, rfl, ⟨i, rfl, hi⟩, hy⟩
        exact Lenient.refName r i _ hr hi hy
      · rw [ident_ne _ hn] at s3
        refine rd_mono (rd_seq s1 s3) ?_
        rintro _ ⟨_, _, rfl, ⟨r, rfl, hr⟩, hy⟩
        exact Lenient.refBare r _ hr hy
    · intro l p r q h
      rw [parser.refLoop] at h
      split at h
      · rename_i hd
        split at h
        · simp only [Option.some.injEq, Prod.mk.injEq] at h
          obtain ⟨_, rfl⟩ := h
          exact rd_lt _ _ _ (by simp)
        · rename_i hn
          have hn' : p.next.tok = Token.Name := by simpa using hn
          have s1 := rd_tok p _ hd (by decide)
          have s2 := rd_ident p.next hn'
          have s3 := ih2 _ _ _ _ h
          refine rd_mono (rd_seq s1 (rd_seq s2 s3)) ?_
          rintro _ ⟨_, _, rfl, ⟨d, rfl, hd⟩, _, _, rfl, ⟨i, rfl, hi⟩, hy⟩
          exact Lenient.accsDot d i _ hd hi hy
      · rename_i hb
        have s1 := rd_tok p _ hb (by decide)
        split at h
        · exact rd_lt_then _ _ (by simp) (ih2 _ _ _ _ h)
        · split at h
          · rename_i hl
            have s2 := rd_literal p.next hl
            have s3 := ih2 _ _ _ _ h
            refine rd_mono (rd_seq s1 (rd_seq s2 s3)) ?_
            rintro _ ⟨_, _, rfl, ⟨b, rfl, hb⟩, _, _, rfl, ⟨i, rfl, hi⟩, hy⟩
            exact Lenient.accsLit b i _ hb hi hy
          · rename_i hr
            split at h
            · simp at h
            · rename_i r1 q1 hq
              have s2 := ih1 _ _ _ hq hr
              have s3 := ih2 _ _ _ _ h
              refine rd_mono (rd_seq s1 (rd_seq s2 s3)) ?_
              rintro _ ⟨_, _, rfl, ⟨b, rfl, hb⟩, x, y, rfl, hx, hy⟩
              exact Lenient.accsRef b x y hb hx hy
          · exact rd_lt_then _ _ (by simp) (ih2 _ _ _ _ h)
      · simp only [Option.some.injEq, Prod.mk.injEq] at h
        obtain ⟨_, rfl⟩ := h
        exact rd_refl _ _ Lenient.accsNil

theorem list_sound {α : Type} (sep fin : Token) (hsep : sep ≠ Token.EOF)
    (hfin : fin ≠ Token.EOF) (A : List Item → Prop)
    (item : α → parser → Option (α × parser))
    (hitem : ∀ a p a' q, item a p = some (a', q) → Rd A p q) (n : Nat) :
    ∀ acc p acc' q, parser.list sep fin item n acc p = some (acc', q) →
      Rd (Seq (SepList A sep) (TokIs fin)) p q := by
  induction n with
  | zero => intro acc p acc' q h; simp [parser.list] at h
  | succ n ih =>
    intro acc p acc' q h
    rw [parser.list] at h
    split at h
    · split at h
      · simp at h
      · rename_i a1 p1 hi
        have s1 := hitem _ _ _ _ hi
        split at h
        · exact rd_lt _ _ _ (lt_of_le_of_lt s1.1 (lt_of_lt_of_le (by simp) (ih _ _ _ _ h).1))
        · rename_i hg
          by_cases hgot : p1.tok = sep
          · rw [got_eq _ _ hgot] at h
            have s2 := rd_tok p1 _ hgot hsep
            have s3 := ih _ _ _ _ h
            refine rd_mono (rd_seq s1 (rd_seq s2 s3)) ?_
            rintro _ ⟨x, _, rfl, hx, _, _, rfl, ⟨s, rfl, hs⟩, b, _, rfl, hb, hf⟩
            exact ⟨x ++ s :: b, _, by simp, SepList.cons x s b hx hs hb, hf⟩
          · rw [got_ne _ _ hgot] at h hg
            have hf : p1.tok = fin := by simpa using hg
            cases n with
            | zero => simp [parser.list] at h
            | succ k =>
              rw [parser.list, if_neg (by simp [hf])] at h
              simp only [Option.some.injEq, Prod.mk.injEq] at h
              obtain ⟨_, rfl⟩ := h
              refine rd_mono (rd_seq s1 (rd_want p1 fin hfin)) ?_
              rintro _ ⟨x, y, rfl, hx, hy⟩
              exact ⟨x, y, rfl, SepList.one x hx, hy⟩
    · simp only [Option.some.injEq, Prod.mk.injEq] at h
      obtain ⟨_, rfl⟩ := h
      exact rd_mono (rd_want p fin hfin) (fun z hz => ⟨[], z, rfl, SepList.nil, hz⟩)

theorem sepList_lits (b : List Item) (h : SepList (TokIs Token.Literal) Token.Comma b) :
    Lenient LCat.lits b := by
  induction h with
  | nil => exact Lenient.litsNil
  | one x hx =>
    obtain ⟨l, rfl, hl⟩ := hx
    exact Lenient.litsOne l hl
  | cons x s ts hx hs _ ih =>
    obtain ⟨l, rfl, hl⟩ := hx
    exact Lenient.litsCons l s ts hl hs ih

theorem sepList_pairs (b : List Item) (h : SepList (Lenient LCat.pair) Token.Comma b) :
    Lenient LCat.pairs b := by
  induction h with
  | nil => exact Lenient.pairsNil
  | one x hx => exact Lenient.pairsOne x hx
  | cons x s ts hx hs _ ih => exact Lenient.pairsCons x s ts hx hs ih

theorem arrItem_sound (a : List Node) (p : parser) (a' : List Node) (q : parser)
    (h : parser.arrItem a p = some (a', q)) : Rd (TokIs Token.Literal) p q := by
  unfold parser.arrItem at h
  split at h
  · simp only [Option.some.injEq, Prod.mk.injEq] at h
    obtain ⟨_, rfl⟩ := h
    exact rd_lt _ _ _ (by simp)
  · rename_i hl
    simp only [Option.some.injEq, Prod.mk.injEq] at h
    obtain ⟨_, rfl⟩ := h
    exact rd_literal p (by simpa using hl)

theorem arr_sound (n : Nat) (p : parser) (r : Node) (q : parser)
    (h : parser.arr n p = some (r, q)) : Rd (Lenient LCat.array) p q := by
  unfold parser.arr at h
  split at h
  · simp at h
  · rename_i items q1 hq
    simp only [Option.some.injEq, Prod.mk.injEq] at h
    obtain ⟨_, rfl⟩ := h
    have s1 := rd_want p Token.Lbrack (by decide)
    have s2 := list_sound Token.Comma Token.Rbrack (by decide) (by decide) _ _ arrItem_sound
      n _ _ _ _ hq
    refine rd_mono (rd_seq s1 s2) ?_
    rintro _ ⟨_, _, rfl, ⟨lb, rfl, hlb⟩, b, _, rfl, hb, ⟨rb, rfl, hrb⟩⟩
    exact Lenient.array lb rb b hlb hrb (sepList_lits b hb)

theorem objItem_sound (n : Nat) (ih : SoundAt n) (a : List Node) (p : parser) (a' : List Node)
    (q : parser) (h : parser.objItem (n + 1) a p = some (a', q)) :
    Rd (Lenient LCat.pair) p q := by
  rw [parser.objItem] at h
  split at h
  · simp only [Option.some.injEq, Prod.mk.injEq] at h
    obtain ⟨_, rfl⟩ := h
    exact rd_lt _ _ _ (by simp)
  · rename_i hn
    have hn' : p.tok = Token.Name := by simpa using hn
    split at h
    · simp at h
    · rename_i val q1 hq
      simp only [Option.some.injEq, Prod.mk.injEq] at h
      obtain ⟨_, rfl⟩ := h
      have s1 := rd_ident p hn'
      have s2 := rd_want p.ident.2 Token.Colon (by decide)
      have s3 := ih.operand _ _ _ hq
      refine rd_mono (rd_seq s1 (rd_seq s2 s3)) ?_
      rintro _ ⟨_, _, rfl, ⟨k, rfl, hk⟩, _, x, rfl, ⟨c, rfl, hc⟩, hx⟩
      exact Lenient.pair k c x hk hc hx

theorem obj_sound (n : Nat) (ih : SoundAt n) (p : parser) (r : Node) (q : parser)
    (h : parser.obj (n + 1) p = some (r, q)) : Rd (Lenient LCat.object) p q := by
  rw [parser.obj] at h
  split at h
  · simp at h
  · rename_i pairs q1 hq
    simp only [Option.some.injEq, Prod.mk.injEq] at h
    obtain ⟨_, rfl⟩ := h
    have s1 := rd_want p Token.Lbrace (by decide)
    have s2 := list_sound Token.Comma Token.Rbrace (by decide) (by decide) _ _
      (fun a p a' q h => ih.objItem a p a' q h) n _ _ _ _ hq
    refine rd_mono (rd_seq s1 s2) ?_
    rintro _ ⟨_, _, rfl, ⟨lb, rfl, hlb⟩, b, _, rfl, hb, ⟨rb, rfl, hrb⟩⟩
    exact Lenient.object lb rb b hlb hrb (sepList_pairs b hb)

theorem blockLoop_eof (n : Nat) (a : List Node) (p : parser) (a' : List Node) (q : parser)
    (hp : p.tok = Token.EOF) (h : parser.blockLoop n a p = some (a', q)) : q = p := by
  cases n with
  | zero => simp [parser.blockLoop] at h
  | succ k =>
    rw [parser.blockLoop, if_neg (by simp [hp])] at h
    simp only [Option.some.injEq, Prod.mk.injEq] at h
    exact h.2.symm

theorem blockLoop_sound (n : Nat) (ih : SoundAt n) (a : List Node) (p : parser)
    (a' : List Node) (q : parser) (h : parser.blockLoop (n + 1) a p = some (a', q)) :
    Rd (fun x => q.tok ≠ Token.EOF → Lenient LCat.stmts x) p q := by
  rw [parser.blockLoop] at h
  split at h
  · split at h
    · simp at h
    · rename_i n1 q1 hq
      have s1 := ih.stmt _ _ _ hq
      have s2 := ih.blockLoop _ _ _ _ h
      refine rd_mono (rd_seq s1 s2) ?_
      rintro _ ⟨x, y, rfl, hx, hy⟩ hq'
      rcases hx with ⟨b, sm, rfl, hsm, hb⟩ | ⟨he, _⟩
      · simpa using Lenient.stmtsCons b sm y hb hsm (hy hq')
      · have := blockLoop_eof _ _ _ _ _ he h
        rw [this] at hq'
        exact absurd he hq'
  · simp only [Option.some.injEq, Prod.mk.injEq] at h
    obtain ⟨_, rfl⟩ := h
    exact rd_refl _ _ (fun _ => Lenient.stmtsNil)

theorem blockstmt_sound (n : Nat) (ih : SoundAt n) (p : parser) (r : Node) (q : parser)
    (h : parser.blockstmt (n + 1) p = some (r, q)) : Rd (Lenient LCat.block) p q := by
  rw [parser.blockstmt] at h
  split at h
  · simp at h
  · rename_i nodes q1 hq
    simp only [Option.some.injEq, Prod.mk.injEq] at h
    obtain ⟨_, rfl⟩ := h
    have s1 := rd_want p Token.Lbrace (by decide)
    have s2 := ih.blockLoop _ _ _ _ hq
    by_cases hr : q1.tok = Token.Rbrace
    · have s2' : Rd (Lenient LCat.stmts) _ q1 :=
        rd_mono s2 (fun x hx => hx (by rw [hr]; decide))
      have s3 := rd_want q1 Token.Rbrace (by decide)
      refine rd_mono (rd_seq s1 (rd_seq s2' s3)) ?_
      rintro _ ⟨_, _, rfl, ⟨lb, rfl, hlb⟩, b, _, rfl, hb, ⟨rb, rfl, hrb⟩⟩
      exact Lenient.block lb rb b hlb hrb hb
    · rw [want_ne _ _ hr]
      exact rd_then_lt _ _ (rd_seq s1 s2) (by simp)

theorem yield_sound (n : Nat) (ih : SoundAt n) (p : parser) (r : Node) (q : parser)
    (h : parser.yield (n + 1) p = some (r, q)) (hp : p.tok = Token.Yield) :
    Rd (Lenient LCat.yieldS) p q := by
  rw [parser.yield, if_neg (by simp [got_eq p _ hp]), got_eq p _ hp] at h
  split at h
  · simp at h
  · rename_i val q1 hq
    simp only [Option.some.injEq, Prod.mk.injEq] at h
    obtain ⟨_, rfl⟩ := h
    refine rd_mono (rd_seq (rd_tok p _ hp (by decide)) (ih.operand _ _ _ hq)) ?_
    rintro _ ⟨_, x, rfl, ⟨y, rfl, hy⟩, hx⟩
    exact Lenient.yieldS y x hy hx

theorem casestmtRight_sound (n : Nat) (ih : SoundAt n) (l : String) (a : List (Nat × Node))
    (p : parser) (a' : List (Nat × Node)) (q : parser)
    (h : parser.casestmtRight (n + 1) l a p = some (a', q)) : Rd CaseRight p q := by
  rw [parser.casestmtRight] at h
  have s1 := rd_want p Token.Arrow (by decide)
  split at h
  · split at h
    · simp at h
    · rename_i n1 q1 hq
      simp only [Option.some.injEq, Prod.mk.injEq] at h
      obtain ⟨_, rfl⟩ := h
      refine rd_mono (rd_seq s1 (ih.blockstmt _ _ _ hq)) ?_
      rintro _ ⟨_, b, rfl, ⟨a, rfl, ha⟩, hb⟩
      exact ⟨a, b, rfl, ha, Or.inl hb⟩
  · rename_i hy
    split at h
    · simp at h
    · rename_i n1 q1 hq
      simp only [Option.some.injEq, Prod.mk.injEq] at h
      obtain ⟨_, rfl⟩ := h
      refine rd_mono (rd_seq s1 (ih.yield _ _ _ hq hy)) ?_
      rintro _ ⟨_, b, rfl, ⟨a, rfl, ha⟩, hb⟩
      exact ⟨a, b, rfl, ha, Or.inr hb⟩
  · simp only [Option.some.injEq, Prod.mk.injEq] at h
    obtain ⟨_, rfl⟩ := h
    exact rd_then_lt _ _ s1 (by simp)

theorem casestmt_sound (n : Nat) (ih : SoundAt n) (a : List (Nat × Node)) (p : parser)
    (a' : List (Nat × Node)) (q : parser) (h : parser.casestmt (n + 1) a p = some (a', q)) :
    Rd (Lenient LCat.case) p q := by
  have key : ∀ (hl : p.cur.tok = Token.Literal ∨ (p.cur.tok = Token.Name ∧ p.cur.lit = "_")),
      parser.casestmtRight n p.lit a p.next = some (a', q) → Rd (Lenient LCat.case) p q := by
    intro hl h
    have hne : p.tok ≠ Token.EOF := by
      rcases hl with hl | hl
      · show p.cur.tok ≠ _
        rw [hl]; decide
      · show p.cur.tok ≠ _
        rw [hl.1]; decide
    refine rd_mono (rd_seq (rd_next p hne) (ih.casestmtRight _ _ _ _ _ h)) ?_
    rintro _ ⟨_, _, rfl, rfl, a, b, rfl, ha, hb⟩
    rcases hb with hb | hb
    · exact Lenient.caseBlock p.cur a b hl ha hb
    · exact Lenient.caseYield p.cur a b hl ha hb
  rw [parser.casestmt] at h
  split at h
  · rename_i hn
    split at h
    · simp only [Option.some.injEq, Prod.mk.injEq] at h
      obtain ⟨_, rfl⟩ := h
      exact rd_lt _ _ _ (by simp)
    · rename_i hl
      exact key (Or.inr ⟨hn, by simpa using hl⟩) h
  · split at h
    · simp only [Option.some.injEq, Prod.mk.injEq] at h
      obtain ⟨_, rfl⟩ := h
      exact rd_lt _ _ _ (by simp)
    · rename_i hl
      exact key (Or.inl (by simpa using hl)) h

theorem matchLoop_rbrace (n : Nat) (a : List (Nat × Node)) (p : parser)
    (a' : List (Nat × Node)) (q : parser) (hp : p.tok = Token.Rbrace)
    (h : parser.matchLoop n a p = some (a', q)) : q = p := by
  cases n with
  | zero => simp [parser.matchLoop] at h
  | succ k =>
    rw [parser.matchLoop, if_neg (by simp [hp])] at h
    simp only [Option.some.injEq, Prod.mk.injEq] at h
    exact h.2.symm

theorem matchLoop_sound (n : Nat) (ih : SoundAt n) (a : List (Nat × Node)) (p : parser)
    (a' : List (Nat × Node)) (q : parser) (h : parser.matchLoop (n + 1) a p = some (a', q)) :
    q.tok = Token.Rbrace ∧ Rd (Lenient LCat.cases) p q := by
  rw [parser.matchLoop] at h
  split at h
  · split at h
    · simp at h
    · rename_i jt q1 hq
      have s1 := ih.casestmt _ _ _ _ hq
      split at h
      · obtain ⟨e, s2⟩ := ih.matchLoop _ _ _ _ h
        exact ⟨e, rd_lt _ _ _ (lt_of_le_of_lt s1.1 (lt_of_lt_of_le (by simp) s2.1))⟩
      · rename_i hc
        obtain ⟨e, s3⟩ := ih.matchLoop _ _ _ _ h
        refine ⟨e, ?_⟩
        by_cases hcm : q1.tok = Token.Comma
        · rw [got_eq _ _ hcm] at s3
          have s2 := rd_tok q1 _ hcm (by decide)
          refine rd_mono (rd_seq s1 (rd_seq s2 s3)) ?_
          rintro _ ⟨x, _, rfl, hx, _, y, rfl, ⟨c, rfl, hc⟩, hy⟩
          exact Lenient.casesCons x c y hx hc hy
        · have hrb : q1.tok = Token.Rbrace := by
            by_contra hne
            exact hc ⟨hcm, hne⟩
          rw [got_ne _ _ hcm] at h
          have := matchLoop_rbrace _ _ _ _ _ hrb h
          subst this
          exact rd_mono s1 (fun x hx => Lenient.casesOne x hx)
  · rename_i hp
    simp only [Option.some.injEq, Prod.mk.injEq] at h
    obtain ⟨_, rfl⟩ := h
    exact ⟨by simpa using hp, rd_refl _ _ Lenient.casesNil⟩

theorem matchstmt_sound (n : Nat) (ih : SoundAt n) (p : parser) (r : Node) (q : parser)
    (h : parser.matchstmt (n + 1) p = some (r, q)) (hp : p.tok = Token.Match) :
    Rd (Lenient LCat.matchS) p q := by
  rw [parser.matchstmt, if_neg (by simp [hp])] at h
  split at h
  · simp at h
  · rename_i cond q1 hc
    split at h
    · simp at h
    · rename_i jt r1 hl
      simp only [Option.some.injEq, Prod.mk.injEq] at h
      obtain ⟨_, rfl⟩ := h
      obtain ⟨hr, s4⟩ := ih.matchLoop _ _ _ _ hl
      rw [got_eq _ _ hr]
      have s1 := rd_tok p _ hp (by decide)
      have s3 := rd_want q1 Token.Lbrace (by decide)
      have s5 := rd_tok r1 _ hr (by decide)
      split at hc
      · rename_i hlit
        simp only [Option.some.injEq] at hc
        have hq : q1 = p.next.literal.2 := by rw [hc]
        subst hq
        have s2 := rd_literal p.next hlit
        refine rd_mono (rd_seq s1 (rd_seq s2 (rd_seq s3 (rd_seq s4 s5)))) ?_
        rintro _ ⟨_, _, rfl, ⟨m, rfl, hm⟩, _, _, rfl, ⟨l, rfl, hl⟩, _, _, rfl, ⟨lb, rfl, hlb⟩,
          cs, _, rfl, hcs, ⟨rb, rfl, hrb⟩⟩
        exact Lenient.matchLit m l lb rb cs hm hl hlb hrb hcs
      · rename_i href
        have s2 := (ref_sound n).1 _ _ _ hc href
        refine rd_mono (rd_seq s1 (rd_seq s2 (rd_seq s3 (rd_seq s4 s5)))) ?_
        rintro _ ⟨_, _, rfl, ⟨m, rfl, hm⟩, x, _, rfl, hx, _, _, rfl, ⟨lb, rfl, hlb⟩,
          cs, _, rfl, hcs, ⟨rb, rfl, hrb⟩⟩
        exact Lenient.matchRef m lb rb x cs hm hx hlb hrb hcs
      · simp only [Option.some.injEq, Prod.mk.injEq] at hc
        obtain ⟨_, rfl⟩ := hc
        have a3 := s3.1
        have a4 := s4.1
        simp only [next_errc, unexpected_errc] at a3
        exact rd_lt _ _ _ (by simp only [next_errc]; omega)

theorem chainLoop_term (n : Nat) (a : List Node) (p : parser) (a' : List Node) (q : parser)
    (hp : p.tok = Token.Semi ∨ p.tok = Token.EOF)
    (h : parser.chainLoop n a p = some (a', q)) : q = p := by
  cases n with
  | zero => simp [parser.chainLoop] at h
  | succ k =>
    rw [parser.chainLoop, if_neg (by rcases hp with hp | hp <;> simp [hp])] at h
    simp only [Option.some.injEq, Prod.mk.injEq] at h
    exact h.2.symm

theorem chainLoop_sound (n : Nat) (ih : SoundAt n) (a : List Node) (p : parser)
    (a' : List Node) (q : parser) (h : parser.chainLoop (n + 1) a p = some (a', q)) :
    Rd (Lenient LCat.rest) p q := by
  rw [parser.chainLoop] at h
  split at h
  · split at h
    · exact rd_lt_then _ _ (by simp) (ih.chainLoop _ _ _ _ h)
    · rename_i hn
      have hn' : p.tok = Token.Name := by simpa using hn
      split at h
      · simp at h
      · rename_i c q1 hq
        have s1 := rd_ident p hn'
        have s2 := ih.command _ _ _ _ hq
        split at h
        · have s4 := ih.chainLoop _ _ _ _ h
          exact rd_then_lt _ _ (rd_seq s1 s2) (lt_of_lt_of_le (by simp) s4.1)
        · rename_i hc
          have s4 := ih.chainLoop _ _ _ _ h
          by_cases ha : q1.tok = Token.Arrow
          · rw [got_eq _ _ ha] at s4
            have s3 := rd_tok q1 _ ha (by decide)
            refine rd_mono (rd_seq s1 (rd_seq s2 (rd_seq s3 s4))) ?_
            rintro _ ⟨_, _, rfl, ⟨i, rfl, hi⟩, a, _, rfl, ha, _, y, rfl, ⟨ar, rfl, har⟩, hy⟩
            exact Lenient.restCons i a ar y hi ha har hy
          · rw [got_ne _ _ ha] at h hc
            have ht : q1.tok = Token.Semi ∨ q1.tok = Token.EOF := by
              by_contra hne
              push_neg at hne
              exact hc ⟨by simp, hne.1, hne.2⟩
            have := chainLoop_term _ _ _ _ _ ht h
            subst this
            refine rd_mono (rd_seq s1 s2) ?_
            rintro _ ⟨_, a, rfl, ⟨i, rfl, hi⟩, ha⟩
            exact Lenient.restOne i a hi ha
  · simp only [Option.some.injEq, Prod.mk.injEq] at h
    obtain ⟨_, rfl⟩ := h
    exact rd_refl _ _ Lenient.restNil

theorem chain_sound (n : Nat) (ih : SoundAt n) (c : Node) (p : parser) (r : Node) (q : parser)
    (h : parser.chain (n + 1) c p = some (r, q)) : Rd (Lenient LCat.rest) p q := by
  rw [parser.chain] at h
  split at h
  · simp at h
  · rename_i cmds q1 hq
    simp only [Option.some.injEq, Prod.mk.injEq] at h
    obtain ⟨_, rfl⟩ := h
    exact ih.chainLoop _ _ _ _ hq

theorem operand_sound (n : Nat) (ih : SoundAt n) (p : parser) (r : Node) (q : parser)
    (h : parser.operand (n + 1) p = some (r, q)) : Rd (Lenient LCat.operand) p q := by
  rw [parser.operand] at h
  split at h
  · rename_i hl
    simp only [Option.some.injEq] at h
    have hq : q = p.literal.2 := by rw [h]
    subst hq
    refine rd_mono (rd_literal p hl) ?_
    rintro _ ⟨l, rfl, hl⟩
    exact Lenient.opLit l hl
  · rename_i hr
    exact rd_mono ((ref_sound n).1 _ _ _ h hr) Lenient.opRef
  · exact rd_mono (ih.obj _ _ _ h) Lenient.opObj
  · exact rd_mono (arr_sound n _ _ _ h) Lenient.opArr
  · simp only [Option.some.injEq, Prod.mk.injEq] at h
    obtain ⟨_, rfl⟩ := h
    exact rd_lt _ _ _ (by simp)

theorem commandLoop_sound (n : Nat) (ih : SoundAt n) (a : List Node) (p : parser)
    (a' : List Node) (q : parser) (h : parser.commandLoop (n + 1) a p = some (a', q)) :
    Rd (Lenient LCat.args) p q := by
  rw [parser.commandLoop] at h
  split at h
  · split at h
    · simp at h
    · rename_i n1 q1 hq
      refine rd_mono (rd_seq (ih.expr _ _ _ hq) (ih.commandLoop _ _ _ _ h)) ?_
      rintro _ ⟨x, y, rfl, hx, hy⟩
      exact Lenient.argsCons x y hx hy
  · simp only [Option.some.injEq, Prod.mk.injEq] at h
    obtain ⟨_, rfl⟩ := h
    exact rd_refl _ _ Lenient.argsNil

theorem command_sound (n : Nat) (ih : SoundAt n) (name : String) (p : parser) (r : Node)
    (q : parser) (h : parser.command (n + 1) name p = some (r, q)) :
    Rd (Lenient LCat.args) p q := by
  rw [parser.command] at h
  split at h
  · simp at h
  · rename_i args q1 hq
    simp only [Option.some.injEq, Prod.mk.injEq] at h
    obtain ⟨_, rfl⟩ := h
    exact ih.commandLoop _ _ _ _ hq

/-- A command, and the chain it may start, as `expr` and `stmt` read them. -/
theorem cmdChain_sound (n : Nat) (ih : SoundAt n) (p : parser) (r : Node) (q : parser)
    (hn : p.tok = Token.Name)
    (h : (match parser.command n p.lit p.ident.2 with
      | none => none
      | some (c, q) =>
        if (q.got Token.Arrow).1 = true then parser.chain n c (q.got Token.Arrow).2
        else some (c, (q.got Token.Arrow).2)) = some (r, q)) :
    Rd (fun x => (∃ i a, x = i :: a ∧ i.tok = Token.Name ∧ Lenient LCat.args a) ∨
      (∃ i a ar t, x = i :: (a ++ ar :: t) ∧ i.tok = Token.Name ∧ Lenient LCat.args a ∧
        ar.tok = Token.Arrow ∧ Lenient LCat.rest t)) p q := by
  split at h
  · simp at h
  · rename_i c q1 hq
    have s1 := rd_ident p hn
    have s2 := ih.command _ _ _ _ hq
    split at h
    · rename_i hg
      have ha : q1.tok = Token.Arrow := by
        by_contra hne
        rw [got_ne _ _ hne] at hg
        simp at hg
      rw [got_eq _ _ ha] at h
      have s3 := rd_tok q1 _ ha (by decide)
      have s4 := ih.chain _ _ _ _ h
      refine rd_mono (rd_seq s1 (rd_seq s2 (rd_seq s3 s4))) ?_
      rintro _ ⟨_, _, rfl, ⟨i, rfl, hi⟩, a, _, rfl, ha, _, y, rfl, ⟨ar, rfl, har⟩, hy⟩
      exact Or.inr ⟨i, a, ar, y, rfl, hi, ha, har, hy⟩
    · rename_i hg
      have ha : q1.tok ≠ Token.Arrow := fun e => hg (by rw [got_eq _ _ e])
      rw [got_ne _ _ ha] at h
      simp only [Option.some.injEq, Prod.mk.injEq] at h
      obtain ⟨_, rfl⟩ := h
      refine rd_mono (rd_seq s1 s2) ?_
      rintro _ ⟨_, a, rfl, ⟨i, rfl, hi⟩, ha⟩
      exact Or.inl ⟨i, a, rfl, hi, ha⟩

theorem expr_sound (n : Nat) (ih : SoundAt n) (p : parser) (r : Node) (q : parser)
    (h : parser.expr (n + 1) p = some (r, q)) : Rd (Lenient LCat.expr) p q := by
  rw [parser.expr] at h
  split at h
  · rename_i hn
    refine rd_mono (cmdChain_sound n ih p r q hn h) ?_
    rintro _ (⟨i, a, rfl, hi, ha⟩ | ⟨i, a, ar, t, rfl, hi, ha, har, ht⟩)
    · exact Lenient.exprCmd i a hi ha
    · exact Lenient.exprChain i a ar t hi ha har ht
  · rename_i hm
    exact rd_mono (ih.matchstmt _ _ _ h hm) Lenient.exprMatch
  · exact rd_mono (ih.operand _ _ _ h) Lenient.exprOperand

theorem vardecl_sound (n : Nat) (ih : SoundAt n) (i : Node) (p : parser) (r : Node)
    (q : parser) (h : parser.vardecl (n + 1) i p = some (r, q)) (hp : p.tok = Token.Assign) :
    Rd VarRight p q := by
  rw [parser.vardecl, if_neg (by simp [got_eq p _ hp]), got_eq p _ hp] at h
  split at h
  · simp at h
  · rename_i val q1 hq
    simp only [Option.some.injEq, Prod.mk.injEq] at h
    obtain ⟨_, rfl⟩ := h
    refine rd_mono (rd_seq (rd_tok p _ hp (by decide)) (ih.expr _ _ _ hq)) ?_
    rintro _ ⟨_, x, rfl, ⟨e, rfl, he⟩, hx⟩
    exact ⟨e, x, rfl, he, hx⟩

theorem stmtBody_sound (n : Nat) (ih : SoundAt n) (p : parser) (r : Node) (q : parser)
    (h : parser.stmtBody (n + 1) p = some (r, q)) : Rd (Lenient LCat.stmtBody) p q := by
  rw [parser.stmtBody] at h
  split at h
  · rename_i hn
    split at h
    · rename_i ha
      refine rd_mono (rd_seq (rd_ident p hn) (ih.vardecl _ _ _ _ h ha)) ?_
      rintro _ ⟨_, _, rfl, ⟨i, rfl, hi⟩, e, y, rfl, he, hy⟩
      exact Lenient.stmtVar i e y hi he hy
    · refine rd_mono (cmdChain_sound n ih p r q hn h) ?_
      rintro _ (⟨i, a, rfl, hi, ha⟩ | ⟨i, a, ar, t, rfl, hi, ha, har, ht⟩)
      · exact Lenient.stmtCmd i a hi ha
      · exact Lenient.stmtChain i a ar t hi ha har ht
  · rename_i hm
    exact rd_mono (ih.matchstmt _ _ _ h hm) Lenient.stmtMatch
  · rename_i hy
    exact rd_mono (ih.yield _ _ _ h hy) Lenient.stmtYield
  · simp only [Option.some.injEq, Prod.mk.injEq] at h
    obtain ⟨_, rfl⟩ := h
    exact rd_lt _ _ _ (by simp)

theorem stmt_sound (n : Nat) (ih : SoundAt n) (p : parser) (r : Node) (q : parser)
    (h : parser.stmt (n + 1) p = some (r, q)) : Rd (StmtRead q) p q := by
  rw [parser.stmt] at h
  split at h
  · simp at h
  · rename_i n1 q1 hq
    have s1 := ih.stmtBody _ _ _ hq
    split at h
    · split at h
      · simp only [Option.some.injEq, Prod.mk.injEq] at h
        obtain ⟨_, rfl⟩ := h
        exact rd_then_lt _ _ s1 (by simp)
      · rename_i hg
        have hs : q1.tok = Token.Semi := by
          by_contra hne
          rw [got_ne _ _ hne] at hg
          simp at hg
        rw [got_eq _ _ hs] at h
        simp only [Option.some.injEq, Prod.mk.injEq] at h
        obtain ⟨_, rfl⟩ := h
        refine rd_mono (rd_seq s1 (rd_tok q1 _ hs (by decide))) ?_
        rintro _ ⟨b, _, rfl, hb, ⟨sm, rfl, hsm⟩⟩
        exact Or.inl ⟨b, sm, rfl, hsm, hb⟩
    · rename_i he
      have he' : q1.tok = Token.EOF := by simpa using he
      simp only [Option.some.injEq, Prod.mk.injEq] at h
      obtain ⟨_, rfl⟩ := h
      exact rd_mono s1 (fun x hx => Or.inr ⟨he', hx⟩)

theorem soundAt_zero : SoundAt 0 := by
  constructor <;> intros <;> simp_all [parser.objItem, parser.obj, parser.blockstmt,
    parser.blockLoop, parser.yield, parser.casestmtRight, parser.casestmt, parser.matchstmt,
    parser.matchLoop, parser.chain, parser.chainLoop, parser.operand, parser.expr,
    parser.command, parser.commandLoop, parser.vardecl, parser.stmtBody, parser.stmt]

theorem soundAt (n : Nat) : SoundAt n := by
  induction n with
  | zero => exact soundAt_zero
  | succ n ih =>
    exact ⟨objItem_sound n ih, obj_sound n ih, blockstmt_sound n ih, blockLoop_sound n ih,
      yield_sound n ih, casestmtRight_sound n ih, casestmt_sound n ih, matchstmt_sound n ih,
      matchLoop_sound n ih, chain_sound n ih, chainLoop_sound n ih, operand_sound n ih,
      expr_sound n ih, command_sound n ih, commandLoop_sound n ih, vardecl_sound n ih,
      stmtBody_sound n ih, stmt_sound n ih⟩

theorem parseLoop_eof (n : Nat) (a : List Node) (p : parser) (a' : List Node) (q : parser)
    (hp : p.tok = Token.EOF) (h : parser.parseLoop n a p = some (a', q)) : q = p := by
  cases n with
  | zero => simp [parser.parseLoop] at h
  | succ k =>
    rw [parser.parseLoop, if_neg (by simp [hp])] at h
    simp only [Option.some.injEq, Prod.mk.injEq] at h
    exact h.2.symm

theorem parseLoop_sound (n : Nat) : ∀ (a : List Node) (p : parser) (a' : List Node)
    (q : parser), parser.parseLoop n a p = some (a', q) →
    q.tok = Token.EOF ∧ Rd (Lenient LCat.program) p q := by
  induction n with
  | zero => intro a p a' q h; simp [parser.parseLoop] at h
  | succ n ih =>
    intro a p a' q h
    rw [parser.parseLoop] at h
    split at h
    · split at h
      · simp at h
      · rename_i n1 q1 hq
        have s1 := (soundAt n).stmt _ _ _ hq
        obtain ⟨e, s2⟩ := ih _ _ _ _ h
        refine ⟨e, ?_⟩
        by_cases he : q1.tok = Token.EOF
        · have := parseLoop_eof _ _ _ _ _ he h
          subst this
          refine rd_mono s1 ?_
          rintro x (⟨b, sm, rfl, hsm, hb⟩ | ⟨_, hx⟩)
          · exact Lenient.progCons b sm [] hb hsm Lenient.progNil
          · exact Lenient.progLast x hx
        · refine rd_mono (rd_seq s1 s2) ?_
          rintro _ ⟨x, y, rfl, hx, hy⟩
          rcases hx with ⟨b, sm, rfl, hsm, hb⟩ | ⟨he', _⟩
          · simpa using Lenient.progCons b sm y hb hsm hy
          · exact absurd he' he
    · rename_i hp
      simp only [Option.some.injEq, Prod.mk.injEq] at h
      obtain ⟨_, rfl⟩ := h
      exact ⟨by simpa using hp, rd_refl _ _ Lenient.progNil⟩


theorem lenient_no_eof (c : LCat) (ts : List Item) (h : Lenient c ts) :
    ∀ x ∈ ts, x.tok ≠ Token.EOF := by
  induction h <;> intro z hz <;>
    (try simp only [List.mem_cons, List.mem_append, List.mem_singleton, List.not_mem_nil,
      or_false, false_or] at hz) <;> aesop

theorem eof_split (body : List Item) (e : Item) (he : e.tok = Token.EOF) :
    ∀ (pre rest : List Item), (∀ x ∈ body, x.tok ≠ Token.EOF) →
      (∀ x ∈ pre, x.tok ≠ Token.EOF) → tokOf rest = Token.EOF →
      body ++ [e] = pre ++ rest → pre = body := by
  induction body with
  | nil =>
    intro pre rest _ hp _ h
    cases pre with
    | nil => rfl
    | cons a pre' =>
      simp only [List.nil_append, List.cons_append, List.cons.injEq] at h
      exact absurd (h.1 ▸ he) (hp a (List.mem_cons_self _ _))
  | cons b bs ih =>
    intro pre rest hb hp hr h
    cases pre with
    | nil =>
      simp only [List.nil_append, List.cons_append] at h
      rw [← h] at hr
      exact absurd hr (hb b (List.mem_cons_self _ _))
    | cons a pre' =>
      simp only [List.cons_append, List.cons.injEq] at h
      rw [← h.1, ih pre' rest (fun x hx => hb x (List.mem_cons_of_mem _ hx))
        (fun x hx => hp x (List.mem_cons_of_mem _ hx)) hr h.2]

/-- A stream on which `parse` returns without a diagnostic conforms to the
grammar `Lenient`. -/
theorem parse_sound (body : List Item) (e : Item) (fuel : Nat) (r : List Node × parser)
    (he : e.tok = Token.EOF) (hbody : ∀ x ∈ body, x.tok ≠ Token.EOF)
    (h : parser.parse fuel (parser.init (body ++ [e])) = some r) (hz : r.2.errc = 0) :
    Lenient LCat.program body := by
  obtain ⟨nodes, q⟩ := r
  obtain ⟨hq, hrd⟩ := parseLoop_sound fuel [] _ nodes q h
  obtain ⟨pre, hpre, hl⟩ := hrd.2 hz
  have := eof_split body e he pre q.toks hbody (lenient_no_eof _ _ hl) hq hpre
  rw [← this]
  exact hl


/-! ## Termination on streams without a match statement -/

theorem adv_refl (p : parser) : Adv p p := List.suffix_refl _

theorem adv_trans {a b c : parser} (h1 : Adv a b) (h2 : Adv b c) : Adv a c :=
  List.IsSuffix.trans h1 h2

theorem adv_le {q p : parser} (h : Adv q p) : q.toks.length ≤ p.toks.length :=
  List.IsSuffix.length_le h

theorem adv_next (p : parser) : Adv p.next p := by
  unfold parser.next
  split
  · exact adv_refl p
  · exact List.tail_suffix _

theorem adv_err (p : parser) (m : Msg) : Adv (p.err m) p := List.suffix_refl _

theorem adv_expected (p : parser) (t : Token) : Adv (p.expected t) p := List.suffix_refl _

theorem adv_unexpected (p : parser) (t : Token) : Adv (p.unexpected t) p := List.suffix_refl _

theorem adv_got (p : parser) (t : Token) : Adv (p.got t).2 p := by
  unfold parser.got
  split
  · exact adv_next p
  · exact adv_refl p

theorem adv_want (p : parser) (t : Token) : Adv (p.want t) p := by
  unfold parser.want
  split
  · exact adv_got p t
  · exact adv_expected p t

theorem adv_ident (p : parser) : Adv p.ident.2 p := by
  unfold parser.ident
  split
  · exact adv_refl p
  · exact adv_next p

theorem adv_literal (p : parser) : Adv p.literal.2 p := by
  unfold parser.literal
  split
  · exact adv_refl p
  · exact adv_next p

theorem next_lt (p : parser) (h : p.tok ≠ Token.EOF) : p.next.toks.length < p.toks.length := by
  obtain ⟨ts, c, s⟩ := p
  cases ts with
  | nil => exact absurd rfl h
  | cons i R =>
    rw [next_cons i R c s h]
    simp

theorem matchFree_adv {q p : parser} (h : Adv q p) (hp : MatchFree p.toks) :
    MatchFree q.toks :=
  fun x hx => hp x (List.IsSuffix.subset h hx)

theorem matchFree_tok (p : parser) (hp : MatchFree p.toks) : p.tok ≠ Token.Match := by
  obtain ⟨ts, c, s⟩ := p
  cases ts with
  | nil => rw [tok_nil]; decide
  | cons i R => exact hp i (List.mem_cons_self _ _)

theorem halts_ret {β : Type} {p : parser} {f : Nat → Option (β × parser)} {st : Prop}
    (r : β × parser) (h : f 1 = some r) (ha : Adv r.2 p)
    (hs : st → r.2.toks.length < p.toks.length) : Halts p f st :=
  ⟨r, ⟨1, h⟩, ha, hs⟩

/-- A function that, one unit of fuel down, is a call of `g` from a state
`q` further on returns when `g` does. -/
theorem halts_map {β γ : Type} {p q : parser} {f : Nat → Option (γ × parser)}
    {g : Nat → Option (β × parser)} {sg st : Prop}
    (hg : Halts q g sg) (hq : Adv q p) (hst : st → sg ∨ q.toks.length < p.toks.length)
    (hfg : ∀ k r, g k = some r → ∃ x, f (k + 1) = some (x, r.2)) : Halts p f st := by
  obtain ⟨r, ⟨k, hk⟩, ha, hs⟩ := hg
  obtain ⟨x, hx⟩ := hfg k r hk
  refine ⟨(x, r.2), ⟨k + 1, hx⟩, adv_trans ha hq, fun h => ?_⟩
  rcases hst h with h1 | h1
  · exact lt_of_lt_of_le (hs h1) (adv_le hq)
  · exact lt_of_le_of_lt (adv_le ha) h1

theorem refLoop_halts (p : parser)
    (IH : ∀ q, Adv q p → q.toks.length < p.toks.length → TermAt q) (l : Node) :
    Halts p (fun k => parser.refLoop k l p) False := by
  by_cases hd : p.tok = Token.Dot
  · have hne : p.tok ≠ Token.EOF := by rw [hd]; decide
    by_cases hn : p.next.tok = Token.Name
    · have hq : Adv p.next.ident.2 p := adv_trans (adv_ident _) (adv_next _)
      have hl : p.next.ident.2.toks.length < p.toks.length :=
        lt_of_le_of_lt (adv_le (adv_ident _)) (next_lt p hne)
      refine halts_map ((IH _ hq hl).refLoop (Node.DotExpr p.pos l p.next.ident.1)) hq
        False.elim (fun k r hk => ⟨r.1, ?_⟩)
      show parser.refLoop (k + 1) l p = _
      rw [parser.refLoop]
      simp only [hd]
      rw [if_neg (by simp [hn])]
      exact hk
    · refine halts_ret (Node.nil, (p.next.expected Token.Name).next) ?_
        (adv_trans (adv_next _) (adv_trans (adv_expected _ _) (adv_next _))) False.elim
      show parser.refLoop 1 l p = _
      rw [parser.refLoop]
      simp only [hd]
      rw [if_pos hn]
  · by_cases hb : p.tok = Token.Lbrack
    · have hne : p.tok ≠ Token.EOF := by rw [hb]; decide
      by_cases hr : p.next.tok = Token.Rbrack
      · have hq : Adv (p.next.err (Msg.text "expected string, int, or variable")).next p :=
          adv_trans (adv_next _) (adv_trans (adv_err _ _) (adv_next _))
        have hl : (p.next.err (Msg.text "expected string, int, or variable")).next.toks.length
            < p.toks.length :=
          lt_of_le_of_lt (adv_le (adv_trans (adv_next _) (adv_err _ _))) (next_lt p hne)
        refine halts_map ((IH _ hq hl).refLoop l) hq False.elim (fun k r hk => ⟨r.1, ?_⟩)
        show parser.refLoop (k + 1) l p = _
        rw [parser.refLoop]
        simp only [hb]
        rw [if_pos hr]
        exact hk
      · by_cases hlit : p.next.tok = Token.Literal
        · have hq : Adv p.next.literal.2 p := adv_trans (adv_literal _) (adv_next _)
          have hl : p.next.literal.2.toks.length < p.toks.length :=
            lt_of_le_of_lt (adv_le (adv_literal _)) (next_lt p hne)
          refine halts_map ((IH _ hq hl).refLoop (Node.IndExpr p.pos l p.next.literal.1)) hq
            False.elim (fun k r hk => ⟨r.1, ?_⟩)
          show parser.refLoop (k + 1) l p = _
          rw [parser.refLoop]
          simp only [hb]
          rw [if_neg hr]
          split
          · exact hk
          · rename_i h; rw [hlit] at h; exact absurd h (by decide)
          · rename_i h _; exact absurd hlit h
        · by_cases hrf : p.next.tok = Token.Ref
          · obtain ⟨⟨r1, q1⟩, h1, ha1, _⟩ := (IH p.next (adv_next p) (next_lt p hne)).ref
            have hq1 : Adv q1 p := adv_trans ha1 (adv_next p)
            have hl1 : q1.toks.length < p.toks.length :=
              lt_of_le_of_lt (adv_le ha1) (next_lt p hne)
            obtain ⟨r2, h2, ha2, _⟩ := (IH q1 hq1 hl1).refLoop (Node.IndExpr p.pos l r1)
            obtain ⟨k, hk1, hk2⟩ := ret_both _ _ (fun n r => (ref_mono n).1 p.next r)
              (fun n r => (ref_mono n).2 _ q1 r) _ _ h1 h2
            have hk1' : parser.ref k p.next = some (r1, q1) := hk1
            refine ⟨r2, ⟨k + 1, ?_⟩, adv_trans ha2 hq1, False.elim⟩
            show parser.refLoop (k + 1) l p = _
            rw [parser.refLoop]
            simp only [hb]
            rw [if_neg hr]
            split
            · rename_i h; exact absurd h hlit
            · rw [hk1']
              exact hk2
            · rename_i h; exact absurd hrf h
          · have hq : Adv (p.next.unexpected p.next.tok).next p :=
              adv_trans (adv_next _) (adv_trans (adv_unexpected _ _) (adv_next _))
            have hl : (p.next.unexpected p.next.tok).next.toks.length < p.toks.length :=
              lt_of_le_of_lt (adv_le (adv_trans (adv_next _) (adv_unexpected _ _)))
                (next_lt p hne)
            refine halts_map ((IH _ hq hl).refLoop (Node.IndExpr p.pos l Node.nil)) hq
              False.elim (fun k r hk => ⟨r.1, ?_⟩)
            show parser.refLoop (k + 1) l p = _
            rw [parser.refLoop]
            simp only [hb]
            rw [if_neg hr]
            exact hk
    · refine halts_ret (Node.Ref l, p) ?_ (adv_refl p) False.elim
      show parser.refLoop 1 l p = _
      rw [parser.refLoop]
      split
      · rename_i h; exact absurd h hd
      · rename_i h; exact absurd h hb
      · rfl

theorem ref_halts (p : parser)
    (IH : ∀ q, Adv q p → q.toks.length < p.toks.length → TermAt q) :
    Halts p (fun k => parser.ref k p) (p.tok = Token.Ref) := by
  by_cases hr : p.tok = Token.Ref
  · have hne : p.tok ≠ Token.EOF := by rw [hr]; decide
    have hq : Adv p.next.ident.2 p := adv_trans (adv_ident _) (adv_next _)
    have hl : p.next.ident.2.toks.length < p.toks.length :=
      lt_of_le_of_lt (adv_le (adv_ident _)) (next_lt p hne)
    refine halts_map ((IH _ hq hl).refLoop p.next.ident.1) hq (fun _ => Or.inr hl)
      (fun k r hk => ⟨r.1, ?_⟩)
    show parser.ref (k + 1) p = _
    rw [parser.ref, if_neg (by simp [hr]), got_eq p _ hr]
    exact hk
  · refine halts_ret (Node.nil, p) ?_ (adv_refl p) (fun h => absurd h hr)
    show parser.ref 1 p = _
    rw [parser.ref, if_pos hr]

theorem list_halts {α : Type} (sep fin : Token)
    (item : Nat → α → parser → Option (α × parser))
    (hmono : ∀ k a p r, item k a p = some r → item (k + 1) a p = some r) :
    ∀ (L : Nat) (p : parser), p.toks.length ≤ L →
      (∀ a q, Adv q p → q.tok ≠ Token.EOF → Halts q (fun k => item k a q) True) →
      ∀ acc, Halts p (fun k => parser.list sep fin (item k) k acc p) False := by
  intro L
  induction L with
  | zero =>
    intro p hL _ acc
    have hp : p.tok = Token.EOF := by
      obtain ⟨ts, c, s⟩ := p
      cases ts with
      | nil => rfl
      | cons i R => simp at hL
    refine halts_ret (acc, p.want fin) ?_ (adv_want p fin) False.elim
    show parser.list sep fin (item 1) 1 acc p = _
    rw [parser.list, if_neg (by simp [hp])]
  | succ L ih =>
    intro p hL hitem acc
    by_cases hc : p.tok ≠ Token.EOF ∧ p.tok ≠ fin
    · obtain ⟨⟨a1, p1⟩, h1, ha1, hs1⟩ := hitem acc p (adv_refl p) hc.1
      have hl1 : p1.toks.length < p.toks.length := hs1 trivial
      have hmonoL : ∀ (a : α) (q : parser) (n : Nat) (r : α × parser),
          parser.list sep fin (item n) n a q = some r →
          parser.list sep fin (item (n + 1)) (n + 1) a q = some r :=
        fun a q n r h => list_mono sep fin (item n) (item (n + 1))
          (fun a q r h => hmono n a q r h) n a q r h
      by_cases he : ¬ (p1.got sep).1 = true ∧ (p1.got sep).2.tok ≠ fin
      · have ha2 : Adv ((p1.got sep).2.err (Msg.expectedOr sep fin)).next p1 :=
          adv_trans (adv_next _) (adv_trans (adv_err _ _) (adv_got _ _))
        obtain ⟨r2, h2, hr2, _⟩ := ih _ (by have := adv_le ha2; omega)
          (fun a q hq hne => hitem a q (adv_trans hq (adv_trans ha2 ha1)) hne) a1
        obtain ⟨k, hk1, hk2⟩ := ret_both _ _ (fun n r => hmono n acc p r)
          (fun n r => hmonoL a1 _ n r) _ _ h1 h2
        refine ⟨r2, ⟨k + 1, ?_⟩, adv_trans hr2 (adv_trans ha2 ha1), False.elim⟩
        show parser.list sep fin (item (k + 1)) (k + 1) acc p = _
        rw [parser.list, if_pos hc, hmono _ _ _ _ hk1]
        simp only
        rw [if_pos he]
        exact list_ext _ _ _ _ (fun a q r h => hmono k a q r h) k _ _ _ hk2
      · have ha2 : Adv (p1.got sep).2 p1 := adv_got _ _
        obtain ⟨r2, h2, hr2, _⟩ := ih _ (by have := adv_le ha2; omega)
          (fun a q hq hne => hitem a q (adv_trans hq (adv_trans ha2 ha1)) hne) a1
        obtain ⟨k, hk1, hk2⟩ := ret_both _ _ (fun n r => hmono n acc p r)
          (fun n r => hmonoL a1 _ n r) _ _ h1 h2
        refine ⟨r2, ⟨k + 1, ?_⟩, adv_trans hr2 (adv_trans ha2 ha1), False.elim⟩
        show parser.list sep fin (item (k + 1)) (k + 1) acc p = _
        rw [parser.list, if_pos hc, hmono _ _ _ _ hk1]
        simp only
        rw [if_neg he]
        exact list_ext _ _ _ _ (fun a q r h => hmono k a q r h) k _ _ _ hk2
    · refine halts_ret (acc, p.want fin) ?_ (adv_want p fin) False.elim
      show parser.list sep fin (item 1) 1 acc p = _
      rw [parser.list, if_neg hc]

theorem arrItem_halts (a : List Node) (q : parser) (hq : q.tok ≠ Token.EOF) :
    Halts q (fun _ => parser.arrItem a q) True := by
  by_cases hl : q.tok = Token.Literal
  · refine halts_ret (a ++ [q.literal.1], q.literal.2) ?_ (adv_literal q) (fun _ => ?_)
    · show parser.arrItem a q = _
      unfold parser.arrItem
      rw [if_neg (by simp [hl])]
    · show q.literal.2.toks.length < _
      rw [literal_eq q hl]
      exact next_lt q hq
  · refine halts_ret (a, (q.expected Token.Literal).next) ?_
      (adv_trans (adv_next _) (adv_expected _ _))
      (fun _ => next_lt (q.expected Token.Literal) hq)
    show parser.arrItem a q = _
    unfold parser.arrItem
    rw [if_pos hl]

theorem arr_halts (p : parser) (hb : p.tok = Token.Lbrack) :
    Halts p (fun k => parser.arr k p) True := by
  have hne : p.tok ≠ Token.EOF := by rw [hb]; decide
  have h := list_halts Token.Comma Token.Rbrack (fun _ => parser.arrItem)
    (fun _ _ _ _ h => h) p.next.toks.length p.next (le_refl _)
    (fun a q _ hq => arrItem_halts a q hq) []
  refine halts_map h (adv_next p) (fun _ => Or.inr (next_lt p hne)) ?_
  rintro k ⟨items, q⟩ hk
  refine ⟨Node.Array p.next.pos items, ?_⟩
  have hk' : parser.list Token.Comma Token.Rbrack parser.arrItem (k + 1) [] p.next =
      some (items, q) := list_mono _ _ _ _ (fun _ _ _ h => h) k _ _ _ hk
  show parser.arr (k + 1) p = _
  unfold parser.arr
  rw [want_eq p _ hb, hk']

theorem objItem_halts (p : parser)
    (IH : ∀ q, Adv q p → q.toks.length < p.toks.length → TermAt q) (a : List Node) :
    Halts p (fun k => parser.objItem k a p) (p.tok ≠ Token.EOF) := by
  by_cases hn : p.tok = Token.Name
  · have hne : p.tok ≠ Token.EOF := by rw [hn]; decide
    have hq : Adv (p.ident.2.want Token.Colon) p := adv_trans (adv_want _ _) (adv_ident _)
    have hl : (p.ident.2.want Token.Colon).toks.length < p.toks.length := by
      refine lt_of_le_of_lt (adv_le (adv_want _ _)) ?_
      rw [ident_eq p hn]
      exact next_lt p hne
    refine halts_map (IH _ hq hl).operand hq (fun _ => Or.inr hl) ?_
    rintro k ⟨val, q⟩ hk
    have hk' : parser.operand k (p.ident.2.want Token.Colon) = some (val, q) := hk
    refine ⟨a ++ [Node.KeyExpr q.pos p.ident.1 val], ?_⟩
    show parser.objItem (k + 1) a p = _
    rw [parser.objItem, if_neg (by simp [hn]), hk']
  · refine halts_ret (a, (p.expected Token.Name).next) ?_
      (adv_trans (adv_next _) (adv_expected _ _))
      (fun h => next_lt (p.expected Token.Name) h)
    show parser.objItem 1 a p = _
    rw [parser.objItem, if_pos hn]

theorem obj_halts (p : parser)
    (IH : ∀ q, Adv q p → q.toks.length < p.toks.length → TermAt q)
    (hb : p.tok = Token.Lbrace) : Halts p (fun k => parser.obj k p) True := by
  have hne : p.tok ≠ Token.EOF := by rw [hb]; decide
  have h := list_halts Token.Comma Token.Rbrace (fun k a q => parser.objItem k a q)
    (fun k a q r h => (monoAt k).objItem a q r h) p.next.toks.length p.next (le_refl _)
    (fun a q hq hqe => by
      obtain ⟨r, hr, ha, hs⟩ := (IH q (adv_trans hq (adv_next p))
        (lt_of_le_of_lt (adv_le hq) (next_lt p hne))).objItem a
      exact ⟨r, hr, ha, fun _ => hs hqe⟩) []
  refine halts_map h (adv_next p) (fun _ => Or.inr (next_lt p hne)) ?_
  rintro k ⟨pairs, q⟩ hk
  have hk' : parser.list Token.Comma Token.Rbrace (fun acc q => parser.objItem k acc q) k []
      p.next = some (pairs, q) := hk
  refine ⟨Node.Object p.next.pos pairs, ?_⟩
  show parser.obj (k + 1) p = _
  rw [parser.obj, want_eq p _ hb, hk']

theorem operand_halts (p : parser)
    (href : Halts p (fun k => parser.ref k p) (p.tok = Token.Ref))
    (hobj : p.tok = Token.Lbrace → Halts p (fun k => parser.obj k p) True) :
    Halts p (fun k => parser.operand k p) (p.tok ≠ Token.EOF) := by
  by_cases h1 : p.tok = Token.Literal
  · refine halts_ret p.literal ?_ (adv_literal p) (fun h => ?_)
    · show parser.operand 1 p = _
      rw [parser.operand]
      simp only [h1]
    · rw [literal_eq p h1]
      exact next_lt p h
  · by_cases h2 : p.tok = Token.Ref
    · refine halts_map href (adv_refl p) (fun _ => Or.inl h2) (fun k r hk => ⟨r.1, ?_⟩)
      show parser.operand (k + 1) p = _
      rw [parser.operand]
      simp only [h2]
      exact hk
    · by_cases h3 : p.tok = Token.Lbrace
      · refine halts_map (hobj h3) (adv_refl p) (fun _ => Or.inl trivial)
          (fun k r hk => ⟨r.1, ?_⟩)
        show parser.operand (k + 1) p = _
        rw [parser.operand]
        simp only [h3]
        exact hk
      · by_cases h4 : p.tok = Token.Lbrack
        · refine halts_map (arr_halts p h4) (adv_refl p) (fun _ => Or.inl trivial)
            (fun k r hk => ⟨r.1, ?_⟩)
          show parser.operand (k + 1) p = _
          rw [parser.operand]
          simp only [h4]
          exact hk
        · refine halts_ret (Node.nil, (p.unexpected p.tok).next) ?_
            (adv_trans (adv_next _) (adv_unexpected _ _))
            (fun h => next_lt (p.unexpected p.tok) h)
          show parser.operand 1 p = _
          rw [parser.operand]
          split
          · rename_i h; exact absurd h h1
          · rename_i h; exact absurd h h2
          · rename_i h; exact absurd h h3
          · rename_i h; exact absurd h h4
          · rfl

theorem yield_halts (p : parser)
    (IH : ∀ q, Adv q p → q.toks.length < p.toks.length → TermAt q)
    (hy : p.tok = Token.Yield) : Halts p (fun k => parser.yield k p) True := by
  have hne : p.tok ≠ Token.EOF := by rw [hy]; decide
  refine halts_map (IH p.next (adv_next p) (next_lt p hne)).operand (adv_next p)
    (fun _ => Or.inr (next_lt p hne)) ?_
  rintro k ⟨val, q⟩ hk
  have hk' : parser.operand k p.next = some (val, q) := hk
  refine ⟨Node.YieldStmt p.next.pos val, ?_⟩
  show parser.yield (k + 1) p = _
  rw [parser.yield, if_neg (by simp [got_eq p _ hy]), got_eq p _ hy]
  simp only [hk']

/-- A command, and the chain it may start, as `expr` and `stmt` read them. -/
theorem cmdChain_halts (p : parser)
    (IH : ∀ q, Adv q p → q.toks.length < p.toks.length → TermAt q)
    (hn : p.tok = Token.Name) :
    Halts p (fun k => (match parser.command k p.lit p.ident.2 with
      | none => none
      | some (c, q) =>
        if (q.got Token.Arrow).1 = true then parser.chain k c (q.got Token.Arrow).2
        else some (c, (q.got Token.Arrow).2))) True := by
  have hne : p.tok ≠ Token.EOF := by rw [hn]; decide
  have hq0 : Adv p.ident.2 p := adv_ident p
  have hl0 : p.ident.2.toks.length < p.toks.length := by
    rw [ident_eq p hn]
    exact next_lt p hne
  obtain ⟨⟨c, q1⟩, h1, ha1, _⟩ := (IH _ hq0 hl0).command p.lit
  have hq1 : Adv q1 p := adv_trans ha1 hq0
  have hl1 : q1.toks.length < p.toks.length := lt_of_le_of_lt (adv_le ha1) hl0
  by_cases ha : q1.tok = Token.Arrow
  · obtain ⟨r2, h2, ha2, _⟩ := (IH q1.next (adv_trans (adv_next _) hq1)
      (lt_of_le_of_lt (adv_le (adv_next _)) hl1)).chain c
    obtain ⟨k, hk1, hk2⟩ := ret_both _ _ (fun n r => (monoAt n).command p.lit p.ident.2 r)
      (fun n r => (monoAt n).chain c q1.next r) _ _ h1 h2
    have hk1' : parser.command k p.lit p.ident.2 = some (c, q1) := hk1
    have hk2' : parser.chain k c q1.next = some r2 := hk2
    refine ⟨r2, ⟨k, ?_⟩, adv_trans ha2 (adv_trans (adv_next _) hq1),
      fun _ => lt_of_le_of_lt (adv_le ha2) (lt_of_le_of_lt (adv_le (adv_next _)) hl1)⟩
    simp only [hk1', got_eq _ _ ha, if_true, hk2']
  · obtain ⟨k, hk⟩ := h1
    have hk' : parser.command k p.lit p.ident.2 = some (c, q1) := hk
    refine ⟨(c, q1), ⟨k, ?_⟩, hq1, fun _ => hl1⟩
    simp only [hk', got_ne _ _ ha]
    simp

theorem expr_halts (p : parser)
    (IH : ∀ q, Adv q p → q.toks.length < p.toks.length → TermAt q)
    (hp : MatchFree p.toks)
    (hop : Halts p (fun k => parser.operand k p) (p.tok ≠ Token.EOF)) :
    Halts p (fun k => parser.expr k p) (p.tok ≠ Token.EOF) := by
  by_cases hn : p.tok = Token.Name
  · refine halts_map (cmdChain_halts p IH hn) (adv_refl p) (fun _ => Or.inl trivial)
      (fun k r hk => ⟨r.1, ?_⟩)
    show parser.expr (k + 1) p = _
    rw [parser.expr]
    simp only [hn]
    exact hk
  · refine halts_map hop (adv_refl p) (fun h => Or.inl h) (fun k r hk => ⟨r.1, ?_⟩)
    show parser.expr (k + 1) p = _
    rw [parser.expr]
    split
    · rename_i h; exact absurd h hn
    · rename_i h; exact absurd h (matchFree_tok p hp)
    · exact hk

theorem commandLoop_halts (p : parser)
    (IH : ∀ q, Adv q p → q.toks.length < p.toks.length → TermAt q)
    (hexpr : Halts p (fun k => parser.expr k p) (p.tok ≠ Token.EOF)) (a : List Node) :
    Halts p (fun k => parser.commandLoop k a p) False := by
  by_cases hc : p.tok ≠ Token.Arrow ∧ p.tok ≠ Token.Semi ∧ p.tok ≠ Token.EOF
  · obtain ⟨⟨n1, q1⟩, h1, ha1, hs1⟩ := hexpr
    have hl1 := hs1 hc.2.2
    obtain ⟨r2, h2, ha2, _⟩ := (IH q1 ha1 hl1).commandLoop (a ++ [n1])
    obtain ⟨k, hk1, hk2⟩ := ret_both _ _ (fun n r => (monoAt n).expr p r)
      (fun n r => (monoAt n).commandLoop (a ++ [n1]) q1 r) _ _ h1 h2
    have hk1' : parser.expr k p = some (n1, q1) := hk1
    refine ⟨r2, ⟨k + 1, ?_⟩, adv_trans ha2 ha1, False.elim⟩
    show parser.commandLoop (k + 1) a p = _
    rw [parser.commandLoop, if_pos hc, hk1']
    exact hk2
  · refine halts_ret (a, p) ?_ (adv_refl p) False.elim
    show parser.commandLoop 1 a p = _
    rw [parser.commandLoop, if_neg hc]

theorem command_halts (p : parser)
    (hloop : ∀ a, Halts p (fun k => parser.commandLoop k a p) False) (name : String) :
    Halts p (fun k => parser.command k name p) False := by
  refine halts_map (hloop []) (adv_refl p) False.elim ?_
  rintro k ⟨args, q⟩ hk
  have hk' : parser.commandLoop k [] p = some (args, q) := hk
  refine ⟨Node.CommandStmt p.pos name args, ?_⟩
  show parser.command (k + 1) name p = _
  rw [parser.command, hk']

theorem chainLoop_halts (p : parser)
    (IH : ∀ q, Adv q p → q.toks.length < p.toks.length → TermAt q) (a : List Node) :
    Halts p (fun k => parser.chainLoop k a p) False := by
  by_cases hc : p.tok ≠ Token.Semi ∧ p.tok ≠ Token.EOF
  · by_cases hn : p.tok = Token.Name
    · have hq0 : Adv p.ident.2 p := adv_ident p
      have hl0 : p.ident.2.toks.length < p.toks.length := by
        rw [ident_eq p hn]
        exact next_lt p hc.2
      obtain ⟨⟨c, q1⟩, h1, ha1, _⟩ := (IH _ hq0 hl0).command p.lit
      have hq1 : Adv q1 p := adv_trans ha1 hq0
      have hl1 : q1.toks.length < p.toks.length := lt_of_le_of_lt (adv_le ha1) hl0
      by_cases he : ¬ (q1.got Token.Arrow).1 = true ∧ (q1.got Token.Arrow).2.tok ≠ Token.Semi
          ∧ (q1.got Token.Arrow).2.tok ≠ Token.EOF
      · have ha2 : Adv ((q1.got Token.Arrow).2.err
            (Msg.expectedOr Token.Arrow Token.Semi)).next q1 :=
          adv_trans (adv_next _) (adv_trans (adv_err _ _) (adv_got _ _))
        obtain ⟨r2, h2, hr2, _⟩ := (IH _ (adv_trans ha2 hq1)
          (lt_of_le_of_lt (adv_le ha2) hl1)).chainLoop (a ++ [c])
        obtain ⟨k, hk1, hk2⟩ := ret_both _ _
          (fun n r => (monoAt n).command p.lit p.ident.2 r)
          (fun n r => (monoAt n).chainLoop (a ++ [c]) _ r) _ _ h1 h2
        have hk1' : parser.command k p.lit p.ident.2 = some (c, q1) := hk1
        refine ⟨r2, ⟨k + 1, ?_⟩, adv_trans hr2 (adv_trans ha2 hq1), False.elim⟩
        show parser.chainLoop (k + 1) a p = _
        rw [parser.chainLoop, if_pos hc, if_neg (by simp [hn]), hk1']
        simp only
        rw [if_pos he]
        exact hk2
      · have ha2 : Adv (q1.got Token.Arrow).2 q1 := adv_got _ _
        obtain ⟨r2, h2, hr2, _⟩ := (IH _ (adv_trans ha2 hq1)
          (lt_of_le_of_lt (adv_le ha2) hl1)).chainLoop (a ++ [c])
        obtain ⟨k, hk1, hk2⟩ := ret_both _ _
          (fun n r => (monoAt n).command p.lit p.ident.2 r)
          (fun n r => (monoAt n).chainLoop (a ++ [c]) _ r) _ _ h1 h2
        have hk1' : parser.command k p.lit p.ident.2 = some (c, q1) := hk1
        refine ⟨r2, ⟨k + 1, ?_⟩, adv_trans hr2 (adv_trans ha2 hq1), False.elim⟩
        show parser.chainLoop (k + 1) a p = _
        rw [parser.chainLoop, if_pos hc, if_neg (by simp [hn]), hk1']
        simp only
        rw [if_neg he]
        exact hk2
    · have hq : Adv (p.expected Token.Name).next p :=
        adv_trans (adv_next _) (adv_expected _ _)
      have hl : (p.expected Token.Name).next.toks.length < p.toks.length :=
        next_lt (p.expected Token.Name) hc.2
      refine halts_map ((IH _ hq hl).chainLoop a) hq False.elim (fun k r hk => ⟨r.1, ?_⟩)
      show parser.chainLoop (k + 1) a p = _
      rw [parser.chainLoop, if_pos hc, if_pos hn]
      exact hk
  · refine halts_ret (a, p) ?_ (adv_refl p) False.elim
    show parser.chainLoop 1 a p = _
    rw [parser.chainLoop, if_neg hc]

theorem chain_halts (p : parser)
    (hloop : ∀ a, Halts p (fun k => parser.chainLoop k a p) False) (c : Node) :
    Halts p (fun k => parser.chain k c p) False := by
  refine halts_map (hloop [c]) (adv_refl p) False.elim ?_
  rintro k ⟨cmds, q⟩ hk
  have hk' : parser.chainLoop k [c] p = some (cmds, q) := hk
  refine ⟨Node.ChainStmt cmds, ?_⟩
  show parser.chain (k + 1) c p = _
  rw [parser.chain, hk']

theorem vardecl_halts (p : parser)
    (IH : ∀ q, Adv q p → q.toks.length < p.toks.length → TermAt q) (i : Node)
    (ha : p.tok = Token.Assign) : Halts p (fun k => parser.vardecl k i p) True := by
  have hne : p.tok ≠ Token.EOF := by rw [ha]; decide
  refine halts_map (IH p.next (adv_next p) (next_lt p hne)).expr (adv_next p)
    (fun _ => Or.inr (next_lt p hne)) ?_
  rintro k ⟨val, q⟩ hk
  have hk' : parser.expr k p.next = some (val, q) := hk
  refine ⟨Node.VarDecl p.pos i val, ?_⟩
  show parser.vardecl (k + 1) i p = _
  rw [parser.vardecl, if_neg (by simp [got_eq p _ ha]), got_eq p _ ha]
  simp only [hk']

theorem stmtBody_halts (p : parser)
    (IH : ∀ q, Adv q p → q.toks.length < p.toks.length → TermAt q)
    (hp : MatchFree p.toks)
    (hyield : p.tok = Token.Yield → Halts p (fun k => parser.yield k p) True) :
    Halts p (fun k => parser.stmtBody k p) (p.tok ≠ Token.EOF) := by
  by_cases hn : p.tok = Token.Name
  · have hne : p.tok ≠ Token.EOF := by rw [hn]; decide
    by_cases ha : p.ident.2.tok = Token.Assign
    · have hl0 : p.ident.2.toks.length < p.toks.length := by
        rw [ident_eq p hn]
        exact next_lt p hne
      refine halts_map ((IH _ (adv_ident p) hl0).vardecl p.ident.1 ha) (adv_ident p)
        (fun _ => Or.inr hl0) (fun k r hk => ⟨r.1, ?_⟩)
      show parser.stmtBody (k + 1) p = _
      rw [parser.stmtBody]
      simp only [hn]
      rw [if_pos ha]
      exact hk
    · refine halts_map (cmdChain_halts p IH hn) (adv_refl p) (fun _ => Or.inl trivial)
        (fun k r hk => ⟨r.1, ?_⟩)
      show parser.stmtBody (k + 1) p = _
      rw [parser.stmtBody]
      simp only [hn]
      rw [if_neg ha]
      exact hk
  · by_cases hy : p.tok = Token.Yield
    · refine halts_map (hyield hy) (adv_refl p) (fun _ => Or.inl trivial)
        (fun k r hk => ⟨r.1, ?_⟩)
      show parser.stmtBody (k + 1) p = _
      rw [parser.stmtBody]
      simp only [hy]
      exact hk
    · refine halts_ret (Node.nil, (p.unexpected p.tok).next) ?_
        (adv_trans (adv_next _) (adv_unexpected _ _))
        (fun h => next_lt (p.unexpected p.tok) h)
      show parser.stmtBody 1 p = _
      rw [parser.stmtBody]
      split
      · rename_i h; exact absurd h hn
      · rename_i h; exact absurd h (matchFree_tok p hp)
      · rename_i h; exact absurd h hy
      · rfl

theorem stmt_halts (p : parser)
    (hbody : Halts p (fun k => parser.stmtBody k p) (p.tok ≠ Token.EOF)) :
    Halts p (fun k => parser.stmt k p) (p.tok ≠ Token.EOF) := by
  obtain ⟨⟨n, q1⟩, ⟨k, hk⟩, ha, hs⟩ := hbody
  have hk' : parser.stmtBody k p = some (n, q1) := hk
  by_cases he : q1.tok ≠ Token.EOF
  · by_cases hg : ¬ (q1.got Token.Semi).1 = true
    · refine ⟨(n, (q1.got Token.Semi).2.expected Token.Semi), ⟨k + 1, ?_⟩,
        adv_trans (adv_trans (adv_expected _ _) (adv_got _ _)) ha,
        fun h => lt_of_le_of_lt (adv_le (adv_trans (adv_expected _ _) (adv_got _ _))) (hs h)⟩
      show parser.stmt (k + 1) p = _
      rw [parser.stmt, hk']
      simp only
      rw [if_pos he, if_pos hg]
    · refine ⟨(n, (q1.got Token.Semi).2), ⟨k + 1, ?_⟩, adv_trans (adv_got _ _) ha,
        fun h => lt_of_le_of_lt (adv_le (adv_got _ _)) (hs h)⟩
      show parser.stmt (k + 1) p = _
      rw [parser.stmt, hk']
      simp only
      rw [if_pos he, if_neg hg]
  · refine ⟨(n, q1), ⟨k + 1, ?_⟩, ha, hs⟩
    show parser.stmt (k + 1) p = _
    rw [parser.stmt, hk']
    simp only
    rw [if_neg he]

theorem parseLoop_halts (p : parser)
    (IH : ∀ q, Adv q p → q.toks.length < p.toks.length → TermAt q)
    (hstmt : Halts p (fun k => parser.stmt k p) (p.tok ≠ Token.EOF)) (a : List Node) :
    Halts p (fun k => parser.parseLoop k a p) False := by
  by_cases hc : p.tok ≠ Token.EOF
  · obtain ⟨⟨n1, q1⟩, h1, ha1, hs1⟩ := hstmt
    obtain ⟨r2, h2, ha2, _⟩ := (IH q1 ha1 (hs1 hc)).parseLoop (a ++ [n1])
    obtain ⟨k, hk1, hk2⟩ := ret_both _ _ (fun n r => (monoAt n).stmt p r)
      (fun n r => parseLoop_mono n (a ++ [n1]) q1 r) _ _ h1 h2
    have hk1' : parser.stmt k p = some (n1, q1) := hk1
    refine ⟨r2, ⟨k + 1, ?_⟩, adv_trans ha2 ha1, False.elim⟩
    show parser.parseLoop (k + 1) a p = _
    rw [parser.parseLoop, if_pos hc, hk1']
    exact hk2
  · refine halts_ret (a, p) ?_ (adv_refl p) False.elim
    show parser.parseLoop 1 a p = _
    rw [parser.parseLoop, if_neg hc]

theorem termAt : ∀ (L : Nat) (p : parser), p.toks.length = L → MatchFree p.toks →
    TermAt p := by
  intro L
  induction L using Nat.strong_induction_on with
  | _ L ih =>
    intro p hL hp
    have IH : ∀ q, Adv q p → q.toks.length < p.toks.length → TermAt q :=
      fun q hq hl => ih q.toks.length (hL ▸ hl) q rfl (matchFree_adv hq hp)
    have href := ref_halts p IH
    have hobj := obj_halts p IH
    have hop := operand_halts p href hobj
    have hyield := yield_halts p IH
    have hexpr := expr_halts p IH hp hop
    have hcl := commandLoop_halts p IH hexpr
    have hchl := chainLoop_halts p IH
    have hbody := stmtBody_halts p IH hp hyield
    have hstmt := stmt_halts p hbody
    exact ⟨href, refLoop_halts p IH, arr_halts p, objItem_halts p IH, hobj, hop, hyield,
      hexpr, hcl, command_halts p hcl, hchl, chain_halts p hchl, vardecl_halts p IH, hbody,
      hstmt, parseLoop_halts p IH hstmt⟩

/-- On a stream without the keyword `match`, `parse` returns. -/
theorem parse_halts (ts : List Item) (h : MatchFree ts) :
    ∃ r, Ret (fun k => parser.parse k (parser.init ts)) r := by
  obtain ⟨r, hr, _, _⟩ := (termAt _ (parser.init ts) rfl h).parseLoop []
  exact ⟨r, hr⟩


/-! ## Malformed streams -/

theorem stmtBody_head (x : List Item) (h : Lenient LCat.stmtBody x) :
    tokOf x = Token.Name ∨ tokOf x = Token.Match ∨ tokOf x = Token.Yield := by
  cases h with
  | stmtVar n e x hn he hx => exact Or.inl hn
  | stmtCmd n a hn ha => exact Or.inl hn
  | stmtChain n a ar r hn ha har hr => exact Or.inl hn
  | stmtMatch _ hm =>
    cases hm with
    | matchLit m l lb rb cs hm hl hlb hrb hcs => exact Or.inr (Or.inl hm)
    | matchRef m lb rb r cs hm hr hlb hrb hcs => exact Or.inr (Or.inl hm)
  | stmtYield _ hy =>
    cases hy with
    | yieldS y x hy hx => exact Or.inr (Or.inr hy)

theorem program_head (x : List Item) (h : Lenient LCat.program x) :
    x = [] ∨ tokOf x = Token.Name ∨ tokOf x = Token.Match ∨ tokOf x = Token.Yield := by
  cases h with
  | progNil => exact Or.inl rfl
  | progLast _ hx => exact Or.inr (stmtBody_head _ hx)
  | progCons x sm ts hx hsm hts =>
    have h := stmtBody_head x hx
    have hne : tokOf x ≠ Token.EOF := by
      rcases h with h | h | h <;> rw [h] <;> decide
    rw [tokOf_append _ _ hne]
    exact Or.inr h

theorem semi_not_lenient : ¬ Lenient LCat.program [tk Token.Semi] := by
  intro h
  rcases program_head _ h with h | h | h | h
  · simp at h
  · exact absurd h (by decide)
  · exact absurd h (by decide)
  · exact absurd h (by decide)

/-- C3 (amended): take a token stream ended by end-of-input whose tokens
before it do not conform to the grammar `Lenient` (the grammar of the spec
with `yield` taking an operand, `;` after every statement of a block and
between the statements of the program, and extended by: a chain in an
expression, a chain operator followed by no command, a `ref` followed by no
name, an index accessor `'[' (Literal | Reference)` without its closing
bracket, a trailing comma in an object, an array and a match statement, and a
match statement without cases).  Whenever `parse` returns on it, the error
count is at least 1; and if the stream has no `match` token, `parse` returns. -/
theorem C3_malformed_reports (body : List Item) (e : Item) (he : e.tok = Token.EOF)
    (hbody : ∀ x ∈ body, x.tok ≠ Token.EOF) (hmal : ¬ Lenient LCat.program body) :
    (∀ fuel r, parser.parse fuel (parser.init (body ++ [e])) = some r → 1 ≤ r.2.errc) ∧
    ((∀ x ∈ body, x.tok ≠ Token.Match) →
      ∃ n r, (∀ k, n ≤ k → parser.parse k (parser.init (body ++ [e])) = some r) ∧
        1 ≤ r.2.errc) := by
  have key : ∀ fuel r, parser.parse fuel (parser.init (body ++ [e])) = some r →
      1 ≤ r.2.errc := by
    intro fuel r h
    by_contra hz
    exact hmal (parse_sound body e fuel r he hbody h (by omega))
  refine ⟨key, fun hm => ?_⟩
  have hmf : MatchFree (body ++ [e]) := by
    intro x hx
    rcases List.mem_append.mp hx with h | h
    · exact hm x h
    · rw [List.mem_singleton] at h
      rw [h, he]
      decide
  obtain ⟨r, hr⟩ := parse_halts _ hmf
  obtain ⟨n, hn⟩ := ret_ge (fun k => parser.parse k (parser.init (body ++ [e])))
    (fun n r => parseLoop_mono n [] _ r) r hr
  exact ⟨n, r, hn, key n r (hn n (le_refl _))⟩

theorem C3_malformed_reports_witness :
    (tk Token.EOF).tok = Token.EOF ∧ (∀ x ∈ [tk Token.Semi], x.tok ≠ Token.EOF) ∧
    ¬ Lenient LCat.program [tk Token.Semi] ∧
    (∀ fuel r, parser.parse fuel (parser.init ([tk Token.Semi] ++ [tk Token.EOF])) = some r →
      1 ≤ r.2.errc) ∧
    ((∀ x ∈ [tk Token.Semi], x.tok ≠ Token.Match) →
      ∃ n r, (∀ k, n ≤ k →
        parser.parse k (parser.init ([tk Token.Semi] ++ [tk Token.EOF])) = some r) ∧
        1 ≤ r.2.errc) :=
  ⟨rfl, fun x hx => by rw [List.mem_singleton] at hx; rw [hx]; decide, semi_not_lenient,
    C3_malformed_reports [tk Token.Semi] (tk Token.EOF) rfl
      (fun x hx => by rw [List.mem_singleton] at hx; rw [hx]; decide) semi_not_lenient⟩

/-- C3 (the claim as stated fails): the three streams the claim names are read
without a diagnostic.  On `a ref ;` the `ref` with no name becomes a reference
to nothing; on `a -> ;` the chain operator with no command after it gives a
chain of one command; on `a { k : 1 , } ;` the trailing comma is accepted. -/
theorem C3_counterexample :
    parser.parse 12 (parser.init [tName "a", tk Token.Ref, tk Token.Semi, tk Token.EOF]) =
      some ([Node.CommandStmt pos0 "a" [Node.Ref Node.nil]], ⟨[tk Token.EOF], 0, []⟩) ∧
    parser.parse 12 (parser.init [tName "a", tk Token.Arrow, tk Token.Semi, tk Token.EOF]) =
      some ([Node.ChainStmt [Node.CommandStmt pos0 "a" []]], ⟨[tk Token.EOF], 0, []⟩) ∧
    parser.parse 12 (parser.init [tName "a", tk Token.Lbrace, tName "k", tk Token.Colon,
        tLit "1", tk Token.Comma, tk Token.Rbrace, tk Token.Semi, tk Token.EOF]) =
      some ([Node.CommandStmt pos0 "a"
        [Node.Object pos0 [Node.KeyExpr pos0 (Node.Ident pos0 "k") (Node.Lit pos0 0 "1")]]],
        ⟨[tk Token.EOF], 0, []⟩) ∧
    (∀ fuel r, parser.parse fuel
      (parser.init [tName "a", tk Token.Ref, tk Token.Semi, tk Token.EOF]) = some r →
      r.2.errc = 0) := by
  refine ⟨rfl, rfl, rfl, fun fuel r h => ?_⟩
  have := parse_det fuel 12 _ r _ h rfl
  rw [this]
  rfl


/-! ## Comparison with `Zero` -/

/-- C11: for every operator `op` and every value `b`, `Zero.cmp(op, b)` is the
call `b.cmp(op, Zero)`: the two return the same results (value or error), and
`Zero.cmp` returns nothing else.  For a `Response` that result is the
operator error of `Response.cmp`; for a variant other than `Zero` and
`Response` it is what that variant answers to `(op, Zero)`. -/
theorem C11_zero_cmp_defers (opError : Op → valueType → String)
    (cmpRest : Value → Op → Value → Outcome Value) (op : Op) (b : Value) :
    (∀ fuel, Zero.cmp opError cmpRest (fuel + 1) op b =
      Value.cmp opError cmpRest fuel b op Value.Zero) ∧
    (∀ res, Ret (fun k => Zero.cmp opError cmpRest k op b) res ↔
      Ret (fun k => Value.cmp opError cmpRest k b op Value.Zero) res) ∧
    (∀ r fuel, b = Value.Response r → Zero.cmp opError cmpRest (fuel + 2) op b =
      some (Outcome.error (opError op valueType.responseType))) ∧
    (∀ fuel, b ≠ Value.Zero → (∀ r, b ≠ Value.Response r) →
      Zero.cmp opError cmpRest (fuel + 2) op b = some (cmpRest b op Value.Zero)) := by
  have h1 : ∀ fuel, Zero.cmp opError cmpRest (fuel + 1) op b =
      Value.cmp opError cmpRest fuel b op Value.Zero := fun fuel => by rw [Zero.cmp]
  refine ⟨h1, fun res => ⟨?_, ?_⟩, ?_, ?_⟩
  · rintro ⟨n, hn⟩
    cases n with
    | zero => simp [Zero.cmp] at hn
    | succ n => exact ⟨n, (h1 n).symm.trans hn⟩
  · rintro ⟨n, hn⟩
    exact ⟨n + 1, (h1 n).trans hn⟩
  · intro r fuel hb
    rw [h1, hb, Value.cmp]
    rfl
  · intro fuel hz hr
    rw [h1]
    cases b with
    | Zero => exact absurd rfl hz
    | Response r => exact absurd rfl (hr r)
    | _ => simp [Value.cmp]

/-- C12 (the code departs from the claim): `Zero.cmp(op, Zero)` never
returns, whatever the fuel: it calls `Zero.cmp(op, Zero)` again. -/
theorem C12_zero_cmp_zero_never_returns (opError : Op → valueType → String)
    (cmpRest : Value → Op → Value → Outcome Value) (op : Op) (fuel : Nat) :
    Zero.cmp opError cmpRest fuel op Value.Zero = none := by
  induction fuel using Nat.strong_induction_on with
  | _ n ih =>
    rcases n with _ | _ | n
    · rw [Zero.cmp]
    · rw [Zero.cmp, Value.cmp]
    · rw [Zero.cmp, Value.cmp]
      exact ih n (by omega)

/-! ## Selection on a response -/

theorem msg_cancel (a b n : String)
    (h : "type " ++ a ++ " has no field " ++ n = "type " ++ b ++ " has no field " ++ n) :
    a = b := by
  have h' := congrArg String.data h
  simp only [String.data_append, List.append_assoc] at h'
  have h3 : a.data = b.data := List.append_cancel_right (List.append_cancel_left h')
  exact String.ext h3

theorem tag_response (t : valueType) (h : t.String = valueType.responseType.String) :
    t = valueType.responseType := by
  cases t <;> first | rfl | (exact absurd h (by decide))

theorem select_other (ToName : Value → Except String String) (r : Option HttpResponse)
    (val : Value) (name : String) (hn : ToName val = Except.ok name) (h1 : name ≠ "Status")
    (h2 : name ≠ "StatusCode") (h3 : name ≠ "Header") (h4 : name ≠ "Body") :
    Response.Select ToName r val =
      (Outcome.error ("type " ++ val.valueType.String ++ " has no field " ++ name), r) := by
  unfold Response.Select
  rw [hn]
  simp only [if_neg h1, if_neg h2, if_neg h3, if_neg h4]

/-- C13 (the code departs from the claim): for a key that stands for a name
other than `Status`, `StatusCode`, `Header` and `Body`, `Response.Select`
returns no value and the error `type T has no field N` in which `T` is the
type tag of the key `val`, not that of the response: whenever the key is not
itself a response, the text differs from the one with the tag `response`. -/
theorem C13_select_error_names_key_type (ToName : Value → Except String String)
    (r : Option HttpResponse) (val : Value) (name : String)
    (hn : ToName val = Except.ok name) (h1 : name ≠ "Status") (h2 : name ≠ "StatusCode")
    (h3 : name ≠ "Header") (h4 : name ≠ "Body") :
    Response.Select ToName r val =
      (Outcome.error ("type " ++ val.valueType.String ++ " has no field " ++ name), r) ∧
    ((∀ h, val ≠ Value.Response h) → Response.Select ToName r val ≠
      (Outcome.error ("type " ++ valueType.responseType.String ++ " has no field " ++ name),
        r)) := by
  have h := select_other ToName r val name hn h1 h2 h3 h4
  refine ⟨h, fun hv heq => ?_⟩
  rw [h] at heq
  have he := (Prod.mk.injEq _ _ _ _ ▸ heq).1
  injection he with he
  have ht := tag_response _ (msg_cancel _ _ _ he)
  cases val with
  | Response x => exact hv x rfl
  | _ => simp [Value.valueType] at ht

theorem C13_select_error_names_key_type_witness :
    Response.Select exToName (some exResp) (Value.String "Foo") =
      (Outcome.error "type string has no field Foo", some exResp) ∧
    Response.Select exToName (some exResp) (Value.String "Foo") ≠
      (Outcome.error "type response has no field Foo", some exResp) :=
  have h := C13_select_error_names_key_type exToName (some exResp) (Value.String "Foo") "Foo"
    rfl (by decide) (by decide) (by decide) (by decide)
  ⟨h.1, h.2 (fun _ hx => Value.noConfusion hx)⟩

theorem headerLoop_ok (h : List (String × List String)) :
    ∀ (order : List String) (pairs : List (String × Value)),
    (∀ e ∈ h, e.2 ≠ []) → (h.map Prod.fst).Nodup →
    ∃ ps, Response.headerLoop h order pairs = some (order ++ h.map Prod.fst, ps) ∧
      (∀ k, k ∉ h.map Prod.fst → mapGet ps k = mapGet pairs k) ∧
      (∀ k v0 vs, (k, v0 :: vs) ∈ h → mapGet ps k = some (Value.String v0)) ∧
      (∀ k, k ∈ ps.map Prod.fst ↔ k ∈ h.map Prod.fst ∨ k ∈ pairs.map Prod.fst) ∧
      ((pairs.map Prod.fst).Nodup → (ps.map Prod.fst).Nodup) := by
  induction h with
  | nil =>
    intro order pairs _ _
    exact ⟨pairs, by simp [Response.headerLoop], fun _ _ => rfl, fun _ _ _ hm => by simp at hm,
      fun k => by simp, id⟩
  | cons e h ih =>
    intro order pairs hne hnd
    obtain ⟨a, v⟩ := e
    cases v with
    | nil => exact absurd rfl (hne (a, []) (List.mem_cons_self _ _))
    | cons v0 vs =>
      simp only [List.map_cons, List.nodup_cons] at hnd
      obtain ⟨ps, hps, hout, hin, hkeys, hnodup⟩ := ih (order ++ [a])
        (mapSet pairs a (Value.String v0)) (fun e he => hne e (List.mem_cons_of_mem _ he)) hnd.2
      refine ⟨ps, ?_, ?_, ?_, ?_, ?_⟩
      · rw [Response.headerLoop, hps]
        simp
      · intro k hk
        simp only [List.map_cons, List.mem_cons, not_or] at hk
        rw [hout k hk.2, mapGet_mapSet, if_neg (Ne.symm hk.1)]
      · intro k w0 ws hm
        rcases List.mem_cons.mp hm with hm | hm
        · have hk : k = a := (Prod.mk.injEq _ _ _ _ ▸ hm).1
          have hw : w0 :: ws = v0 :: vs := (Prod.mk.injEq _ _ _ _ ▸ hm).2
          have hw0 : w0 = v0 := (List.cons.injEq _ _ _ _ ▸ hw).1
          rw [hk, hw0, hout a hnd.1, mapGet_mapSet, if_pos rfl]
        · exact hin k w0 ws hm
      · intro k
        rw [hkeys, mem_keys_mapSet]
        simp only [List.map_cons, List.mem_cons]
        tauto
      · intro hp
        exact hnodup (nodup_keys_mapSet _ _ _ hp)

/-- C14: for a response whose header map gives each name a non-empty list of
values, selecting `Header` returns an `Object` whose `Order` is the header
names, each exactly once, whose `Pairs` has the same keys, each once, and maps
every name to the `String` of the first value of its list; the handle is left
as it was. -/
theorem C14_select_header_first_values (ToName : Value → Except String String)
    (h : HttpResponse) (val : Value) (hn : ToName val = Except.ok "Header")
    (hmap : (h.Header.map Prod.fst).Nodup) (hne : ∀ e ∈ h.Header, e.2 ≠ []) :
    ∃ order pairs, Response.Select ToName (some h) val =
        (Outcome.value (Value.Object order pairs), some h) ∧
      order = h.Header.map Prod.fst ∧ order.Nodup ∧
      (pairs.map Prod.fst).Nodup ∧ (∀ k, k ∈ order ↔ k ∈ pairs.map Prod.fst) ∧
      (∀ k v0 vs, (k, v0 :: vs) ∈ h.Header → mapGet pairs k = some (Value.String v0)) := by
  obtain ⟨ps, hps, _, hin, hkeys, hnodup⟩ := headerLoop_ok h.Header [] [] hne hmap
  refine ⟨h.Header.map Prod.fst, ps, ?_, rfl, hmap, hnodup (by simp), fun k => ?_, hin⟩
  · unfold Response.Select
    rw [hn]
    simp only [List.nil_append] at hps
    simp [hps]
  · rw [hkeys]
    simp

theorem C14_select_header_first_values_witness :
    exToName (Value.String "Header") = Except.ok "Header" ∧
    (exResp.Header.map Prod.fst).Nodup ∧ (∀ e ∈ exResp.Header, e.2 ≠ []) ∧
    ∃ order pairs, Response.Select exToName (some exResp) (Value.String "Header") =
        (Outcome.value (Value.Object order pairs), some exResp) ∧
      order = exResp.Header.map Prod.fst ∧ order.Nodup ∧
      (pairs.map Prod.fst).Nodup ∧ (∀ k, k ∈ order ↔ k ∈ pairs.map Prod.fst) ∧
      (∀ k v0 vs, (k, v0 :: vs) ∈ exResp.Header → mapGet pairs k = some (Value.String v0)) :=
  have h1 : (exResp.Header.map Prod.fst).Nodup := by decide
  have h2 : ∀ e ∈ exResp.Header, e.2 ≠ [] := by decide
  ⟨rfl, h1, h2, C14_select_header_first_values exToName exResp (Value.String "Header") rfl h1 h2⟩

theorem headerLoop_abort (h : List (String × List String)) :
    ∀ (order : List String) (pairs : List (String × Value)) (k : String),
    (k, []) ∈ h → Response.headerLoop h order pairs = none := by
  induction h with
  | nil => intro _ _ k hk; simp at hk
  | cons e h ih =>
    intro order pairs k hk
    obtain ⟨a, v⟩ := e
    cases v with
    | nil => rw [Response.headerLoop]
    | cons v0 vs =>
      rw [Response.headerLoop]
      rcases List.mem_cons.mp hk with hk | hk
      · exact absurd (Prod.mk.injEq _ _ _ _ ▸ hk).2 (by simp)
      · exact ih _ _ k hk

/-- C20 (the code departs from the claim): selecting `Header` on a response
whose header map gives some name an empty list of values aborts: `v[0]` is
out of range. -/
theorem C20_select_header_aborts (ToName : Value → Except String String) (h : HttpResponse)
    (val : Value) (k : String) (hn : ToName val = Except.ok "Header")
    (hk : (k, []) ∈ h.Header) :
    Response.Select ToName (some h) val = (Outcome.abort, some h) := by
  unfold Response.Select
  rw [hn]
  simp [headerLoop_abort h.Header [] [] k hk]

theorem C20_select_header_aborts_witness :
    exToName (Value.String "Header") = Except.ok "Header" ∧
    ("X", []) ∈ exRespEmpty.Header ∧
    Response.Select exToName (some exRespEmpty) (Value.String "Header") =
      (Outcome.abort, some exRespEmpty) :=
  have hk : ("X", []) ∈ exRespEmpty.Header := by decide
  ⟨rfl, hk, C20_select_header_aborts exToName exRespEmpty (Value.String "Header") "X" rfl hk⟩

/-- C19: for a response whose body holds the bytes `B`, selecting `Body`
returns the stream of `B`, and `Sprint` returns a text that ends in `B`; each
of the two leaves as body a fresh reader at the start of `B`, and on a
response in that state each gives `B` again and leaves that state.  So `Body`
twice, `Body` then `Sprint`, and `Sprint` then `Body` all yield the full
`B`. -/
theorem C19_body_stays_readable (ToName : Value → Except String String)
    (headerWrite : List (String × List String) → List Nat) (h : HttpResponse) (val : Value)
    (body : Reader) (B : List Nat) (hn : ToName val = Except.ok "Body")
    (hb : h.Body = some body) (hB : readAll body = B) :
    Response.Select ToName (some h) val =
      (Outcome.value (Value.Stream B), some { h with Body := some ⟨B, 0⟩ }) ∧
    Response.Select ToName (some { h with Body := some ⟨B, 0⟩ }) val =
      (Outcome.value (Value.Stream B), some { h with Body := some ⟨B, 0⟩ }) ∧
    Response.Sprint headerWrite (some h) =
      (bytesOf (h.Proto ++ " " ++ h.Status ++ "\n") ++ headerWrite h.Header ++ bytesOf "\n" ++ B,
        some { h with Body := some ⟨B, 0⟩ }) ∧
    Response.Sprint headerWrite (some { h with Body := some ⟨B, 0⟩ }) =
      (bytesOf (h.Proto ++ " " ++ h.Status ++ "\n") ++ headerWrite h.Header ++ bytesOf "\n" ++ B,
        some { h with Body := some ⟨B, 0⟩ }) := by
  subst hB
  refine ⟨?_, ?_, ?_, ?_⟩
  · unfold Response.Select
    rw [hn]
    simp [hb, copyrc, readAll]
  · unfold Response.Select
    rw [hn]
    simp [copyrc, readAll]
  · unfold Response.Sprint
    simp [hb, copyrc, readAll]
  · unfold Response.Sprint
    simp [copyrc, readAll]

theorem C19_body_stays_readable_witness :
    exToName (Value.String "Body") = Except.ok "Body" ∧
    exResp.Body = some ⟨[104, 105], 0⟩ ∧ readAll ⟨[104, 105], 0⟩ = [104, 105] ∧
    Response.Select exToName (some exResp) (Value.String "Body") =
      (Outcome.value (Value.Stream [104, 105]),
        some { exResp with Body := some ⟨[104, 105], 0⟩ }) :=
  ⟨rfl, rfl, rfl,
    (C19_body_stays_readable exToName (fun _ => []) exResp (Value.String "Body")
      ⟨[104, 105], 0⟩ [104, 105] rfl rfl rfl).1⟩

/-! ## The entry point `ParseFile` -/

/-- C17 (the code departs from the claim): for a file that opens, `ParseFile`
returns what `parse` returns with a nil error, whatever the parser reports:
the error count is tested before `parse` runs, when it is still 0.  On the
file `;` the parser reports one diagnostic and `ParseFile` returns the nodes
and a nil error. -/
theorem C17_ParseFile_error_always_nil (fuel : Nat) (ts : List Item) :
    ParseFile fuel (Except.ok ts) =
      (parser.parse fuel (parser.init ts)).map (fun r => ((r.1, none), some r.2)) ∧
    ParseFile (fuel + 3) (Except.ok [tk Token.Semi, tk Token.EOF]) =
      some (([Node.nil], none),
        some ⟨[tk Token.EOF], 1, [(pos0, Msg.unexpected Token.Semi)]⟩) := by
  have h : ∀ n ts, ParseFile n (Except.ok ts) =
      (parser.parse n (parser.init ts)).map (fun r => ((r.1, none), some r.2)) := by
    intro n ts
    unfold ParseFile
    simp only [parser.init, gt_iff_lt, lt_self_iff_false, if_false]
    cases parser.parse n ⟨ts, 0, []⟩ with
    | none => rfl
    | some r => rfl
  refine ⟨h fuel ts, ?_⟩
  have hp : parser.parse (fuel + 3) (parser.init [tk Token.Semi, tk Token.EOF]) =
      some ([Node.nil], ⟨[tk Token.EOF], 1, [(pos0, Msg.unexpected Token.Semi)]⟩) :=
    parse_mono 3 (fuel + 3) (by omega) _ _ rfl
  rw [h, hp]
  rfl


/-! ## Objects, arrays and malformed case labels -/

/-- C15 (the code departs from the claim): on `{ k : ref a [ "0" ] } ;` the
function `obj` reports one diagnostic: `ref` leaves the closing bracket of the
index accessor unread, and the loop of `list` finds `]` where it wants a comma
or `}`.  Duplicate keys are kept: on `{ k : "1" , k : "2" } ;` the object has
both pairs, and nothing is reported. -/
theorem C15_obj_index_operand_reports (fuel : Nat) :
    parser.obj (fuel + 6)
      (parser.init [tk Token.Lbrace, tName "k", tk Token.Colon, tk Token.Ref, tName "a",
        tk Token.Lbrack, tLit "0", tk Token.Rbrack, tk Token.Rbrace, tk Token.Semi]) =
    some (Node.Object pos0 [Node.KeyExpr pos0 (Node.Ident pos0 "k")
        (Node.Ref (Node.IndExpr pos0 (Node.Ident pos0 "a") (Node.Lit pos0 0 "0")))],
      ⟨[tk Token.Semi], 1, [(pos0, Msg.expectedOr Token.Comma Token.Rbrace)]⟩) ∧
    parser.obj (fuel + 6)
      (parser.init [tk Token.Lbrace, tName "k", tk Token.Colon, tLit "1", tk Token.Comma,
        tName "k", tk Token.Colon, tLit "2", tk Token.Rbrace, tk Token.Semi]) =
    some (Node.Object pos0 [Node.KeyExpr pos0 (Node.Ident pos0 "k") (Node.Lit pos0 0 "1"),
        Node.KeyExpr pos0 (Node.Ident pos0 "k") (Node.Lit pos0 0 "2")],
      ⟨[tk Token.Semi], 0, []⟩) :=
  ⟨mono_le (fun k => parser.obj k _) (fun k r => (monoAt k).obj _ r) 6 (fuel + 6) _
      (by omega) rfl,
    mono_le (fun k => parser.obj k _) (fun k r => (monoAt k).obj _ r) 6 (fuel + 6) _
      (by omega) rfl⟩

theorem want_errc_le (p : parser) (t : Token) : p.errc ≤ (p.want t).errc := by
  unfold parser.want parser.got
  split <;> split <;> simp_all

theorem got_errc_eq (p : parser) (t : Token) : (p.got t).2.errc = p.errc := by
  unfold parser.got
  split <;> simp

/-- What the loop of `list` adds for an array are literal nodes, and the error
count does not go down. -/
theorem arrList_inv (fuel : Nat) : ∀ (acc : List Node) (p : parser) (r : List Node × parser),
    parser.list Token.Comma Token.Rbrack parser.arrItem fuel acc p = some r →
    ∃ more, r.1 = acc ++ more ∧ (∀ x ∈ more, ∃ l : Item, x = litNode l) ∧
      p.errc ≤ r.2.errc := by
  induction fuel with
  | zero => intro acc p r h; simp [parser.list] at h
  | succ fuel ih =>
    intro acc p r h
    rw [parser.list] at h
    by_cases hc : p.tok ≠ Token.EOF ∧ p.tok ≠ Token.Rbrack
    · rw [if_pos hc] at h
      by_cases hl : p.tok = Token.Literal
      · have hi : parser.arrItem acc p = some (acc ++ [litNode p.cur], p.next) := by
          unfold parser.arrItem
          rw [if_neg (by simp [hl]), literal_eq p hl]
          rfl
        rw [hi] at h
        simp only at h
        have key : ∀ q : parser, p.errc ≤ q.errc →
            parser.list Token.Comma Token.Rbrack parser.arrItem fuel
              (acc ++ [litNode p.cur]) q = some r →
            ∃ more, r.1 = acc ++ more ∧ (∀ x ∈ more, ∃ l : Item, x = litNode l) ∧
              p.errc ≤ r.2.errc := by
          intro q hq hr
          obtain ⟨more, h1, h2, h3⟩ := ih _ _ _ hr
          refine ⟨litNode p.cur :: more, ?_, ?_, le_trans hq h3⟩
          · rw [h1, List.append_assoc, List.singleton_append]
          · intro x hx
            rcases List.mem_cons.mp hx with hx | hx
            · exact ⟨p.cur, hx⟩
            · exact h2 x hx
        split at h
        · exact key _ (by simp only [next_errc, err_errc, expected_errc, got_errc_eq]; omega) h
        · exact key _ (by simp only [next_errc, err_errc, expected_errc, got_errc_eq]; omega) h
      · have hi : parser.arrItem acc p = some (acc, (p.expected Token.Literal).next) := by
          unfold parser.arrItem
          rw [if_pos hl]
        rw [hi] at h
        simp only at h
        have key : ∀ q : parser, p.errc ≤ q.errc →
            parser.list Token.Comma Token.Rbrack parser.arrItem fuel acc q = some r →
            ∃ more, r.1 = acc ++ more ∧ (∀ x ∈ more, ∃ l : Item, x = litNode l) ∧
              p.errc ≤ r.2.errc := by
          intro q hq hr
          obtain ⟨more, h1, h2, h3⟩ := ih _ _ _ hr
          exact ⟨more, h1, h2, le_trans hq h3⟩
        split at h
        · exact key _ (by simp only [next_errc, err_errc, expected_errc, got_errc_eq]; omega) h
        · exact key _ (by simp only [next_errc, err_errc, expected_errc, got_errc_eq]; omega) h
    · rw [if_neg hc] at h
      have hr : r = (acc, p.want Token.Rbrack) := (Option.some.inj h).symm
      rw [hr]
      exact ⟨[], by simp, fun x hx => by simp at hx, want_errc_le p _⟩

/-- The loop of `list` for an array reads the items `l1 , ... lk ,` into the
nodes of their literals. -/
theorem arrList_prefix (ls : List (Item × Item))
    (hls : ∀ e ∈ ls, e.1.tok = Token.Literal ∧ e.2.tok = Token.Comma) :
    ∀ (fuel : Nat) (acc : List Node) (T : List Item) (c : Nat) (s : List (Pos × Msg)),
    parser.list Token.Comma Token.Rbrack parser.arrItem (fuel + ls.length) acc
        ⟨itemsToks ls ++ T, c, s⟩ =
      parser.list Token.Comma Token.Rbrack parser.arrItem fuel
        (acc ++ ls.map (fun e => litNode e.1)) ⟨T, c, s⟩ := by
  induction ls with
  | nil => intro fuel acc T c s; simp [itemsToks]
  | cons e ls ih =>
    intro fuel acc T c s
    obtain ⟨l, cm⟩ := e
    have hl : l.tok = Token.Literal := (hls (l, cm) (List.mem_cons_self _ _)).1
    have hcm : cm.tok = Token.Comma := (hls (l, cm) (List.mem_cons_self _ _)).2
    show parser.list Token.Comma Token.Rbrack parser.arrItem (fuel + ls.length + 1) acc
      ⟨l :: cm :: (itemsToks ls ++ T), c, s⟩ = _
    rw [parser.list, if_pos (by simp [hl]), arrItem_lit _ _ _ _ _ hl]
    simp only
    rw [got_cons _ _ _ _ _ hcm (by decide), if_neg (by simp),
      ih (fun e he => hls e (List.mem_cons_of_mem _ he))]
    simp [litNode]

/-- At a token that is neither a literal, `]` nor end-of-input the loop of
`list` for an array reports, skips the token and goes on. -/
theorem arrList_skip (X : Item) (rest : List Item) (c : Nat) (s : List (Pos × Msg))
    (h1 : X.tok ≠ Token.Literal) (h2 : X.tok ≠ Token.Rbrack) (h3 : X.tok ≠ Token.EOF) :
    ∃ q : parser, c + 1 ≤ q.errc ∧ ∀ (fuel : Nat) (acc : List Node),
      parser.list Token.Comma Token.Rbrack parser.arrItem (fuel + 1) acc ⟨X :: rest, c, s⟩ =
        parser.list Token.Comma Token.Rbrack parser.arrItem fuel acc q := by
  have hi : ∀ acc, parser.arrItem acc ⟨X :: rest, c, s⟩ =
      some (acc, ⟨rest, c + 1, s ++ [(X.pos, Msg.expected Token.Literal)]⟩) := by
    intro acc
    unfold parser.arrItem
    rw [if_pos (by simpa using h1)]
    show some (acc, (parser.mk (X :: rest) (c + 1) _).next) = _
    rw [next_cons _ _ _ _ h3]
    rfl
  by_cases he : ¬ ((parser.mk rest (c + 1)
      (s ++ [(X.pos, Msg.expected Token.Literal)])).got Token.Comma).1 = true ∧
      ((parser.mk rest (c + 1)
        (s ++ [(X.pos, Msg.expected Token.Literal)])).got Token.Comma).2.tok ≠ Token.Rbrack
  · refine ⟨((((parser.mk rest (c + 1)
        (s ++ [(X.pos, Msg.expected Token.Literal)])).got Token.Comma).2.err
          (Msg.expectedOr Token.Comma Token.Rbrack)).next), ?_, fun fuel acc => ?_⟩
    · simp only [next_errc, err_errc, got_errc_eq]
      omega
    · rw [parser.list, if_pos (by simp [h2, h3]), hi]
      simp only
      rw [if_pos he]
  · refine ⟨((parser.mk rest (c + 1)
        (s ++ [(X.pos, Msg.expected Token.Literal)])).got Token.Comma).2, ?_, fun fuel acc => ?_⟩
    · simp only [got_errc_eq]
      exact le_refl _
    · rw [parser.list, if_pos (by simp [h2, h3]), hi]
      simp only
      rw [if_neg he]

/-- C16: on a token stream `[ l1 , ... lk , X ...` in which `l1 .. lk` are
literals and `X` is neither a literal, `]` nor end-of-input, `arr` returns,
reports at least one diagnostic, and the `Items` of the array it returns
begin with the nodes of `l1 .. lk` in order and hold literal nodes only. -/
theorem C16_arr_nonliteral_item (lb X : Item) (ls : List (Item × Item)) (rest : List Item)
    (c : Nat) (s : List (Pos × Msg)) (hlb : lb.tok = Token.Lbrack)
    (hls : ∀ e ∈ ls, e.1.tok = Token.Literal ∧ e.2.tok = Token.Comma)
    (hX1 : X.tok ≠ Token.Literal) (hX2 : X.tok ≠ Token.Rbrack) (hX3 : X.tok ≠ Token.EOF) :
    ∃ n pos more q,
      (∀ k, n ≤ k → parser.arr k ⟨lb :: (itemsToks ls ++ X :: rest), c, s⟩ =
        some (Node.Array pos (ls.map (fun e => litNode e.1) ++ more), q)) ∧
      (∀ x ∈ more, ∃ l : Item, x = litNode l) ∧ c + 1 ≤ q.errc := by
  obtain ⟨⟨nd, q⟩, hret, _, _⟩ :=
    arr_halts ⟨lb :: (itemsToks ls ++ X :: rest), c, s⟩ hlb
  obtain ⟨n, hn⟩ := ret_ge _ (fun k r => arr_mono k _ r) _ hret
  have hk := hn (n + ls.length + 1) (by omega)
  simp only [parser.arr, want_cons _ _ _ _ _ hlb (show Token.Lbrack ≠ Token.EOF by decide)] at hk
  obtain ⟨q0, hq0, hskip⟩ := arrList_skip X rest c s hX1 hX2 hX3
  rw [show n + ls.length + 1 = (n + 1) + ls.length by omega, arrList_prefix ls hls,
    List.nil_append, hskip] at hk
  cases hx : parser.list Token.Comma Token.Rbrack parser.arrItem n
      (ls.map (fun e => litNode e.1)) q0 with
  | none => rw [hx] at hk; simp at hk
  | some r =>
    obtain ⟨items, q'⟩ := r
    rw [hx] at hk
    obtain ⟨more, h1, h2, h3⟩ := arrList_inv _ _ _ _ hx
    have hr : (Node.Array (parser.mk (itemsToks ls ++ X :: rest) c s).pos items, q') = (nd, q) :=
      Option.some.inj hk
    have hnd : nd = Node.Array (parser.mk (itemsToks ls ++ X :: rest) c s).pos items :=
      (congrArg Prod.fst hr).symm
    have hq : q = q' := (congrArg Prod.snd hr).symm
    simp only at h1 h3
    refine ⟨n, (parser.mk (itemsToks ls ++ X :: rest) c s).pos, more, q,
      fun k hk' => ?_, h2, ?_⟩
    · rw [hn k hk', hnd, h1]
    · rw [hq]
      exact le_trans hq0 h3

theorem C16_arr_nonliteral_item_witness :
    (tk Token.Lbrack).tok = Token.Lbrack ∧
    (∀ e ∈ [(tLit "1", tk Token.Comma)], e.1.tok = Token.Literal ∧ e.2.tok = Token.Comma) ∧
    (tName "x").tok ≠ Token.Literal ∧ (tName "x").tok ≠ Token.Rbrack ∧
    (tName "x").tok ≠ Token.EOF ∧
    ∃ n pos more q,
      (∀ k, n ≤ k → parser.arr k ⟨tk Token.Lbrack ::
          (itemsToks [(tLit "1", tk Token.Comma)] ++ tName "x" :: [tk Token.Rbrack]), 0, []⟩ =
        some (Node.Array pos ([(tLit "1", tk Token.Comma)].map (fun e => litNode e.1) ++ more),
          q)) ∧
      (∀ x ∈ more, ∃ l : Item, x = litNode l) ∧ 0 + 1 ≤ q.errc :=
  have hls : ∀ e ∈ [(tLit "1", tk Token.Comma)],
      e.1.tok = Token.Literal ∧ e.2.tok = Token.Comma := by
    intro e he
    rw [List.mem_singleton] at he
    rw [he]
    exact ⟨rfl, rfl⟩
  ⟨rfl, hls, by decide, by decide, by decide,
    C16_arr_nonliteral_item (tk Token.Lbrack) (tName "x") [(tLit "1", tk Token.Comma)]
      [tk Token.Rbrack] 0 [] rfl hls (by decide) (by decide) (by decide)⟩

/-- At a token that cannot start a case and is neither `,` nor `}` the loop of
`matchstmt` reports twice, skips the token and goes on. -/
theorem matchLoop_skip (X : Item) (rest : List Item) (tab : List (Nat × Node)) (c : Nat)
    (s : List (Pos × Msg)) (h1 : X.tok ≠ Token.Literal) (h2 : X.tok = Token.Name → X.lit ≠ "_")
    (h3 : X.tok ≠ Token.Comma) (h4 : X.tok ≠ Token.Rbrace) (h5 : X.tok ≠ Token.EOF)
    (fuel : Nat) :
    parser.matchLoop (fuel + 2) tab ⟨X :: rest, c, s⟩ =
      parser.matchLoop (fuel + 1) tab ⟨rest, c + 2,
        s ++ [(X.pos, Msg.unexpected X.tok), (X.pos, Msg.text "expected comma or \x7d")]⟩ := by
  have hcase : parser.casestmt (fuel + 1) tab ⟨X :: rest, c, s⟩ =
      some (tab, ⟨X :: rest, c + 1, s ++ [(X.pos, Msg.unexpected X.tok)]⟩) := by
    rw [parser.casestmt]
    by_cases hn : X.tok = Token.Name
    · rw [if_pos (by simpa using hn), if_pos (by simpa using h2 hn)]
      rfl
    · rw [if_neg (by simpa using hn), if_pos (by simpa using h1)]
      rfl
  rw [parser.matchLoop, if_pos (by simpa using h4), hcase]
  simp only
  rw [if_pos (by simp [h3, h4])]
  show parser.matchLoop (fuel + 1) tab
    (parser.mk (X :: rest) (c + 1 + 1) (s ++ [(X.pos, Msg.unexpected X.tok)] ++
      [(X.pos, Msg.text "expected comma or \x7d")])).next = _
  rw [next_cons _ _ _ _ h5, List.append_assoc]
  rfl

/-- C18 (amended): in the loop of a match statement, a token `X` where a case
is to start that is neither a literal, the name `_`, `,`, `}` nor
end-of-input causes exactly two diagnostics, `unexpected X` and
`expected comma or }`, both at `X`; the parser skips `X` and goes on with the
next token, and when well-formed cases and `}` follow it parses them into the
table without a further diagnostic. -/
theorem C18_stray_label_two_diagnostics (X : Item) (cs : List CaseSrc)
    (tab : List (Nat × Node)) (rb : Item) (R : List Item) (c : Nat) (s : List (Pos × Msg))
    (h1 : X.tok ≠ Token.Literal) (h2 : X.tok = Token.Name → X.lit ≠ "_")
    (h3 : X.tok ≠ Token.Comma) (h4 : X.tok ≠ Token.Rbrace) (h5 : X.tok ≠ Token.EOF)
    (hwf : ∀ x ∈ cs, x.WF) (hrb : rb.tok = Token.Rbrace) :
    (∀ fuel rest, parser.matchLoop (fuel + 2) tab ⟨X :: rest, c, s⟩ =
      parser.matchLoop (fuel + 1) tab ⟨rest, c + 2,
        s ++ [(X.pos, Msg.unexpected X.tok), (X.pos, Msg.text "expected comma or \x7d")]⟩) ∧
    ∃ n, ∀ k, n ≤ k →
      parser.matchLoop k tab ⟨X :: (casesToks cs ++ rb :: R), c, s⟩ =
        some (cs.foldl (fun t x => mapSet t (hash32 x.label.lit) x.node) tab,
          ⟨rb :: R, c + 2,
            s ++ [(X.pos, Msg.unexpected X.tok), (X.pos, Msg.text "expected comma or \x7d")]⟩) := by
  refine ⟨fun fuel rest => matchLoop_skip X rest tab c s h1 h2 h3 h4 h5 fuel, ?_⟩
  obtain ⟨n, hn⟩ := ret_ge _ (fun k r => (monoAt k).matchLoop tab _ r) _
    (matchLoop_ok cs tab hwf rb R (c + 2)
      (s ++ [(X.pos, Msg.unexpected X.tok), (X.pos, Msg.text "expected comma or \x7d")]) hrb)
  refine ⟨n + 2, fun k hk => ?_⟩
  obtain ⟨m, rfl⟩ : ∃ m, k = m + 2 := ⟨k - 2, by omega⟩
  rw [matchLoop_skip X _ tab c s h1 h2 h3 h4 h5 m]
  exact hn (m + 1) (by omega)

theorem C18_stray_label_two_diagnostics_witness :
    (tName "foo").tok ≠ Token.Literal ∧ (tName "foo").lit ≠ "_" ∧
    (∀ x ∈ [exCase "a" "2"], x.WF) ∧
    ∃ n, ∀ k, n ≤ k →
      parser.matchLoop k [] ⟨tName "foo" ::
          (casesToks [exCase "a" "2"] ++ tk Token.Rbrace :: [tk Token.Semi]), 0, []⟩ =
        some ([exCase "a" "2"].foldl (fun t x => mapSet t (hash32 x.label.lit) x.node) [],
          ⟨tk Token.Rbrace :: [tk Token.Semi], 0 + 2,
            [] ++ [((tName "foo").pos, Msg.unexpected (tName "foo").tok),
              ((tName "foo").pos, Msg.text "expected comma or \x7d")]⟩) :=
  have hwf : ∀ x ∈ [exCase "a" "2"], x.WF := by
    intro x hx
    rw [List.mem_singleton] at hx
    rw [hx]
    exact exCase_wf _ _
  ⟨by decide, by decide, hwf,
    (C18_stray_label_two_diagnostics (tName "foo") [exCase "a" "2"] [] (tk Token.Rbrace)
      [tk Token.Semi] 0 [] (by decide) (fun _ => by decide) (by decide) (by decide) (by decide)
      hwf rfl).2⟩

/-- C18 (the claim as stated fails): on
`match "x" { foo -> yield "1" , "a" -> yield "2" } ;`, in which the one case
with the label `foo` is malformed, `parse` reports eight diagnostics: two for
each of `foo`, `->` and `yield`, and, the literal `"1"` being taken for a case
label, two for the comma after it. -/
theorem C18_counterexample :
    parser.parse 30 (parser.init [tk Token.Match, tLit "x", tk Token.Lbrace,
        tName "foo", tk Token.Arrow, tk Token.Yield, tLit "1", tk Token.Comma,
        tLit "a", tk Token.Arrow, tk Token.Yield, tLit "2", tk Token.Rbrace, tk Token.Semi,
        tk Token.EOF]) =
      some ([Node.MatchStmt pos0 (Node.Lit pos0 0 "x")
          [(hash32 "a", Node.YieldStmt pos0 (Node.Lit pos0 0 "2"))]],
        ⟨[tk Token.EOF], 8,
          [(pos0, Msg.unexpected Token.Name), (pos0, Msg.text "expected comma or \x7d"),
            (pos0, Msg.unexpected Token.Arrow), (pos0, Msg.text "expected comma or \x7d"),
            (pos0, Msg.unexpected Token.Yield), (pos0, Msg.text "expected comma or \x7d"),
            (pos0, Msg.expected Token.Arrow), (pos0, Msg.unexpected Token.Comma)]⟩) ∧
    ∀ fuel r, parser.parse fuel (parser.init [tk Token.Match, tLit "x", tk Token.Lbrace,
        tName "foo", tk Token.Arrow, tk Token.Yield, tLit "1", tk Token.Comma,
        tLit "a", tk Token.Arrow, tk Token.Yield, tLit "2", tk Token.Rbrace, tk Token.Semi,
        tk Token.EOF]) = some r → r.2.errc = 8 := by
  have h0 : parser.parse 30 (parser.init [tk Token.Match, tLit "x", tk Token.Lbrace,
        tName "foo", tk Token.Arrow, tk Token.Yield, tLit "1", tk Token.Comma,
        tLit "a", tk Token.Arrow, tk Token.Yield, tLit "2", tk Token.Rbrace, tk Token.Semi,
        tk Token.EOF]) =
      some ([Node.MatchStmt pos0 (Node.Lit pos0 0 "x")
          [(hash32 "a", Node.YieldStmt pos0 (Node.Lit pos0 0 "2"))]],
        ⟨[tk Token.EOF], 8,
          [(pos0, Msg.unexpected Token.Name), (pos0, Msg.text "expected comma or \x7d"),
            (pos0, Msg.unexpected Token.Arrow), (pos0, Msg.text "expected comma or \x7d"),
            (pos0, Msg.unexpected Token.Yield), (pos0, Msg.text "expected comma or \x7d"),
            (pos0, Msg.expected Token.Arrow), (pos0, Msg.unexpected Token.Comma)]⟩) := rfl
  refine ⟨h0, fun fuel r h => ?_⟩
  have := parse_det fuel 30 _ r _ h h0
  rw [this]


theorem C11_zero_cmp_defers_witness :
    Value.String "x" ≠ Value.Zero ∧ (∀ r, Value.String "x" ≠ Value.Response r) ∧
    Zero.cmp (fun _ t => t.String) (fun a _ _ => Outcome.value a) (0 + 2) (Op.mk 0)
        (Value.String "x") =
      some (Outcome.value (Value.String "x")) :=
  have h1 : Value.String "x" ≠ Value.Zero := fun h => Value.noConfusion h
  have h2 : ∀ r, Value.String "x" ≠ Value.Response r := fun _ h => Value.noConfusion h
  ⟨h1, h2, (C11_zero_cmp_defers (fun _ t => t.String) (fun a _ _ => Outcome.value a) (Op.mk 0)
    (Value.String "x")).2.2.2 0 h1 h2⟩


/-! ## Chains whose arguments are operands or match statements -/

theorem argOK_of_operand (x : List Item) (h : Contract Cat.operand x) : ∃ n, ArgOK x n := by
  obtain ⟨hx, n, hn⟩ := h
  refine ⟨n, ?_, fun rest c s hne hacc => ?_⟩
  · rcases hx with h | h | h | h
    · exact Or.inl h
    · exact Or.inr (Or.inl h)
    · exact Or.inr (Or.inr (Or.inl h))
    · exact Or.inr (Or.inr (Or.inr (Or.inl h)))
  · cases rest with
    | nil => exact absurd rfl hne
    | cons i R =>
      obtain ⟨k, hk⟩ := hn i R c s (fun hr => hacc hr)
      refine ⟨k + 1, ?_⟩
      show parser.expr (k + 1) ⟨x ++ i :: R, c, s⟩ = _
      rw [expr_operand x (i :: R) c s k hx]
      exact hk

theorem argOK_of_match (x : List Item) (h : Contract Cat.matchS x) : ∃ n, ArgOK x n := by
  obtain ⟨hm, n, hn⟩ := h
  have hmE : tokOf x ≠ Token.EOF := by rw [hm]; decide
  refine ⟨n, Or.inr (Or.inr (Or.inr (Or.inr hm))), fun rest c s _ _ => ?_⟩
  obtain ⟨k, hk⟩ := hn rest c s
  refine ⟨k + 1, ?_⟩
  simp only at hk
  show parser.expr (k + 1) _ = _
  rw [parser.expr]
  simp only [tok_mk, tokOf_append _ _ hmE, hm]
  exact hk

theorem argsToks_eq (as : List (List Item × Node)) :
    argsToks as = phraseArgs (as.map Prod.fst) := by
  induction as with
  | nil => rfl
  | cons a as ih => simp [argsToks, phraseArgs, ih]

theorem argsOK_of_strict (args : List (List Item)) (h : ArgsStrict args) :
    ∃ as : List (List Item × Node), as.map Prod.fst = args ∧ ArgsOK as := by
  induction args with
  | nil => exact ⟨[], rfl, trivial⟩
  | cons a args ih =>
    obtain ⟨ha, hfollow, hrest⟩ := h
    obtain ⟨as, has, hok⟩ := ih hrest
    have hn : ∃ n, ArgOK a n := by
      rcases ha with ha | ha
      · exact argOK_of_operand a (strict_ok _ _ ha)
      · exact argOK_of_match a (strict_ok _ _ ha)
    obtain ⟨n, hn⟩ := hn
    refine ⟨(a, n) :: as, by simp [has], hn, fun hr => ?_, hok⟩
    rw [argsToks_eq, has]
    exact hfollow hr

theorem cmds_of_phrases (zs : List CmdPhrase) (h : ∀ z ∈ zs, z.WF) :
    ∃ xs : List CmdSrc, xs.map CmdSrc.phrase = zs ∧ ∀ x ∈ xs, x.WF := by
  induction zs with
  | nil => exact ⟨[], rfl, fun x hx => absurd hx (List.not_mem_nil _)⟩
  | cons z zs ih =>
    obtain ⟨xs, hxs, hwf⟩ := ih (fun z hz => h z (List.mem_cons_of_mem _ hz))
    obtain ⟨hname, harrow, hargs⟩ := h z (List.mem_cons_self _ _)
    obtain ⟨as, has, hok⟩ := argsOK_of_strict z.args hargs
    refine ⟨⟨z.name, as, z.arrow⟩ :: xs, ?_, fun x hx => ?_⟩
    · simp [CmdSrc.phrase, has, hxs]
    · rcases List.mem_cons.mp hx with hx | hx
      · rw [hx]
        exact ⟨hname, harrow, hok⟩
      · exact hwf x hx

theorem chainToks_phrase (xs : List CmdSrc) (R : List Item) :
    chainToks xs R = phraseToks (xs.map CmdSrc.phrase) R := by
  induction xs with
  | nil => rfl
  | cons x xs ih =>
    cases xs with
    | nil => simp [chainToks, phraseToks, CmdSrc.phrase, argsToks_eq]
    | cons y ys =>
      rw [chainToks_cons_cons, ih]
      simp [phraseToks, CmdSrc.phrase, argsToks_eq]

/-- C6 (amended): take a statement `c1 args1 -> ... -> ck argsk` with at least
two commands, followed by `;` or the end-of-input token, in which every
argument is an operand or a match statement of the grammar the parser reads
without a diagnostic (`Strict`: a reference has no index accessor) and no
reference argument is directly followed by an argument that starts with `[`.
Then `stmt` returns, reports nothing, and yields a `ChainStmt` whose commands
are the `k` `CommandStmt`s named `c1 .. ck` in source order, each with as
arguments, in order, the nodes `expr` reads its own arguments as. -/
theorem C6_chain_of_commands (x y : CmdPhrase) (xs : List CmdPhrase) (t : Item)
    (R : List Item) (c : Nat) (s : List (Pos × Msg)) (hwf : ∀ z ∈ x :: y :: xs, z.WF)
    (ht : t.tok = Token.Semi ∨ t.tok = Token.EOF) :
    ∃ srcs : List CmdSrc, srcs.map CmdSrc.phrase = x :: y :: xs ∧
      (∀ z ∈ srcs, ArgsOK z.args) ∧
      (∃ n, ∀ k, n ≤ k →
        parser.stmt k ⟨phraseToks (x :: y :: xs) (t :: R), c, s⟩ =
          some (Node.ChainStmt (cmdNodes srcs (t :: R)),
            ((parser.mk (t :: R) c s).got Token.Semi).2)) ∧
      (cmdNodes srcs (t :: R)).length = (x :: y :: xs).length ∧
      ∀ i (hi : i < srcs.length), ∃ pos,
        (cmdNodes srcs (t :: R))[i]? =
          some (Node.CommandStmt pos (srcs[i]).name.lit ((srcs[i]).args.map Prod.snd)) := by
  obtain ⟨srcs, hmap, hsrc⟩ := cmds_of_phrases (x :: y :: xs) hwf
  have hlen : srcs.length = (x :: y :: xs).length := by rw [← hmap, List.length_map]
  refine ⟨srcs, hmap, fun z hz => (hsrc z hz).2.2, ?_, ?_, (cmdNodes_spec srcs (t :: R)).2⟩
  · match srcs, hmap, hsrc with
    | a :: b :: l, hmap, hsrc =>
      rw [← hmap, ← chainToks_phrase]
      exact ret_ge _ (fun n r => (monoAt n).stmt _ r) _
        (stmt_chain_ok a b l (t :: R) c s hsrc (List.cons_ne_nil _ _) ht)
  · rw [(cmdNodes_spec srcs (t :: R)).1, hlen]

theorem exPhrases_wf : ∀ z ∈ exPhraseA :: exPhraseB :: [exPhraseC], z.WF := by
  intro z hz
  simp only [List.mem_cons, List.mem_singleton, List.not_mem_nil, or_false] at hz
  rcases hz with rfl | rfl | rfl
  · refine ⟨rfl, rfl, ⟨Or.inl (Strict.opRef _ (Strict.ref (tk Token.Ref) (tName "x")
        [tk Token.Dot, tName "y"] rfl rfl
        (Strict.dotsCons (tk Token.Dot) (tName "y") [] rfl rfl Strict.dotsNil))),
      fun _ => by decide,
      ⟨Or.inl (Strict.opLit (tLit "1") rfl), fun h => absurd h (by decide), trivial⟩⟩⟩
  · refine ⟨rfl, rfl, ⟨Or.inl (Strict.opObj _ (Strict.object (tk Token.Lbrace)
        (tk Token.Rbrace) [tName "k", tk Token.Colon, tLit "v"] rfl rfl
        (Strict.pairsOne (tName "k") (tk Token.Colon) [tLit "v"] rfl rfl
          (Strict.opLit (tLit "v") rfl)))),
      fun h => absurd h (by decide), trivial⟩⟩
  · refine ⟨rfl, rfl, ⟨Or.inl (Strict.opArr _ (Strict.array (tk Token.Lbrack)
        (tk Token.Rbrack) [tLit "2"] rfl rfl (Strict.litsOne (tLit "2") rfl))),
      fun h => absurd h (by decide),
      ⟨Or.inr (Strict.matchLit (tk Token.Match) (tLit "m") (tk Token.Lbrace)
        (tk Token.Rbrace) [tLit "p", tk Token.Arrow, tk Token.Yield, tLit "q"] rfl rfl rfl rfl
        (Strict.casesOne _ (Strict.caseYield (tLit "p") (tk Token.Arrow)
          [tk Token.Yield, tLit "q"] (Or.inl rfl) rfl
          (Strict.yieldS (tk Token.Yield) [tLit "q"] rfl (Strict.opLit (tLit "q") rfl))))),
        fun h => absurd h (by decide), trivial⟩⟩⟩

theorem C6_chain_of_commands_witness :
    (∀ z ∈ exPhraseA :: exPhraseB :: [exPhraseC], z.WF) ∧
    ((tk Token.Semi).tok = Token.Semi ∨ (tk Token.Semi).tok = Token.EOF) ∧
    ∃ srcs : List CmdSrc, srcs.map CmdSrc.phrase = exPhraseA :: exPhraseB :: [exPhraseC] ∧
      (∀ z ∈ srcs, ArgsOK z.args) ∧
      (∃ n, ∀ k, n ≤ k →
        parser.stmt k ⟨phraseToks (exPhraseA :: exPhraseB :: [exPhraseC])
            (tk Token.Semi :: [tk Token.EOF]), 0, []⟩ =
          some (Node.ChainStmt (cmdNodes srcs (tk Token.Semi :: [tk Token.EOF])),
            ((parser.mk (tk Token.Semi :: [tk Token.EOF]) 0 []).got Token.Semi).2)) ∧
      (cmdNodes srcs (tk Token.Semi :: [tk Token.EOF])).length =
        (exPhraseA :: exPhraseB :: [exPhraseC]).length ∧
      ∀ i (hi : i < srcs.length), ∃ pos,
        (cmdNodes srcs (tk Token.Semi :: [tk Token.EOF]))[i]? =
          some (Node.CommandStmt pos (srcs[i]).name.lit ((srcs[i]).args.map Prod.snd)) :=
  ⟨exPhrases_wf, Or.inl rfl,
    C6_chain_of_commands exPhraseA exPhraseB [exPhraseC] (tk Token.Semi) [tk Token.EOF] 0 []
      exPhrases_wf (Or.inl rfl)⟩

end Req
